import Mathlib

/-!
Verification of the Maestro scheduling / job-lifecycle core.

Shallow embedding of:
  * scheduler/condition.go   (calendar conditions)
  * scheduler/graph.go       (dependency graph: Relate, RemoveItem, Scores, ReadyItems)
  * model/bq_job.go          (pause backoff, submitJob, updateJobWithBQData)
  * the run coordinator      (processCycle, graphFromJobsById, loadRunUnfinishedJobGraph,
                              runTicker)
  * the external-wait registry (startExternalWait / cancelExternalWait / timeout)
  * the crypto helpers       (EncryptString / DecryptString / padRight, base64)

Go machine integers are modelled as Int (no arithmetic here ever overflows int64
on the inputs considered; all sizes are small), Go float64 arithmetic in the
backoff computation is modelled exactly over Rat (the operations involved are
exact for the magnitudes at play, and none of the proved statements depends on
float rounding), time.Time / time.Duration are modelled as Int nanoseconds,
JSON-encoded fields (job status blobs, parent lists) are modelled by their
decoded values, and Go maps are modelled as association lists in insertion
order (every map iteration whose order can influence a result modelled here is
sorted by the Go code itself before use; the remaining iterations are
order-insensitive, as noted at each definition).
-/

namespace Maestro

/-! ## scheduler/condition.go

`Months`/`Weekdays`/`Days`/`Hours` are Go map[...]bool sets; the only writer
(UnmarshalJSON) inserts only `true` values, so each set is modelled by the list
of its members.  A moment in time is modelled by the four calendar fields that
`Satisfied` reads from it. -/

structure Moment where
  month : Nat
  weekday : Nat
  day : Nat
  hour : Nat
deriving DecidableEq, Repr

structure Condition where
  months : List Nat
  weekdays : List Nat
  days : List Nat
  hours : List Nat
deriving DecidableEq, Repr

/-- scheduler/condition.go, Condition.Satisfied: each non-empty set must
contain the corresponding field of `now`. -/
def Condition.Satisfied (c : Condition) (now : Moment) : Bool :=
  if c.months.length > 0 && !(c.months.contains now.month) then false
  else if c.weekdays.length > 0 && !(c.weekdays.contains now.weekday) then false
  else if c.days.length > 0 && !(c.days.contains now.day) then false
  else if c.hours.length > 0 && !(c.hours.contains now.hour) then false
  else true

/-! ## Frequency ticker (run coordinator, runTicker)

time.Time values and time.Duration values are Int nanoseconds.  time.Truncate
rounds down to the nearest multiple of the period since the zero time. -/

/-- time.Truncate: round `t` down to a multiple of `d`. -/
def goTruncate (t d : Int) : Int := t - t.emod d

/-- runTicker next-firing computation: `floor(now, period) + offset` when that
is strictly after `now`, otherwise `floor(now, period) + period + offset`. -/
def runTickerNext (now period offset : Int) : Int :=
  if goTruncate now period + offset > now then goTruncate now period + offset
  else goTruncate now period + period + offset

/-- runTicker sleep decision: if `next` is before `now` (possible with a
negative offset) the ticker sleeps one second and recomputes; otherwise it
sleeps until `next` and emits a tick, i.e. `next` is the moment slept until. -/
def runTickerSleepTarget (now period offset : Int) : Option Int :=
  let next := runTickerNext now period offset
  if next < now then none else some next

/-! ## model/bq_job.go: pause / waitForJob backoff

`pause` computes, from the previous interval `b` (nanoseconds) and the random
draw `r = rand.Float64() ∈ [0,1)`:
    bo := float64(b / 1e6)            -- integer division: milliseconds
    bo *= 1.8
    bo -= bo * r * 0.25
    bo = min(bo, 15000)
    delay := time.Duration(bo) * time.Millisecond
and sleeps `delay`, returning it (the return value is the next call's `b`).
float64 is modelled exactly over Rat; time.Duration(bo) truncates toward zero,
which for the non-negative values produced here is the floor. -/

def pauseDelayNs (b : Int) (r : Rat) : Int :=
  ⌊min (((b.tdiv 1000000 : Int) : Rat) * (9 / 5) * (1 - r / 4)) 15000⌋ * 1000000

/-- The successive sleep intervals of waitForJob given the random draws `rs`,
starting from a given initial backoff value. -/
def waitDelaysFrom (b : Int) : List Rat → List Int
  | [] => []
  | r :: rs => pauseDelayNs b r :: waitDelaysFrom (pauseDelayNs b r) rs

/-- waitForJob initializes `backoff, errCnt := time.Second, 0`, so the first
`pause` call receives one second (1e9 ns). -/
def waitDelays (rs : List Rat) : List Int := waitDelaysFrom 1000000000 rs

/-- Modelled from the spec: the interval sequence that the spec describes, an
exponential backoff whose base is 250 ms (the code declares `baseBackoff = 250`
but never uses it).  Identical to `waitDelays` except for the starting value,
for comparison with the code's sequence. -/
def specWaitDelays (rs : List Rat) : List Int := waitDelaysFrom 250000000 rs

/-! ## crypto (EncryptString / DecryptString / padRight)

Byte strings are `List Nat` (each element < 256 where it matters).  The Go
standard library AES-GCM cipher is an external collaborator: it is modelled as
an abstract authenticated-encryption scheme (`GCM`) whose correctness
(`GCM.Correct`) states exactly what `cipher.AEAD` guarantees: `Open` inverts
`Seal` under the same key and nonce, and `Seal` emits bytes.  base64
URL-encoding, the key padding and the nonce-prefix ciphertext layout are
modelled concretely from the code. -/

structure GCM where
  nonceSize : Nat
  sealGCM : List Nat → List Nat → List Nat → List Nat
  openGCM : List Nat → List Nat → List Nat → Option (List Nat)

/-- The contract of cipher.NewGCM's AEAD: Open inverts Seal, and Seal produces
bytes when given bytes. -/
structure GCM.Correct (A : GCM) : Prop where
  open_seal : ∀ key nonce pt, A.openGCM key nonce (A.sealGCM key nonce pt) = some pt
  seal_bytes : ∀ key nonce pt, (∀ b ∈ pt, b < 256) →
    ∀ b ∈ A.sealGCM key nonce pt, b < 256

/-- const keyPad = "l@te f33 app13z @f+r" (ASCII bytes). -/
def keyPad : List Nat :=
  [108, 64, 116, 101, 32, 102, 51, 51, 32, 97, 112, 112, 49, 51, 122, 32, 64, 102, 43, 114]

/-- padRight: repeatedly append `p` until the length exceeds `l`, then cut to
`l` bytes.  (With an empty `p` and `s` no longer than `l` the Go loop never
terminates; that case is unreachable — `p` is always `keyPad` — and the model
returns the appended value.) -/
def padRight (s p : List Nat) (l : Nat) : List Nat :=
  if l < (s ++ p).length then (s ++ p).take l
  else if p.length = 0 then s ++ p
  else padRight (s ++ p) p l
termination_by l + 1 - s.length
decreasing_by
  simp only [List.length_append] at *
  omega

/-- The URL-safe base64 alphabet (base64.URLEncoding). -/
def b64Chars : List Char :=
  ['A', 'B', 'C', 'D', 'E', 'F', 'G', 'H', 'I', 'J', 'K', 'L', 'M',
   'N', 'O', 'P', 'Q', 'R', 'S', 'T', 'U', 'V', 'W', 'X', 'Y', 'Z',
   'a', 'b', 'c', 'd', 'e', 'f', 'g', 'h', 'i', 'j', 'k', 'l', 'm',
   'n', 'o', 'p', 'q', 'r', 's', 't', 'u', 'v', 'w', 'x', 'y', 'z',
   '0', '1', '2', '3', '4', '5', '6', '7', '8', '9', '-', '_']

def enc6 (n : Nat) : Char := b64Chars.getD n 'A'

def dec6 (c : Char) : Option Nat := b64Chars.findIdx? (fun x => x = c)

/-- base64.URLEncoding.EncodeToString on a byte list. -/
def b64encode : List Nat → List Char
  | a :: b :: c :: t =>
    enc6 (a / 4) :: enc6 (a % 4 * 16 + b / 16) :: enc6 (b % 16 * 4 + c / 64) ::
      enc6 (c % 64) :: b64encode t
  | [a, b] => [enc6 (a / 4), enc6 (a % 4 * 16 + b / 16), enc6 (b % 16 * 4), '=']
  | [a] => [enc6 (a / 4), enc6 (a % 4 * 16), '=', '=']
  | [] => []

/-- base64.URLEncoding.DecodeString on a char list (fails on input that is not
well-formed base64): four-character groups, with one or two padding characters
closing the final group. -/
def b64decode : List Char → Option (List Nat)
  | [] => some []
  | c1 :: c2 :: c3 :: c4 :: t =>
    if c3 = '=' ∧ c4 = '=' ∧ t = [] then do
      let x1 ← dec6 c1
      let x2 ← dec6 c2
      some [x1 * 4 + x2 / 16]
    else if c4 = '=' ∧ t = [] then do
      let x1 ← dec6 c1
      let x2 ← dec6 c2
      let x3 ← dec6 c3
      some [x1 * 4 + x2 / 16, x2 % 16 * 16 + x3 / 4]
    else do
      let x1 ← dec6 c1
      let x2 ← dec6 c2
      let x3 ← dec6 c3
      let x4 ← dec6 c4
      let rest ← b64decode t
      some ((x1 * 4 + x2 / 16) :: (x2 % 16 * 16 + x3 / 4) :: (x3 % 4 * 64 + x4) :: rest)
  | _ => none

def secretTooShortMsg : String := "secret too short"

def ciphertextTooShortMsg : String := "Ciphertext too short"

/-- EncryptString: refuse secrets under 8 bytes, derive the 32-byte key by
padding with keyPad, seal with a fresh random nonce (passed here as the
`nonce` argument, standing for the io.ReadFull(rand.Reader, ...) draw), and
base64-URL-encode nonce ++ sealed. -/
def EncryptString (A : GCM) (text secret nonce : List Nat) : Except String (List Char) :=
  if secret.length < 8 then .error secretTooShortMsg
  else
    let key := (padRight secret keyPad 32).take 32
    .ok (b64encode (nonce ++ A.sealGCM key nonce text))

/-- DecryptString: derive the same key, base64-URL-decode, split off the
nonce-size prefix, and open. -/
def DecryptString (A : GCM) (text : List Char) (secret : List Nat) : Except String (List Nat) :=
  let key := (padRight secret keyPad 32).take 32
  match b64decode text with
  | none => .error ("illegal base64 data")
  | some ciphertext =>
    if ciphertext.length < A.nonceSize then .error ciphertextTooShortMsg
    else
      match A.openGCM key (ciphertext.take A.nonceSize) (ciphertext.drop A.nonceSize) with
      | none => .error ("message authentication failed")
      | some plaintext => .ok plaintext

/-! ## scheduler/graph.go

A Graph is a Go map from names to nodes; a node holds maps of its parents and
children (keyed by name) plus the Item.  The structural part is modelled as an
association list `Shape` in insertion order (Go map insertion; the only map
iterations are (a) `sortedNodes`, which sorts names before use, (b)
`childSentinel`, whose effect — one sentinel edge per childless node — does not
depend on order, and (c) `len`).  Items are recovered separately by name where
needed (`Item.GetName` of the stored item is always the node's key).

`sortedNodes` in the corpus pre-sizes its slices and therefore also yields
`len(nmap)` nil nodes and, when `""` is a key of the map, extra duplicates of
that node (the latent bug recorded in the spec's design notes); both are
dropped or deduplicated by every traversal (`n != nil` and the `seen` set), so
the model uses the sorted names directly.  `childSentinel` ranges over the map
while inserting the sentinel entry; the Go spec leaves it open whether the new
entry is visited (which would give the sentinel an inert self-loop that no
traversal or result can observe, since the `seen` set swallows it); the model
takes the run in which it is skipped. -/

structure SNode where
  parents : List String
  children : List String
deriving DecidableEq, Repr

abbrev Shape := List (String × SNode)

def lookupS : Shape → String → Option SNode
  | [], _ => none
  | e :: rest, n => if e.1 == n then some e.2 else lookupS rest n

def containsKeyS (g : Shape) (n : String) : Bool := (lookupS g n).isSome

def keysS (g : Shape) : List String := g.map (fun e => e.1)

def addItemS (g : Shape) (n : String) : Shape :=
  if containsKeyS g n then g else g ++ [(n, ⟨[], []⟩)]

def updateS (g : Shape) (n : String) (f : SNode → SNode) : Shape :=
  g.map (fun e => if e.1 == n then (e.1, f e.2) else e)

/-- node.addParent: record a parent name if not already present. -/
def addParentS (nd : SNode) (p : String) : SNode :=
  if nd.parents.contains p then nd else { nd with parents := nd.parents ++ [p] }

/-- node.addChild: record a child name if not already present. -/
def addChildS (nd : SNode) (c : String) : SNode :=
  if nd.children.contains c then nd else { nd with children := nd.children ++ [c] }

/-- Graph.Relate: insert the child (and the parent, when non-nil) if new, and
record the edge on both sides. -/
def relateS (g : Shape) (pa : Option String) (c : String) : Shape :=
  match pa with
  | none => addItemS g c
  | some p =>
    let g1 := addItemS g c
    let g2 := addItemS g1 p
    let g3 := updateS g2 c (fun nd => addParentS nd p)
    updateS g3 p (fun nd => addChildS nd c)

def buildShape (rels : List (Option String × String)) : Shape :=
  rels.foldl (fun g r => relateS g r.1 r.2) []

def removeErrMsg : String := "Node has parents, cannot be removed."

/-- Graph.RemoveItem: refuse when the node has parents; otherwise detach the
node from all its children and drop it. -/
def removeItemS (g : Shape) (n : String) : Except String Shape :=
  match lookupS g n with
  | none => .ok g
  | some nd =>
    if nd.parents.length > 0 then .error removeErrMsg
    else
      let g1 := nd.children.foldl
        (fun h c => updateS h c (fun m => { m with parents := m.parents.erase n })) g
      .ok (g1.filter (fun e => !(e.1 == n)))

/-- Ascending insertion sort for names (the observable effect of
`sortedNodes`: traversal enumerates neighbour names in sorted order). -/
def insStr (x : String) : List String → List String
  | [] => [x]
  | y :: ys => if x ≤ y then x :: y :: ys else y :: insStr x ys

def sortStrings (l : List String) : List String := l.foldr insStr []

/-- Breadth-first traversal (bftUp / bftDown, depending on the selector
`sel`): pop a node; a nil node or an already-seen node is skipped; otherwise
visit it and enqueue its neighbours in name-sorted order.  Returns the visit
order. -/
def bftLoop (sel : SNode → List String) (g : Shape) (queue seen : List String) :
    List String :=
  match queue with
  | [] => []
  | n :: rest =>
    match h : lookupS g n with
    | none => bftLoop sel g rest seen
    | some nd =>
      if hseen : seen.contains n then bftLoop sel g rest seen
      else n :: bftLoop sel g (rest ++ sortStrings (sel nd)) (n :: seen)
termination_by (((keysS g).filter (fun k => !(seen.contains k))).length, queue.length)
decreasing_by
  · apply Prod.Lex.right
    simp only [List.length_cons]
    omega
  · apply Prod.Lex.right
    simp only [List.length_cons]
    omega
  · apply Prod.Lex.left
    have hk : y ∈ keysS g := by
      clear hseen
      induction g with
      | nil => simp [lookupS] at h
      | cons e rest ih =>
        by_cases he : e.1 == y
        · have : e.1 = y := by simpa using he
          simp [keysS, this]
        · rw [lookupS, if_neg he] at h
          simp only [keysS, List.map_cons, List.mem_cons]
          exact Or.inr (ih h)
    have heq : (keysS g).filter (fun k => !((y :: seen).contains k)) =
        ((keysS g).filter (fun k => !(seen.contains k))).filter (fun k => !(k == y)) := by
      rw [List.filter_filter]
      apply List.filter_congr
      intro x _
      simp only [List.contains_cons, Bool.not_or]
    rw [heq]
    apply List.length_filter_lt_length_iff_exists.mpr
    refine ⟨y, List.mem_filter.mpr ⟨hk, by simpa using hseen⟩, by simp⟩

/-- The sentinel's name (csName = ""). -/
def csName : String := ""

/-- Graph.childSentinel: when no sentinel entry exists yet, relate the
sentinel as a child of every node that has no children (it is then the sole
child of every former leaf, and its parents are exactly the former leaves); if
no node is childless nothing is inserted and the lookup of the empty name
still fails (childSentinel returns nil, which every traversal skips). -/
def addSentinelS (g : Shape) : Shape :=
  if containsKeyS g csName then g
  else
    let leaves := (g.filter (fun e => e.2.children.isEmpty)).map (fun e => e.1)
    if leaves.isEmpty then g
    else
      (g.map (fun e =>
        if e.2.children.isEmpty then (e.1, { e.2 with children := [csName] }) else e))
        ++ [(csName, ⟨leaves, []⟩)]

/-- The upward traversal order of Scores: bftUp from the sentinel (a nil start
when no sentinel exists). -/
def scoreOrder (g : Shape) : List String := bftLoop (fun nd => nd.parents) g [csName] []

/-- One node's score as computed inside Scores: bftDown from the node counts
its progeny, starting the counter at -2 (self + sentinel). -/
def nodeScore (g : Shape) (n : String) : Int :=
  ((bftLoop (fun nd => nd.children) g [n] []).length : Int) - 2

/-- Stable insertion (descending by score): a new element goes after every
element whose score is greater than or equal to its own. -/
def insDesc (x : String × Int) : List (String × Int) → List (String × Int)
  | [] => [x]
  | y :: ys => if y.2 < x.2 then x :: y :: ys else y :: insDesc x ys

/-- sort.SliceStable with less = (Score i > Score j): the unique reordering
that is sorted by score descending and keeps ties in input order. -/
def sortScores (l : List (String × Int)) : List (String × Int) :=
  l.foldl (fun acc x => insDesc x acc) []

/-- Graph.Scores on a graph that already went through childSentinel. -/
def scoresAfter (g : Shape) : List (String × Int) :=
  sortScores ((scoreOrder g).filterMap
    (fun n => if n = csName then none else some (n, nodeScore g n)))

/-- Graph.Scores: run childSentinel (mutating the graph), then score every
node visited upward from the sentinel, skipping the sentinel itself, and
stable-sort by score descending. -/
def ScoresS (g : Shape) : List (String × Int) := scoresAfter (addSentinelS g)

def cycleErrMsg : String := "Cycle detected."

/-- The names, in Scores order, of the nodes with no parents. -/
def readyNamesAfter (g : Shape) : List String :=
  (scoresAfter g).filterMap (fun sn =>
    match lookupS g sn.1 with
    | some nd => if nd.parents.isEmpty then some sn.1 else none
    | none => none)

/-- Graph.ReadyItems (names level): Scores has inserted the sentinel into the
receiver map, so the test counts the sentinel ("1 for sentinel").  Fails with
the cycle error when more than one entry remains and nothing is ready. -/
def ReadyItemsS (g : Shape) : Except String (List String) :=
  let g1 := addSentinelS g
  let ready := readyNamesAfter g1
  if g1.length > 1 && ready.isEmpty then .error cycleErrMsg
  else .ok ready

/-- One iteration of the spec's take-ready-then-remove loop on the mutated
graph: compute the ready set (failing on a detected cycle), then remove each
ready node.  Returns the remaining graph, or none when nothing was ready. -/
def readyRemoveStep (g : Shape) : Except String (Option Shape) :=
  let g1 := addSentinelS g
  let ready := readyNamesAfter g1
  if g1.length > 1 && ready.isEmpty then .error cycleErrMsg
  else if ready.isEmpty then .ok none
  else
    match ready.foldlM (fun h n => removeItemS h n) g1 with
    | .error e => .error e
    | .ok g2 => .ok (some g2)

/-- Iterate readyRemoveStep up to `fuel` times (the spec's iterating
take-ready-then-remove); error is the cycle failure, `.ok true` means the
iteration stopped with an empty ready set, `.ok false` that fuel ran out. -/
def iterReady (fuel : Nat) (g : Shape) : Except String Bool :=
  match fuel with
  | 0 => .ok false
  | fuel + 1 =>
    match readyRemoveStep g with
    | .error e => .error e
    | .ok none => .ok true
    | .ok (some g2) => iterReady fuel g2

/-! ## model: BQJob, submitJob, Table, import status, external waits

A BQJob is modelled by the fields the run coordinator reads: the table id, the
decoded `parents` list (the JSON blob's decoded value; a nil or empty blob is
the empty list), the warehouse-side id, the job type, and the decoded status
blob (`nil` Status = `none`).  `cacheStatus` derives `state` and `error` from
the status blob: with no blob both stay empty; with a blob, state is the
blob's State and error is ErrorResult.Message when an ErrorResult is
present. -/

structure BQStatus where
  state : String
  errorResult : Option String
deriving DecidableEq, Repr

structure BQJob where
  tableId : Int
  parents : List Int
  bqJobId : String
  jobType : String
  status : Option BQStatus
deriving DecidableEq, Repr

/-- cacheStatus: the cached `state` field. -/
def BQJob.state (j : BQJob) : String :=
  match j.status with
  | none => ""
  | some s => s.state

/-- cacheStatus: the cached `error` field. -/
def BQJob.errorStr (j : BQJob) : String :=
  match j.status with
  | none => ""
  | some s => s.errorResult.getD ""

/-- GetName: fmt.Sprintf of the table id. -/
def intName (i : Int) : String := toString i

def bqSchemaErr : String := "Provided Schema does not match Table"

def tempErrMarker : String := "server encountered a temporary error"

/-- strings.Contains. -/
def containsSubstr (s sub : String) : Bool := decide (sub.toList <:+: s.toList)

/-- strings.Split with a one-character separator, on the character list. -/
def splitOnChar (c : Char) : List Char → List (List Char)
  | [] => [[]]
  | x :: xs =>
    if x = c then [] :: splitOnChar c xs
    else
      match splitOnChar c xs with
      | [] => [[x]]
      | y :: ys => (x :: y) :: ys

/-- updateJobWithBQData's treatment of the returned job id: when the id is in
project:job or project.job form, keep the part after the last separator
(strings.Contains then strings.Split and the last piece, per separator). -/
def stripJobId (s : String) : String :=
  let cs := s.toList
  let s1 := if cs.contains ':' then ((splitOnChar ':' cs).getLast?).getD cs else cs
  let s2 := if s1.contains '.' then ((splitOnChar '.' s1).getLast?).getD s1 else s1
  ⟨s2⟩

/-- The warehouse's answer to StartJob, reduced to the fields the model
reads (the job id and the status blob; statistics and configuration are
copied into fields the coordinator does not read). -/
structure WhJob where
  id : String
  status : Option BQStatus
deriving DecidableEq, Repr

inductive StartRes where
  | ok (j : WhJob)
  | err (msg : String)
deriving DecidableEq, Repr

/-- updateJobWithBQData, restricted to the modelled fields: record the
(stripped) warehouse-side job id and the returned status blob. -/
def updateJobWithBQData (job : BQJob) (b : WhJob) : BQJob :=
  { job with bqJobId := stripJobId b.id, status := b.status }

structure SubmitOutcome where
  res : Except String Unit
  job : BQJob
  wrote : Bool
deriving Repr

def updateFailedMsg : String := "UpdateBQJob failed"

/-- model/bq_job.go submitJob.  `first` and `second` are the results of the
(up to) two m.bq.StartJob calls, `updOk` whether m.db.UpdateBQJob succeeds.
`wrote` records whether the catalog update was invoked.  Note the source:

    bqJob, err := m.bq.StartJob(conf)
    if err != nil {
      if strings.Contains(err.Error(), "server encountered a temporary error") {
        time.Sleep(10 * time.Second)
        bqJob, err = m.bq.StartJob(conf)
        if err != nil { return err }
      }
      return err          // err is nil after a successful retry
    }
    job = updateJobWithBQData(job, bqJob)
    if err = m.db.UpdateBQJob(job); err != nil { return err }

after a successful retry the function returns the (nil) error without ever
reaching updateJobWithBQData or UpdateBQJob. -/
def submitJob (job : BQJob) (first second : StartRes) (updOk : Bool) : SubmitOutcome :=
  match first with
  | .err e =>
    if containsSubstr e tempErrMarker then
      match second with
      | .err e2 => ⟨.error e2, job, false⟩
      | .ok _ => ⟨.ok (), job, false⟩
    else ⟨.error e, job, false⟩
  | .ok b =>
    let j := updateJobWithBQData job b
    if updOk then ⟨.ok (), j, true⟩ else ⟨.error updateFailedMsg, j, true⟩

/-- The Table fields the run coordinator and the external-wait registry
read or write. -/
structure Table where
  id : Int
  importDbId : Int
  externalTmout : Int
  error : String
  running : Bool
deriving DecidableEq, Repr

def Table.IsImport (t : Table) : Bool := t.importDbId != 0

def Table.IsExternal (t : Table) : Bool := t.externalTmout != 0

inductive ImportStatus where
  | impNone
  | impQueued
  | impRunning
  | impDone
  | impError
deriving DecidableEq, Repr

/-- Go map assignment m[id] = v on an association list. -/
def setAssoc {α : Type} : List (Int × α) → Int → α → List (Int × α)
  | [], id, v => [(id, v)]
  | e :: rest, id, v => if e.1 == id then (e.1, v) :: rest else e :: setAssoc rest id v

def lookupAssoc {α : Type} : List (Int × α) → Int → Option α
  | [], _ => none
  | e :: rest, id => if e.1 == id then some e.2 else lookupAssoc rest id

/-- The process state the modelled operations touch: the run's job rows, the
table rows, the process-local import-status map, the process-local
external-waits map (entry: the registered job, nil when registered outside a
run), and whether the run's end time was stamped. -/
structure PCState where
  jobs : List BQJob
  tables : List (Int × Table)
  imports : List (Int × ImportStatus)
  waits : List (Int × Option BQJob)
  runEnded : Bool
deriving DecidableEq, Repr

def lookupTable (st : PCState) (id : Int) : Option Table := lookupAssoc st.tables id

/-- SaveTable: persist the table row (keyed by its id). -/
def saveTable : List (Int × Table) → Table → List (Int × Table)
  | [], _ => []
  | e :: rest, t => (if e.1 == t.id then (e.1, t) else e) :: saveTable rest t

/-- m.GetImportStatus: the map's zero value is ImpNone. -/
def getImportStatus (st : PCState) (id : Int) : ImportStatus :=
  (lookupAssoc st.imports id).getD .impNone

def hasExternalWait (st : PCState) (tid : Int) : Bool :=
  (lookupAssoc st.waits tid).isSome

def notExternalMsg : String := "Not an external table"

def waitExistsMsg : String := "ExternalWait for table id already exists."

/-- Go's fmt of a whole-second time.Duration (%v): 3600s prints as 1h0m0s. -/
def goDurStr (secs : Nat) : String :=
  if secs ≥ 3600 then
    toString (secs / 3600) ++ "h" ++ toString (secs % 3600 / 60) ++ "m" ++
      toString (secs % 60) ++ "s"
  else if secs ≥ 60 then toString (secs / 60) ++ "m" ++ toString (secs % 60) ++ "s"
  else toString secs ++ "s"

/-- fmt.Errorf("External wait timed out after %v", tmout). -/
def externalWaitTimeoutMsg (tmoutSecs : Int) : String :=
  "External wait timed out after " ++ goDurStr tmoutSecs.toNat

/-- Table.startExternalWait: refuse for non-external tables and when a wait
already exists; otherwise mark the table running, insert the waits entry and
spawn the timeout task (modelled as the separate event
`externalWaitTimeout`). -/
def startExternalWait (st : PCState) (t : Table) (job : Option BQJob) :
    Except String PCState :=
  if !t.IsExternal then .error notExternalMsg
  else if hasExternalWait st t.id then .error waitExistsMsg
  else .ok { st with tables := saveTable st.tables ({ t with running := true }),
                     waits := setAssoc st.waits t.id job }

/-- The timeout arm of the wait task's select: `t.setError(m, fmt.Errorf(...))`
— record the timeout message on the table and clear its running flag.  The
waits map is not touched by this arm. -/
def externalWaitTimeout (st : PCState) (t : Table) : PCState :=
  let t2 := { t with running := false, error := externalWaitTimeoutMsg t.externalTmout }
  { st with tables := saveTable st.tables t2 }

/-- Table.cancelExternalWait: close the channel, drop the entry, give back the
registered job (none when no wait existed). -/
def cancelExternalWait (st : PCState) (tid : Int) : PCState × Option (Option BQJob) :=
  match lookupAssoc st.waits tid with
  | none => (st, none)
  | some j =>
    ({ st with waits := st.waits.filter (fun e => !(e.1 == tid)) }, some j)

/-! ## The run coordinator: loadRunUnfinishedJobGraph / graphFromJobsById /
processCycle.

`maxErrCnt` is 0 for a run that was never resumed.  The byId map is keyed by
table id; the run's jobs are assumed to have pairwise distinct table ids in
the theorems (one job per table in a run), making the insertion order of the
Go map irrelevant; the model keeps the job-list order. -/

/-- loadRunUnfinishedJobGraph's filtering loop: skip jobs whose error carries
the schema-mismatch marker; count other errors; keep a job unless it is DONE
and (errorless, or within a resumed run's allowed error count). -/
def buildByIdFrom (maxErrCnt : Nat) : List BQJob → Nat → List (Int × BQJob)
  | [], _ => []
  | j :: rest, errCnt =>
    if containsSubstr j.errorStr bqSchemaErr then buildByIdFrom maxErrCnt rest errCnt
    else
      let errCnt1 := if j.errorStr != "" then errCnt + 1 else errCnt
      if j.state != "DONE" ||
          (j.errorStr != "" && (maxErrCnt == 0 || (maxErrCnt > 0 && errCnt1 > maxErrCnt)))
      then (j.tableId, j) :: buildByIdFrom maxErrCnt rest errCnt1
      else buildByIdFrom maxErrCnt rest errCnt1

def buildById (maxErrCnt : Nat) (jobs : List BQJob) : List (Int × BQJob) :=
  buildByIdFrom maxErrCnt jobs 0

/-- The Relate calls graphFromJobsById makes for one job: one edge per parent
table id that has a job in the map, or a nil-parent insertion when none
does. -/
def relsOfJob (ks : List Int) (j : BQJob) : List (Option String × String) :=
  let found := j.parents.filter (fun pid => ks.contains pid)
  if found.isEmpty then [(none, intName j.tableId)]
  else found.map (fun pid => (some (intName pid), intName j.tableId))

/-- graphFromJobsById: build the graph from the per-job Relate calls. -/
def graphFromJobsById (byId : List (Int × BQJob)) : Shape :=
  buildShape (byId.bind (fun e => relsOfJob (byId.map (fun x => x.1)) e.2))

def jobsByName (byId : List (Int × BQJob)) : List (String × BQJob) :=
  byId.map (fun e => (intName e.1, e.2))

def lookupByName : List (String × BQJob) → String → Option BQJob
  | [], _ => none
  | e :: rest, n => if e.1 == n then some e.2 else lookupByName rest n

def runJobErrorMsg (tid : Int) (e : String) : String :=
  "Error in table " ++ intName tid ++ ": " ++ e

def runImportErrorMsg (tid : Int) : String :=
  "Errors encountered during import of table " ++ intName tid ++ "."

def tableMissingMsg : String := "table not found"

/-- The body of processCycle's loop over the ready items, for one ready job.
Returns (the job submitted to the warehouse if any, the new state, the error
that fails the run if any).  `wh` gives, per table id, the results of the (up
to two) StartJob calls a submission would make; UpdateBQJob is taken to
succeed. -/
def processReadyJob (wh : Int → StartRes × StartRes) (st : PCState) (job : BQJob) :
    Option BQJob × PCState × Option String :=
  if job.errorStr != "" then
    (none, st, some (runJobErrorMsg job.tableId job.errorStr))
  else if job.bqJobId == "" then
    if job.jobType == "load" then
      match getImportStatus st job.tableId with
      | .impError => (none, st, some (runImportErrorMsg job.tableId))
      | .impNone =>
        match lookupTable st job.tableId with
        | none => (none, st, some tableMissingMsg)
        | some t =>
          if t.IsImport then
            -- t.setRunning(m, true); m.queueImport(t, nil, job): the task is
            -- accepted by the queue and the status set to ImpQueued before
            -- queueImport returns (its error result is ignored here).
            (none, { st with tables := saveTable st.tables ({ t with running := true }),
                             imports := setAssoc st.imports t.id .impQueued }, none)
          else if t.IsExternal && !(hasExternalWait st t.id) then
            -- t.startExternalWait(m, job); its error result is ignored.
            match startExternalWait st t (some job) with
            | .ok st1 => (none, st1, none)
            | .error _ => (none, st, none)
          else (none, st, none)
      | _ => (none, st, none)
    else
      -- a normal query BQ job
      match lookupTable st job.tableId with
      | none => (none, st, some tableMissingMsg)
      | some t =>
        -- t.Error = ""  (Issue #117) ; t.setRunning(m, true)
        let st1 := { st with tables := saveTable st.tables ({ t with error := "", running := true }) }
        let out := submitJob job (wh job.tableId).1 (wh job.tableId).2 true
        let st2 := if out.wrote
          then { st1 with jobs := st1.jobs.map (fun x => if x.tableId == job.tableId then out.job else x) }
          else st1
        match out.res with
        | .error e =>
          -- t.setError(m, err): running false, error recorded; the run fails.
          (none, { st2 with tables := saveTable st2.tables ({ t with error := e, running := false }) },
            some e)
        | .ok _ => (some job, st2, none)
  else (none, st, none)

/-- processCycle's `for _, item := range ready` loop; stops at the first
failure. -/
def cycleLoop (wh : Int → StartRes × StartRes) (items : List BQJob) (st : PCState) :
    List BQJob × PCState × Option String :=
  match items with
  | [] => ([], st, none)
  | j :: rest =>
    match processReadyJob wh st j with
    | (sub, st1, some e) => (sub.toList, st1, some e)
    | (sub, st1, none) =>
      let r := cycleLoop wh rest st1
      (sub.toList ++ r.1, r.2.1, r.2.2)

/-- processCycle: load the unfinished-job graph; when it is empty stamp the
run's end time; otherwise compute the ready items and process each.  Returns
(submitted jobs, new state, error failing the run). -/
def processCycle (maxErrCnt : Nat) (wh : Int → StartRes × StartRes) (st : PCState) :
    List BQJob × PCState × Option String :=
  let byId := buildById maxErrCnt st.jobs
  let g := graphFromJobsById byId
  if g.isEmpty then ([], { st with runEnded := true }, none)
  else
    match ReadyItemsS g with
    | .error e => ([], st, some e)
    | .ok readyNames =>
      let items := readyNames.filterMap (fun n => lookupByName (jobsByName byId) n)
      cycleLoop wh items st

/-! ## Specification-side notions used in theorem statements -/

/-- One traversal edge (with respect to a neighbour selector), as a relation
on names. -/
def stepSel (sel : SNode → List String) (g : Shape) (a b : String) : Prop :=
  ∃ nd, lookupS g a = some nd ∧ b ∈ sel nd

/-- Every selected neighbour of a node is itself a node. -/
def SelClosed (sel : SNode → List String) (g : Shape) : Prop :=
  ∀ n nd, lookupS g n = some nd → ∀ x ∈ sel nd, containsKeyS g x = true

/-- One child edge, as a relation on names. -/
def childStep (g : Shape) (a b : String) : Prop :=
  stepSel (fun nd => nd.children) g a b

/-- One parent edge, as a relation on names. -/
def parentStep (g : Shape) (a b : String) : Prop :=
  stepSel (fun nd => nd.parents) g a b

/-- `b` is a descendant of `a` (reflexive-transitive closure of child
edges). -/
def DownReach (g : Shape) (a b : String) : Prop :=
  Relation.ReflTransGen (childStep g) a b

/-- `b` is an ancestor of `a` (reflexive-transitive closure of parent
edges). -/
def UpReach (g : Shape) (a b : String) : Prop :=
  Relation.ReflTransGen (parentStep g) a b

/-- `n` is a node of `g` with no children. -/
def childlessKey (g : Shape) (n : String) : Prop :=
  ∃ nd, lookupS g n = some nd ∧ nd.children = []

/-- Every edge endpoint is a node of the graph. -/
def closedS (g : Shape) : Bool :=
  g.all (fun e => e.2.parents.all (containsKeyS g) && e.2.children.all (containsKeyS g))

/-- Parent and child maps record each edge symmetrically. -/
def symS (g : Shape) : Bool :=
  g.all (fun e =>
    e.2.parents.all (fun p =>
      match lookupS g p with
      | some nd => nd.children.contains e.1
      | none => false) &&
    e.2.children.all (fun c =>
      match lookupS g c with
      | some nd => nd.parents.contains e.1
      | none => false))

/-- Well-formedness of a graph shape, as established by any sequence of
Relate calls on items whose names are non-empty: keys are unique, edges are
closed and symmetric, and the sentinel name is not a node. -/
structure WFShape (g : Shape) : Prop where
  nodup : (keysS g).Nodup
  closed : closedS g = true
  symm : symS g = true
  nocs : containsKeyS g csName = false

/-- The job row stored for a table id. -/
def lookupJob : List BQJob → Int → Option BQJob
  | [], _ => none
  | j :: rest, tid => if j.tableId == tid then some j else lookupJob rest tid

/-! Concrete instances used by counterexamples and witnesses. -/

/-- Relate(a, a): a single node related to itself. -/
def selfLoopShape : Shape := relateS [] (some ("a")) ("a")

/-- Relate(a, b); Relate(b, a): a two-node cycle. -/
def twoCycleShape : Shape := relateS (relateS [] (some ("a")) ("b")) (some ("b")) ("a")

/-- The graph with edges a→x→y and p→c, p→d plus the isolated node b: node
`p` (score 2, two leaf children) is visited upward from the sentinel before
node `a` (score 2, a two-link chain), although `a` precedes `p` both in
insertion order and lexically. -/
def tieShape : Shape :=
  buildShape [(some ("a"), "x"), (none, "b"), (some ("x"), "y"),
    (some ("p"), "c"), (some ("p"), "d")]

/-- A parent job that is DONE but carries the schema-mismatch error. -/
def cxParentJob : BQJob :=
  ⟨1, [], "bq1", "query", some ⟨"DONE", some (bqSchemaErr ++ " x.")⟩⟩

/-- A pending child job listing table 1 as its only parent. -/
def cxChildJob : BQJob := ⟨2, [1], "", "query", none⟩

/-- A warehouse that always starts jobs successfully. -/
def whAlwaysOk : Int → StartRes × StartRes :=
  fun _ => (.ok ⟨"newid", some ⟨"RUNNING", none⟩⟩, .ok ⟨"newid", some ⟨"RUNNING", none⟩⟩)

/-- Catalog state for the schema-mismatch counterexample: the two jobs above
and their (summary) tables. -/
def cxState : PCState :=
  ⟨[cxParentJob, cxChildJob],
   [(1, ⟨1, 0, 0, "", false⟩), (2, ⟨2, 0, 0, "", false⟩)], [], [], false⟩

/-- An external table with a one-hour timeout. -/
def cxExtTable : Table := ⟨1, 0, 3600, "", false⟩

/-- State holding only that table. -/
def cxExtState : PCState := ⟨[], [(1, cxExtTable)], [], [], false⟩

/-- A well-behaved warehouse: every StartJob call succeeds at once, the
returned id is non-empty after stripping, and the returned status blob is a
non-terminal state with no error. -/
def WhGood (wh : Int → StartRes × StartRes) : Prop :=
  ∀ tid, ∃ b, (wh tid).1 = StartRes.ok b ∧ stripJobId b.id ≠ "" ∧
    ∃ s, b.status = some s ∧ s.state ≠ "DONE" ∧ s.errorResult = none

/-- A job the ready loop can never submit to the warehouse: its warehouse-side
id is already set, or it is an import (load) job, or it carries an error. -/
def InertJob (j : BQJob) : Prop :=
  j.bqJobId ≠ "" ∨ j.jobType = "load" ∨ j.errorStr ≠ ""

/-- A warehouse whose first StartJob answer is a temporary error and whose
retry succeeds. -/
def whRetry : Int → StartRes × StartRes :=
  fun _ => (.err tempErrMarker, .ok ⟨"newid", some ⟨"RUNNING", none⟩⟩)

/-- A single pending query job, and a catalog holding it and its table. -/
def c2Job : BQJob := ⟨1, [], "", "query", none⟩

def c2State : PCState := ⟨[c2Job], [(1, ⟨1, 0, 0, "", false⟩)], [], [], false⟩

/-! # Theorems -/

/-! ## Association-list helpers -/

theorem lookupAssoc_setAssoc_self {α : Type} (l : List (Int × α)) (id : Int) (v : α) :
    lookupAssoc (setAssoc l id v) id = some v := by
  induction l with
  | nil => simp [setAssoc, lookupAssoc]
  | cons e rest ih =>
    by_cases he : e.1 == id
    · simp [setAssoc, lookupAssoc, he]
    · simp only [setAssoc, he, Bool.false_eq_true, if_neg, not_false_iff]
      rw [lookupAssoc, if_neg (by simpa using he)]
      exact ih

theorem lookupAssoc_saveTable (ts : List (Int × Table)) (t : Table) (id : Int) :
    lookupAssoc (saveTable ts t) id =
      if id = t.id then (lookupAssoc ts id).map (fun _ => t) else lookupAssoc ts id := by
  induction ts with
  | nil => simp [saveTable, lookupAssoc]
  | cons e rest ih =>
    by_cases he : (e.1 == t.id) = true <;> by_cases hid : (e.1 == id) = true
    · have h1 : e.1 = t.id := by simpa using he
      have h2 : e.1 = id := by simpa using hid
      have h3 : id = t.id := by rw [← h2, h1]
      simp [saveTable, lookupAssoc, he, hid, h3]
    · have h1 : e.1 = t.id := by simpa using he
      have h3 : ¬ (id = t.id) := by
        intro hx
        apply hid
        simp [h1 ▸ hx.symm]
      simp [saveTable, lookupAssoc, he, hid, h3, ih]
    · have h2 : e.1 = id := by simpa using hid
      have h3 : ¬ (id = t.id) := by
        intro hx
        apply he
        simp [h2 ▸ hx]
      simp [saveTable, lookupAssoc, he, hid, h3]
    · simp [saveTable, lookupAssoc, he, hid, ih]

/-! ## C8: the condition evaluator -/

/-- C8: Satisfied returns true exactly when, for each of the four calendar
sets that is non-empty, the moment's corresponding field is a member; a
condition with four empty sets is satisfied by every moment. -/
theorem condition_satisfied_characterization (c : Condition) (now : Moment) :
    (c.Satisfied now = true ↔
      ((c.months ≠ [] → now.month ∈ c.months) ∧
       (c.weekdays ≠ [] → now.weekday ∈ c.weekdays) ∧
       (c.days ≠ [] → now.day ∈ c.days) ∧
       (c.hours ≠ [] → now.hour ∈ c.hours))) ∧
    Condition.Satisfied ⟨[], [], [], []⟩ now = true := by
  constructor
  · rcases c with ⟨ms, ws, ds, hs⟩
    unfold Condition.Satisfied
    cases ms <;> cases ws <;> cases ds <;> cases hs <;>
      simp [List.length_cons, List.contains_cons, List.elem_iff]
  · rfl

/-! ## C10: submitJob on the transient-retry path -/

/-- C10: when the first StartJob call fails with the temporary-error marker
and the retried call succeeds, submitJob returns success while leaving the job
record untouched — the retry's warehouse-side id is not recorded and
UpdateBQJob is never invoked; the catalog write happens only when the first
call succeeds. -/
theorem submitJob_retry_success_skips_update :
    (∀ (job : BQJob) (e : String) (b : WhJob) (updOk : Bool),
      containsSubstr e tempErrMarker = true →
      submitJob job (.err e) (.ok b) updOk = ⟨.ok (), job, false⟩) ∧
    (∀ (job : BQJob) (first second : StartRes) (updOk : Bool),
      (submitJob job first second updOk).wrote = true → ∃ b, first = .ok b) := by
  constructor
  · intro job e b updOk h
    simp [submitJob, h]
  · intro job first second updOk h
    cases first with
    | ok b => exact ⟨b, rfl⟩
    | err e =>
      exfalso
      simp only [submitJob] at h
      by_cases hc : containsSubstr e tempErrMarker = true
      · rw [if_pos hc] at h
        cases second <;> simp at h
      · rw [if_neg hc] at h
        simp at h

theorem submitJob_retry_success_skips_update_witness :
    containsSubstr tempErrMarker tempErrMarker = true ∧
    submitJob ⟨7, [], "", "query", none⟩ (.err tempErrMarker) (.ok ⟨"newid", none⟩) true =
      ⟨.ok (), ⟨7, [], "", "query", none⟩, false⟩ ∧
    (∃ b, (StartRes.ok (⟨"newid", none⟩ : WhJob)) = StartRes.ok b) := by
  refine ⟨by decide, ?_, ?_⟩
  · exact submitJob_retry_success_skips_update.1 _ tempErrMarker ⟨"newid", none⟩ true (by decide)
  · exact submitJob_retry_success_skips_update.2 ⟨7, [], "", "query", none⟩ _ (.err "") true (by rfl)

/-! ## C4: the external-wait timeout -/

/-- C4 counterexample: table 1 has external-timeout 3600 and a registered
wait; after the timeout fires, the table's error is the wait-timed-out
message, but the waits entry is still present — `hasExternalWait` returns
true, where the claim says the entry is removed and it returns false. -/
theorem externalWait_timeout_cx :
    (startExternalWait cxExtState cxExtTable none).map
      (fun st1 =>
        (hasExternalWait (externalWaitTimeout st1 cxExtTable) 1,
         (lookupTable (externalWaitTimeout st1 cxExtTable) 1).map (fun tb => tb.error))) =
      .ok (true, some (externalWaitTimeoutMsg 3600)) := by
  rfl

/-- C4 (amended): for every table on which startExternalWait succeeded and
whose wait is not cancelled before the timeout fires, the timeout records the
wait-timed-out message on the table (clearing its running flag) but leaves the
external-waits map untouched, so hasExternalWait still returns true. -/
theorem externalWait_timeout_keeps_entry (st : PCState) (t : Table) (job : Option BQJob)
    (st1 : PCState) (hrow : (lookupAssoc st.tables t.id).isSome = true)
    (h : startExternalWait st t job = .ok st1) :
    (externalWaitTimeout st1 t).waits = st1.waits ∧
    hasExternalWait (externalWaitTimeout st1 t) t.id = true ∧
    lookupTable (externalWaitTimeout st1 t) t.id =
      some { t with running := false, error := externalWaitTimeoutMsg t.externalTmout } := by
  unfold startExternalWait at h
  split at h
  · exact absurd h (by simp)
  · split at h
    · exact absurd h (by simp)
    · cases h
      refine ⟨rfl, ?_, ?_⟩
      · unfold hasExternalWait externalWaitTimeout
        simp only
        rw [lookupAssoc_setAssoc_self]
        rfl
      · unfold externalWaitTimeout lookupTable
        simp only
        rw [lookupAssoc_saveTable]
        rw [if_pos rfl]
        rw [lookupAssoc_saveTable]
        rw [if_pos rfl]
        obtain ⟨t0, ht0⟩ := Option.isSome_iff_exists.mp hrow
        rw [ht0]
        rfl

theorem externalWait_timeout_keeps_entry_witness :
    (lookupAssoc cxExtState.tables cxExtTable.id).isSome = true ∧
    ∃ st1, startExternalWait cxExtState cxExtTable none = .ok st1 ∧
      (externalWaitTimeout st1 cxExtTable).waits = st1.waits ∧
      hasExternalWait (externalWaitTimeout st1 cxExtTable) cxExtTable.id = true := by
  refine ⟨by decide, ?_⟩
  refine ⟨_, rfl, ?_⟩
  have h := externalWait_timeout_keeps_entry cxExtState cxExtTable none _ (by decide) rfl
  exact ⟨h.1, h.2.1⟩

/-! ## C7: the ticker's next-firing computation -/

/-- C7: for a positive period and an offset in [0, period), the ticker's next
firing is the least moment strictly after `now` that is congruent to the
offset modulo the period; concretely, with period 30 min and offset 0, a
moment 11:30:00 into a day fires next at 12:00:00 and 11:29:59.9999 fires at
11:30:00, and with offset -60 s, 11:30:00 sleeps until 11:59:00 (times in
nanoseconds, `d` the period-aligned start of the day). -/
theorem runTicker_next_firing :
    (∀ now period offset : Int, 0 < period → 0 ≤ offset → offset < period →
      now < runTickerNext now period offset ∧
      period ∣ (runTickerNext now period offset - offset) ∧
      (∀ t, now < t → period ∣ (t - offset) → runTickerNext now period offset ≤ t)) ∧
    (∀ d : Int, d.emod 1800000000000 = 0 →
      runTickerNext (d + 41400000000000) 1800000000000 0 = d + 43200000000000 ∧
      runTickerNext (d + 41399999900000) 1800000000000 0 = d + 41400000000000 ∧
      runTickerNext (d + 41400000000000) 1800000000000 (-60000000000) = d + 43140000000000 ∧
      runTickerSleepTarget (d + 41400000000000) 1800000000000 (-60000000000) =
        some (d + 43140000000000)) := by
  constructor
  · intro now period offset hp ho1 ho2
    have hm1 : 0 ≤ now.emod period := Int.emod_nonneg now (ne_of_gt hp)
    have hm2 : now.emod period < period := Int.emod_lt_of_pos now hp
    have hdvd : period ∣ (now - now.emod period) := Int.dvd_sub_of_emod_eq rfl
    unfold runTickerNext goTruncate
    split_ifs with hc
    · refine ⟨hc, by simpa using hdvd, ?_⟩
      intro t ht hdt
      by_contra hlt
      push_neg at hlt
      have h6 : period ∣ (now - now.emod period + offset - t) := by
        have := dvd_sub hdvd hdt
        have he : now - now.emod period - (t - offset) = now - now.emod period + offset - t := by
          ring
        rwa [he] at this
      have h8 : period ≤ now - now.emod period + offset - t := Int.le_of_dvd (by omega) h6
      omega
    · push_neg at hc
      have hdvd2 : period ∣ (now - now.emod period + period) := by
        have := dvd_add hdvd (dvd_refl period)
        simpa using this
      refine ⟨by omega, ?_, ?_⟩
      · have he : now - now.emod period + period + offset - offset =
            now - now.emod period + period := by ring
        rw [he]
        exact hdvd2
      · intro t ht hdt
        by_contra hlt
        push_neg at hlt
        have h6 : period ∣ (now - now.emod period + period + offset - t) := by
          have := dvd_sub hdvd2 hdt
          have he : now - now.emod period + period - (t - offset) =
              now - now.emod period + period + offset - t := by
            ring
          rwa [he] at this
        have h8 : period ≤ now - now.emod period + period + offset - t :=
          Int.le_of_dvd (by omega) h6
        omega
  · intro d hd
    obtain ⟨k, rfl⟩ := Int.dvd_of_emod_eq_zero hd
    have he1 : (1800000000000 * k + 41400000000000).emod 1800000000000 = 0 := by
      show (1800000000000 * k + 41400000000000) % 1800000000000 = 0
      rw [add_comm, Int.add_mul_emod_self_left]
      decide
    have he2 : (1800000000000 * k + 41399999900000).emod 1800000000000 = 1799999900000 := by
      show (1800000000000 * k + 41399999900000) % 1800000000000 = 1799999900000
      rw [add_comm, Int.add_mul_emod_self_left]
      decide
    have h1 : runTickerNext (1800000000000 * k + 41400000000000) 1800000000000 0 =
        1800000000000 * k + 43200000000000 := by
      unfold runTickerNext goTruncate
      split_ifs <;> omega
    have h2 : runTickerNext (1800000000000 * k + 41399999900000) 1800000000000 0 =
        1800000000000 * k + 41400000000000 := by
      unfold runTickerNext goTruncate
      split_ifs <;> omega
    have h3 : runTickerNext (1800000000000 * k + 41400000000000) 1800000000000 (-60000000000) =
        1800000000000 * k + 43140000000000 := by
      unfold runTickerNext goTruncate
      split_ifs <;> omega
    refine ⟨h1, h2, h3, ?_⟩
    unfold runTickerSleepTarget
    rw [h3, if_neg (by omega)]

theorem runTicker_next_firing_witness :
    ((0 : Int) < 1800000000000 ∧ (0 : Int) ≤ 0 ∧ (0 : Int) < 1800000000000 ∧
      (0 : Int) < runTickerNext 0 1800000000000 0) ∧
    ((0 : Int).emod 1800000000000 = 0 ∧
      runTickerNext (0 + 41400000000000) 1800000000000 0 = 0 + 43200000000000) := by
  constructor
  · refine ⟨by norm_num, le_refl 0, by norm_num, ?_⟩
    exact (runTicker_next_firing.1 0 1800000000000 0 (by norm_num) (le_refl 0) (by norm_num)).1
  · exact ⟨by norm_num, (runTicker_next_firing.2 0 (by norm_num)).1⟩

/-! ## C5: the polling backoff -/

/-- C5 counterexample: with zero jitter, the first interval waitForJob sleeps
is 1800 ms (the loop's backoff starts at one second, and 1000 ms x 1.8 =
1800 ms), not the 450 ms a base-250 ms backoff would produce: the spec's
sequence and the code's sequence differ already at the first element. -/
theorem pause_base_mismatch_cx :
    waitDelays [0] = [1800000000] ∧ specWaitDelays [0] = [450000000] ∧
    waitDelays [0] ≠ specWaitDelays [0] := by
  have h1 : pauseDelayNs 1000000000 0 = 1800000000 := by
    unfold pauseDelayNs
    rw [show ((1000000000 : Int).tdiv 1000000) = 1000 from by decide]
    norm_num
  have h2 : pauseDelayNs 250000000 0 = 450000000 := by
    unfold pauseDelayNs
    rw [show ((250000000 : Int).tdiv 1000000) = 250 from by decide]
    norm_num
  refine ⟨?_, ?_, ?_⟩
  · simp [waitDelays, waitDelaysFrom, h1]
  · simp [specWaitDelays, waitDelaysFrom, h2]
  · simp [waitDelays, specWaitDelays, waitDelaysFrom, h1, h2]

theorem pauseDelayNs_le_cap (b : Int) (r : Rat) : pauseDelayNs b r ≤ 15000000000 := by
  unfold pauseDelayNs
  have h1 : (⌊min (((b.tdiv 1000000 : Int) : Rat) * (9 / 5) * (1 - r / 4)) 15000⌋ : Int) ≤
      15000 := by
    have h2 := Int.floor_le_floor (α := Rat)
      (min_le_right (((b.tdiv 1000000 : Int) : Rat) * (9 / 5) * (1 - r / 4)) 15000)
    have h3 : (⌊(15000 : Rat)⌋ : Int) = 15000 := by norm_num
    omega
  omega

/-- C5 (amended): the polling sequence is a randomized exponential backoff
with growth factor 1.8, jitter of up to 25% subtracted from each interval and
every interval capped at 15 s, but its base is the one-second initial backoff
of waitForJob (the declared 250 ms base constant is never used): with jitter
draw r, the first interval is 1800 x (1 - r/4) milliseconds (floored), each
interval lies between min(1.35 x m, 15000) - 1 ms (exclusive) and
min(1.8 x m, 15000) ms where m is the previous interval in whole
milliseconds, and no interval exceeds 15 s. -/
theorem pause_backoff_characterization :
    (∀ (r : Rat) (rs : List Rat), 0 ≤ r → r ≤ 1 →
      (waitDelays (r :: rs)).head? = some (⌊(1800 : Rat) * (1 - r / 4)⌋ * 1000000)) ∧
    (∀ (b : Int) (r : Rat), 0 ≤ b → 0 ≤ r → r ≤ 1 →
      (min (((b.tdiv 1000000 : Int) : Rat) * (27 / 20)) 15000 - 1 <
          ((⌊min (((b.tdiv 1000000 : Int) : Rat) * (9 / 5) * (1 - r / 4)) 15000⌋ : Int) : Rat) ∧
        pauseDelayNs b r =
          ⌊min (((b.tdiv 1000000 : Int) : Rat) * (9 / 5) * (1 - r / 4)) 15000⌋ * 1000000 ∧
        ((⌊min (((b.tdiv 1000000 : Int) : Rat) * (9 / 5) * (1 - r / 4)) 15000⌋ : Int) : Rat) ≤
          min (((b.tdiv 1000000 : Int) : Rat) * (9 / 5)) 15000)) ∧
    (∀ (rs : List Rat) (d : Int), d ∈ waitDelays rs → d ≤ 15000000000) := by
  refine ⟨?_, ?_, ?_⟩
  · intro r rs hr0 hr1
    unfold waitDelays waitDelaysFrom
    simp only [List.head?_cons, Option.some.injEq]
    unfold pauseDelayNs
    congr 1
    congr 1
    have h1 : (((1000000000 : Int).tdiv 1000000 : Int) : Rat) = 1000 := by decide
    rw [h1]
    have h2 : (1000 : Rat) * (9 / 5) * (1 - r / 4) = 1800 * (1 - r / 4) := by ring
    rw [h2]
    apply min_eq_left
    have h3 : (1800 : Rat) * (1 - r / 4) ≤ 1800 * 1 := by
      apply mul_le_mul_of_nonneg_left _ (by norm_num)
      linarith
    linarith
  · intro b r hb hr0 hr1
    have hm0 : (0 : Rat) ≤ ((b.tdiv 1000000 : Int) : Rat) := by
      have : (0 : Int) ≤ b.tdiv 1000000 := Int.tdiv_nonneg hb (by norm_num)
      exact_mod_cast this
    set m : Rat := ((b.tdiv 1000000 : Int) : Rat) with hm
    refine ⟨?_, rfl, ?_⟩
    · have h4 : m * (27 / 20) ≤ m * (9 / 5) * (1 - r / 4) := by
        have h5 : m * (9 / 5) * (1 - r / 4) - m * (27 / 20) = m * (9 / 5) * (1 / 4 - r / 4) := by
          ring
        nlinarith [mul_nonneg (mul_nonneg hm0 (by norm_num : (0:Rat) ≤ 9 / 5))
          (by linarith : (0:Rat) ≤ 1 / 4 - r / 4)]
      have h6 : min (m * (27 / 20)) 15000 ≤ min (m * (9 / 5) * (1 - r / 4)) 15000 :=
        min_le_min h4 (le_refl _)
      have h7 := Int.sub_one_lt_floor (min (m * (9 / 5) * (1 - r / 4)) 15000)
      linarith
    · have h4 : m * (9 / 5) * (1 - r / 4) ≤ m * (9 / 5) := by
        have h5 : m * (9 / 5) - m * (9 / 5) * (1 - r / 4) = m * (9 / 5) * (r / 4) := by ring
        nlinarith [mul_nonneg (mul_nonneg hm0 (by norm_num : (0:Rat) ≤ 9 / 5))
          (by linarith : (0:Rat) ≤ r / 4)]
      have h6 : min (m * (9 / 5) * (1 - r / 4)) 15000 ≤ min (m * (9 / 5)) 15000 :=
        min_le_min h4 (le_refl _)
      have h7 := Int.floor_le (min (m * (9 / 5) * (1 - r / 4)) 15000)
      linarith
  · intro rs
    unfold waitDelays
    generalize (1000000000 : Int) = b
    induction rs generalizing b with
    | nil => intro d hd; simp [waitDelaysFrom] at hd
    | cons r rs ih =>
      intro d hd
      rw [waitDelaysFrom] at hd
      rcases List.mem_cons.mp hd with rfl | h2
      · exact pauseDelayNs_le_cap b r
      · exact ih _ _ h2

theorem pause_backoff_characterization_witness :
    ((0 : Rat) ≤ 0 ∧ (0 : Rat) ≤ 1 ∧
      (waitDelays [(0 : Rat)]).head? = some (⌊(1800 : Rat) * (1 - 0 / 4)⌋ * 1000000)) ∧
    ((0 : Int) ≤ 1000000000 ∧
      pauseDelayNs 1000000000 0 =
        ⌊min ((((1000000000 : Int).tdiv 1000000 : Int) : Rat) * (9 / 5) * (1 - 0 / 4)) 15000⌋ *
          1000000) ∧
    ((1800000000 : Int) ∈ waitDelays [(0 : Rat)] → (1800000000 : Int) ≤ 15000000000) := by
  refine ⟨⟨le_refl 0, by norm_num, ?_⟩, ⟨by norm_num, ?_⟩, ?_⟩
  · exact pause_backoff_characterization.1 0 [] (le_refl 0) (by norm_num)
  · exact (pause_backoff_characterization.2.1 1000000000 0 (by norm_num) (le_refl 0)
      (by norm_num)).2.1
  · intro h
    exact pause_backoff_characterization.2.2 [(0 : Rat)] 1800000000 h

/-! ## C9: encrypt / decrypt round-trip -/

theorem dec6_enc6 : ∀ n, n < 64 → dec6 (enc6 n) = some n := by decide

theorem enc6_ne_pad (n : Nat) : enc6 n ≠ '=' := by
  unfold enc6
  by_cases h : n < 64
  · revert h
    revert n
    decide
  · rw [List.getD_eq_default]
    · decide
    · have hl : b64Chars.length = 64 := by decide
      omega

theorem b64_roundtrip (bs : List Nat) (h : ∀ x ∈ bs, x < 256) :
    b64decode (b64encode bs) = some bs := by
  induction bs using b64encode.induct with
  | case1 a b c t ih =>
    have ha : a < 256 := h a (by simp)
    have hb : b < 256 := h b (by simp)
    have hc : c < 256 := h c (by simp)
    rw [b64encode, b64decode]
    rw [if_neg (by
      intro hx
      exact enc6_ne_pad (b % 16 * 4 + c / 64) hx.1)]
    rw [if_neg (by
      intro hx
      exact enc6_ne_pad (c % 64) hx.1)]
    rw [dec6_enc6 _ (by omega), dec6_enc6 _ (by omega), dec6_enc6 _ (by omega),
      dec6_enc6 _ (by omega)]
    rw [ih (fun x hx => h x (by simp [hx]))]
    simp only [Option.bind_eq_bind, Option.some_bind, Option.some.injEq]
    refine List.cons_eq_cons.mpr ⟨by omega, List.cons_eq_cons.mpr ⟨by omega,
      List.cons_eq_cons.mpr ⟨by omega, rfl⟩⟩⟩
  | case2 a b =>
    have ha : a < 256 := h a (by simp)
    have hb : b < 256 := h b (by simp)
    rw [b64encode, b64decode]
    rw [if_neg (by
      intro hx
      exact enc6_ne_pad (b % 16 * 4) hx.1)]
    rw [if_pos ⟨rfl, rfl⟩]
    rw [dec6_enc6 _ (by omega), dec6_enc6 _ (by omega), dec6_enc6 _ (by omega)]
    simp only [Option.bind_eq_bind, Option.some_bind, Option.some.injEq]
    refine List.cons_eq_cons.mpr ⟨by omega, List.cons_eq_cons.mpr ⟨by omega, rfl⟩⟩
  | case3 a =>
    have ha : a < 256 := h a (by simp)
    rw [b64encode, b64decode]
    rw [if_pos ⟨rfl, rfl, rfl⟩]
    rw [dec6_enc6 _ (by omega), dec6_enc6 _ (by omega)]
    simp only [Option.bind_eq_bind, Option.some_bind, Option.some.injEq]
    exact List.cons_eq_cons.mpr ⟨by omega, rfl⟩
  | case4 => rfl

/-- C9: for every non-empty plaintext and secret of at least 8 bytes,
EncryptString succeeds and DecryptString with the same secret returns exactly
the plaintext, for any correct AEAD cipher and any nonce of the cipher's
nonce size. -/
theorem encrypt_decrypt_roundtrip (A : GCM) (hA : A.Correct)
    (text secret nonce : List Nat) (htext : text ≠ [])
    (htb : ∀ x ∈ text, x < 256) (hsec : 8 ≤ secret.length)
    (hnl : nonce.length = A.nonceSize) (hnb : ∀ x ∈ nonce, x < 256) :
    ∃ ct, EncryptString A text secret nonce = .ok ct ∧
      DecryptString A ct secret = .ok text := by
  have hkey : ¬ (secret.length < 8) := by omega
  refine ⟨b64encode (nonce ++ A.sealGCM ((padRight secret keyPad 32).take 32) nonce text),
    ?_, ?_⟩
  · unfold EncryptString
    rw [if_neg hkey]
  · unfold DecryptString
    have hbytes : ∀ x ∈ nonce ++ A.sealGCM ((padRight secret keyPad 32).take 32) nonce text,
        x < 256 := by
      intro x hx
      rcases List.mem_append.mp hx with h1 | h1
      · exact hnb x h1
      · exact hA.seal_bytes _ _ _ htb x h1
    rw [b64_roundtrip _ hbytes]
    dsimp only
    have hlen : ¬ ((nonce ++ A.sealGCM ((padRight secret keyPad 32).take 32) nonce text).length
        < A.nonceSize) := by
      rw [List.length_append]
      omega
    rw [if_neg hlen]
    rw [← hnl, List.take_left, List.drop_left]
    rw [hA.open_seal]

theorem encrypt_decrypt_roundtrip_witness :
    ∃ A : GCM, A.Correct ∧
      ∃ ct, EncryptString A [104, 105] [1, 2, 3, 4, 5, 6, 7, 8] [0, 0, 0, 0, 0, 0, 0, 0, 0, 0, 0, 0] = .ok ct ∧
        DecryptString A ct [1, 2, 3, 4, 5, 6, 7, 8] = .ok [104, 105] := by
  refine ⟨⟨12, fun _ _ pt => pt, fun _ _ ct => some ct⟩,
    ⟨fun _ _ _ => rfl, fun _ _ _ hp => hp⟩, ?_⟩
  exact encrypt_decrypt_roundtrip _ ⟨fun _ _ _ => rfl, fun _ _ _ hp => hp⟩ _ _ _
    (by decide) (by decide) (by decide) (by decide) (by decide)

/-! ## Graph traversal: the breadth-first loop visits exactly the reachable
nodes -/

theorem insStr_mem (x y : String) (l : List String) :
    y ∈ insStr x l ↔ y = x ∨ y ∈ l := by
  induction l with
  | nil => simp [insStr]
  | cons a as ih =>
    unfold insStr
    split_ifs with h
    · simp only [List.mem_cons]
    · simp only [List.mem_cons, ih]
      tauto

theorem sortStrings_mem (l : List String) (x : String) :
    x ∈ sortStrings l ↔ x ∈ l := by
  unfold sortStrings
  induction l with
  | nil => simp
  | cons a as ih =>
    simp only [List.foldr_cons, insStr_mem, List.mem_cons, ih]

theorem containsKeyS_iff (g : Shape) (n : String) :
    containsKeyS g n = true ↔ n ∈ keysS g := by
  unfold containsKeyS
  induction g with
  | nil => simp [lookupS, keysS]
  | cons e rest ih =>
    by_cases he : (e.1 == n) = true
    · have : e.1 = n := by simpa using he
      simp [lookupS, he, keysS, this]
    · rw [lookupS, if_neg (by simpa using he)]
      have hne : ¬ (n = e.1) := by
        intro hx
        exact he (by simpa using hx.symm)
      simp [keysS, hne] at *
      exact ih

theorem lookupS_none_of_not_mem (g : Shape) (n : String) (h : n ∉ keysS g) :
    lookupS g n = none := by
  cases hl : lookupS g n with
  | none => rfl
  | some nd =>
    exfalso
    apply h
    rw [← containsKeyS_iff]
    unfold containsKeyS
    rw [hl]
    rfl

theorem bftLoop_nil (sel : SNode → List String) (g : Shape) (seen : List String) :
    bftLoop sel g [] seen = [] := by
  rw [bftLoop]

theorem bftLoop_cons_none (sel : SNode → List String) (g : Shape)
    (n0 : String) (rest seen : List String) (hlk : lookupS g n0 = none) :
    bftLoop sel g (n0 :: rest) seen = bftLoop sel g rest seen := by
  rw [bftLoop]
  split
  · rfl
  · rename_i nd h2
    rw [hlk] at h2
    cases h2

theorem bftLoop_cons_seen (sel : SNode → List String) (g : Shape)
    (n0 : String) (rest seen : List String) (nd : SNode)
    (hlk : lookupS g n0 = some nd) (hseen : seen.contains n0 = true) :
    bftLoop sel g (n0 :: rest) seen = bftLoop sel g rest seen := by
  rw [bftLoop]
  split
  · rfl
  · rename_i nd2 h2
    rw [dif_pos hseen]

theorem bftLoop_cons_new (sel : SNode → List String) (g : Shape)
    (n0 : String) (rest seen : List String) (nd : SNode)
    (hlk : lookupS g n0 = some nd) (hseen : ¬ (seen.contains n0 = true)) :
    bftLoop sel g (n0 :: rest) seen =
      n0 :: bftLoop sel g (rest ++ sortStrings (sel nd)) (n0 :: seen) := by
  rw [bftLoop]
  split
  · rename_i h2
    rw [hlk] at h2
    cases h2
  · rename_i nd2 h2
    rw [hlk] at h2
    cases h2
    rw [dif_neg hseen]

/-- Soundness: every visited node is a node of the graph and is reachable
from some queue entry. -/
theorem bft_sound (sel : SNode → List String) (g : Shape) (queue seen : List String) :
    ∀ n, n ∈ bftLoop sel g queue seen →
      containsKeyS g n = true ∧
      ∃ s, s ∈ queue ∧ Relation.ReflTransGen (stepSel sel g) s n := by
  induction queue, seen using bftLoop.induct sel g with
  | case1 seen => intro n hn; rw [bftLoop_nil] at hn; cases hn
  | case2 seen n0 rest hlk ih =>
    intro n hn
    rw [bftLoop_cons_none sel g n0 rest seen hlk] at hn
    obtain ⟨hk, s, hs, hp⟩ := ih n hn
    exact ⟨hk, s, List.mem_cons_of_mem _ hs, hp⟩
  | case3 seen n0 rest nd hlk hseen ih =>
    intro n hn
    rw [bftLoop_cons_seen sel g n0 rest seen nd hlk hseen] at hn
    obtain ⟨hk, s, hs, hp⟩ := ih n hn
    exact ⟨hk, s, List.mem_cons_of_mem _ hs, hp⟩
  | case4 seen n0 rest nd hlk hseen ih =>
    intro n hn
    rw [bftLoop_cons_new sel g n0 rest seen nd hlk hseen] at hn
    rcases List.mem_cons.mp hn with rfl | hn2
    · refine ⟨by unfold containsKeyS; rw [hlk]; rfl, n, List.mem_cons_self _ _,
        Relation.ReflTransGen.refl⟩
    · obtain ⟨hk, s, hs, hp⟩ := ih n hn2
      rcases List.mem_append.mp hs with h1 | h1
      · exact ⟨hk, s, List.mem_cons_of_mem _ h1, hp⟩
      · refine ⟨hk, n0, List.mem_cons_self _ _, ?_⟩
        have hstep : stepSel sel g n0 s := ⟨nd, hlk, (sortStrings_mem _ _).mp h1⟩
        exact Relation.ReflTransGen.head hstep hp

/-- A path from a seen node to an unseen one passes through an unseen queue
entry, provided every seen node's neighbours are seen or queued. -/
theorem bft_escape (sel : SNode → List String) (g : Shape) (queue seen : List String)
    (hinv : ∀ x ∈ seen, ∀ nd, lookupS g x = some nd → ∀ y ∈ sel nd,
      y ∈ seen ∨ y ∈ queue) :
    ∀ s n, Relation.ReflTransGen (stepSel sel g) s n → s ∈ seen → n ∉ seen →
      ∃ y, y ∈ queue ∧ y ∉ seen ∧ Relation.ReflTransGen (stepSel sel g) y n := by
  intro s n hpath
  induction hpath using Relation.ReflTransGen.head_induction_on with
  | refl => intro hs hn; exact absurd hs hn
  | head hstep htail ih =>
    rename_i a c
    intro ha hn
    obtain ⟨nd, hlk, hc⟩ := hstep
    rcases hinv a ha nd hlk c hc with hcs | hcq
    · exact ih hcs hn
    · by_cases hcseen : c ∈ seen
      · exact ih hcseen hn
      · exact ⟨c, hcq, hcseen, htail⟩

/-- Completeness: every node reachable from a queue entry is visited,
provided every seen node's neighbours are seen or queued. -/
theorem bft_complete (sel : SNode → List String) (g : Shape) (hcl : SelClosed sel g)
    (queue seen : List String) :
    (∀ x ∈ seen, ∀ nd, lookupS g x = some nd → ∀ y ∈ sel nd, y ∈ seen ∨ y ∈ queue) →
    ∀ n, containsKeyS g n = true → n ∉ seen →
    (∃ s, s ∈ queue ∧ Relation.ReflTransGen (stepSel sel g) s n) →
    n ∈ bftLoop sel g queue seen := by
  induction queue, seen using bftLoop.induct sel g with
  | case1 seen =>
    intro hinv n hk hn hs
    obtain ⟨s, hs1, _⟩ := hs
    simp at hs1
  | case2 seen n0 rest hlk ih =>
    intro hinv n hk hn hs
    obtain ⟨s, hs1, hp⟩ := hs
    rw [bftLoop_cons_none sel g n0 rest seen hlk]
    have hs2 : s ∈ rest := by
      rcases List.mem_cons.mp hs1 with rfl | h2
      · exfalso
        rcases Relation.ReflTransGen.cases_head hp with heq | hhead
        · subst heq
          unfold containsKeyS at hk
          rw [hlk] at hk
          simp at hk
        · obtain ⟨c, ⟨nd, hlk2, _⟩, _⟩ := hhead
          rw [hlk] at hlk2
          cases hlk2
      · exact h2
    apply ih ?_ n hk hn ⟨s, hs2, hp⟩
    intro x hx nd hxl y hy
    rcases hinv x hx nd hxl y hy with h1 | h1
    · exact Or.inl h1
    · rcases List.mem_cons.mp h1 with rfl | h2
      · exfalso
        have := hcl x nd hxl y hy
        unfold containsKeyS at this
        rw [hlk] at this
        simp at this
      · exact Or.inr h2
  | case3 seen n0 rest nd hlk hseen ih =>
    intro hinv n hk hn hs
    obtain ⟨s, hs1, hp⟩ := hs
    rw [bftLoop_cons_seen sel g n0 rest seen nd hlk hseen]
    have hinv2 : ∀ x ∈ seen, ∀ nd2, lookupS g x = some nd2 → ∀ y ∈ sel nd2,
        y ∈ seen ∨ y ∈ rest := by
      intro x hx nd2 hxl y hy
      rcases hinv x hx nd2 hxl y hy with h1 | h1
      · exact Or.inl h1
      · rcases List.mem_cons.mp h1 with rfl | h2
        · exact Or.inl (by simpa using hseen)
        · exact Or.inr h2
    have hs2 : ∃ s, s ∈ rest ∧ Relation.ReflTransGen (stepSel sel g) s n := by
      rcases List.mem_cons.mp hs1 with heq | h2
      · subst heq
        obtain ⟨y, hy1, hy2, hy3⟩ := bft_escape sel g rest seen hinv2 s n hp
          (by simpa using hseen) hn
        exact ⟨y, hy1, hy3⟩
      · exact ⟨s, h2, hp⟩
    exact ih hinv2 n hk hn hs2
  | case4 seen n0 rest nd hlk hseen ih =>
    intro hinv n hk hn hs
    rw [bftLoop_cons_new sel g n0 rest seen nd hlk hseen]
    by_cases hnn0 : n = n0
    · subst hnn0
      exact List.mem_cons_self _ _
    · apply List.mem_cons_of_mem
      have hn0seen : n0 ∉ seen := by
        intro hx
        apply hseen
        simpa using hx
      have hinv2 : ∀ x ∈ n0 :: seen, ∀ nd2, lookupS g x = some nd2 → ∀ y ∈ sel nd2,
          y ∈ n0 :: seen ∨ y ∈ rest ++ sortStrings (sel nd) := by
        intro x hx nd2 hxl y hy
        rcases List.mem_cons.mp hx with rfl | hx2
        · rw [hlk] at hxl
          cases hxl
          exact Or.inr (List.mem_append.mpr (Or.inr ((sortStrings_mem _ _).mpr hy)))
        · rcases hinv x hx2 nd2 hxl y hy with h1 | h1
          · exact Or.inl (List.mem_cons_of_mem _ h1)
          · rcases List.mem_cons.mp h1 with rfl | h2
            · exact Or.inl (List.mem_cons_self _ _)
            · exact Or.inr (List.mem_append.mpr (Or.inl h2))
      have hn2 : n ∉ n0 :: seen := by
        intro hx
        rcases List.mem_cons.mp hx with rfl | hx2
        · exact hnn0 rfl
        · exact hn hx2
      obtain ⟨s, hs1, hp⟩ := hs
      have hs2 : ∃ s, s ∈ rest ++ sortStrings (sel nd) ∧
          Relation.ReflTransGen (stepSel sel g) s n := by
        rcases List.mem_cons.mp hs1 with heq | h2
        · subst heq
          obtain ⟨y, hy1, hy2, hy3⟩ := bft_escape sel g (rest ++ sortStrings (sel nd))
            (s :: seen) hinv2 s n hp (List.mem_cons_self _ _) hn2
          exact ⟨y, hy1, hy3⟩
        · exact ⟨s, List.mem_append.mpr (Or.inl h2), hp⟩
      exact ih hinv2 n hk hn2 hs2

/-- The visit list has no duplicates and avoids the seen set. -/
theorem bft_nodup (sel : SNode → List String) (g : Shape) (queue seen : List String) :
    (bftLoop sel g queue seen).Nodup ∧ ∀ x ∈ bftLoop sel g queue seen, x ∉ seen := by
  induction queue, seen using bftLoop.induct sel g with
  | case1 seen => rw [bftLoop_nil]; simp
  | case2 seen n0 rest hlk ih => rw [bftLoop_cons_none sel g n0 rest seen hlk]; exact ih
  | case3 seen n0 rest nd hlk hseen ih =>
    rw [bftLoop_cons_seen sel g n0 rest seen nd hlk hseen]
    exact ih
  | case4 seen n0 rest nd hlk hseen ih =>
    rw [bftLoop_cons_new sel g n0 rest seen nd hlk hseen]
    obtain ⟨ih1, ih2⟩ := ih
    constructor
    · apply List.Nodup.cons _ ih1
      intro hx
      exact ih2 n0 hx (List.mem_cons_self _ _)
    · intro x hx
      rcases List.mem_cons.mp hx with rfl | hx2
      · intro hc
        apply hseen
        simpa using hc
      · intro hc
        exact ih2 x hx2 (List.mem_cons_of_mem _ hc)

/-- The full characterization for the initial call: the visit list contains a
name exactly when it names a node reachable from the start. -/
theorem bft_mem_iff (sel : SNode → List String) (g : Shape) (hcl : SelClosed sel g)
    (start n : String) :
    n ∈ bftLoop sel g [start] [] ↔
      containsKeyS g n = true ∧ Relation.ReflTransGen (stepSel sel g) start n := by
  constructor
  · intro h
    obtain ⟨hk, s, hs, hp⟩ := bft_sound sel g [start] [] n h
    rcases List.mem_cons.mp hs with rfl | h2
    · exact ⟨hk, hp⟩
    · simp at h2
  · intro ⟨hk, hp⟩
    apply bft_complete sel g hcl [start] [] (by simp) n hk (by simp)
    exact ⟨start, List.mem_cons_self _ _, hp⟩

/-! ## Effect of childSentinel on lookups, keys and edges -/

theorem lookupS_append (g1 g2 : Shape) (n : String) :
    lookupS (g1 ++ g2) n =
      match lookupS g1 n with
      | some nd => some nd
      | none => lookupS g2 n := by
  induction g1 with
  | nil => simp [lookupS]
  | cons e rest ih =>
    by_cases he : (e.1 == n) = true
    · simp [lookupS, he]
    · rw [List.cons_append, lookupS, if_neg he, lookupS, if_neg he]
      exact ih

theorem lookupS_mem (g : Shape) (n : String) (nd : SNode)
    (h : lookupS g n = some nd) : (n, nd) ∈ g := by
  induction g with
  | nil => simp [lookupS] at h
  | cons e rest ih =>
    by_cases he : (e.1 == n) = true
    · rw [lookupS, if_pos he] at h
      have h1 : e.1 = n := by simpa using he
      cases h
      rw [← h1]
      exact List.mem_cons_self _ _
    · rw [lookupS, if_neg he] at h
      exact List.mem_cons_of_mem _ (ih h)

theorem lookupS_of_mem_nodup (g : Shape) (hnd : (keysS g).Nodup) (n : String) (nd : SNode)
    (h : (n, nd) ∈ g) : lookupS g n = some nd := by
  induction g with
  | nil => simp at h
  | cons a rest ih =>
    rcases List.mem_cons.mp h with heq | hmem
    · rw [← heq, lookupS, if_pos (by simp)]
    · have ha : ¬ (a.1 == n) = true := by
        intro hx
        have hx2 : a.1 = n := by simpa using hx
        have hk : n ∈ keysS rest := List.mem_map_of_mem _ hmem
        rw [keysS, List.map_cons, hx2] at hnd
        exact (List.nodup_cons.mp hnd).1 hk
      rw [lookupS, if_neg ha]
      apply ih _ hmem
      rw [keysS, List.map_cons] at hnd
      exact (List.nodup_cons.mp hnd).2

/-- The names of the childless nodes, in map order. -/
theorem leaves_mem (g : Shape) (hnd : (keysS g).Nodup) (n : String) :
    n ∈ (g.filter (fun e => e.2.children.isEmpty)).map (fun e => e.1) ↔
      childlessKey g n := by
  constructor
  · intro h
    obtain ⟨e, he, heq⟩ := List.mem_map.mp h
    obtain ⟨hmem, hempty⟩ := List.mem_filter.mp he
    subst heq
    refine ⟨e.2, ?_, by simpa using hempty⟩
    exact lookupS_of_mem_nodup g hnd e.1 e.2 hmem
  · intro ⟨nd, hlk, hch⟩
    have hm := lookupS_mem g n nd hlk
    apply List.mem_map.mpr
    refine ⟨(n, nd), List.mem_filter.mpr ⟨hm, by simpa using hch⟩, rfl⟩

theorem lookupS_sentinelMap (g : Shape) (n : String) :
    lookupS (g.map (fun e =>
      if e.2.children.isEmpty then (e.1, { e.2 with children := [csName] }) else e)) n =
      (lookupS g n).map
        (fun nd => if nd.children.isEmpty then { nd with children := [csName] } else nd) := by
  induction g with
  | nil => simp [lookupS]
  | cons e rest ih =>
    by_cases hc : e.2.children.isEmpty
    · have hc2 : e.2.children = [] := List.isEmpty_iff.mp hc
      by_cases he : (e.1 == n) = true
      · simp [lookupS, he, hc, hc2]
      · simp only [List.map_cons, if_pos hc]
        rw [lookupS, if_neg he, lookupS, if_neg he]
        exact ih
    · have hc2 : ¬ (e.2.children = []) := by
        intro hx
        exact hc (List.isEmpty_iff.mpr hx)
      by_cases he : (e.1 == n) = true
      · simp [lookupS, he, hc, hc2]
      · simp only [List.map_cons, if_neg hc]
        rw [lookupS, if_neg he, lookupS, if_neg he]
        exact ih

theorem keysS_sentinelMap (g : Shape) :
    keysS (g.map (fun e =>
      if e.2.children.isEmpty then (e.1, { e.2 with children := [csName] }) else e)) =
      keysS g := by
  induction g with
  | nil => rfl
  | cons e rest ih =>
    by_cases hc : e.2.children.isEmpty
    · simp only [keysS, List.map_cons, if_pos hc] at *
      exact congrArg (List.cons e.1) ih
    · simp only [keysS, List.map_cons, if_neg hc] at *
      exact congrArg (List.cons e.1) ih

/-- Lookup of a real node after childSentinel: parents unchanged; children
replaced by the sentinel for childless nodes. -/
theorem lookupS_addSentinel (g : Shape) (hg : containsKeyS g csName = false)
    (n : String) (hn : n ≠ csName) :
    lookupS (addSentinelS g) n =
      (lookupS g n).map
        (fun nd => if nd.children.isEmpty then { nd with children := [csName] } else nd) := by
  unfold addSentinelS
  rw [if_neg (by simp [hg])]
  set leaves := (g.filter (fun e => e.2.children.isEmpty)).map (fun e => e.1) with hl
  by_cases hle : leaves.isEmpty
  · rw [if_pos hle]
    cases hlk : lookupS g n with
    | none => rfl
    | some nd =>
      have hne : ¬ nd.children.isEmpty := by
        intro hx
        have : n ∈ leaves := by
          rw [hl]
          apply List.mem_map.mpr
          exact ⟨(n, nd), List.mem_filter.mpr ⟨lookupS_mem g n nd hlk, by simpa using hx⟩, rfl⟩
        rw [List.isEmpty_iff] at hle
        rw [hle] at this
        cases this
      have hne2 : ¬ (nd.children = []) := by
        intro hx
        exact hne (List.isEmpty_iff.mpr hx)
      simp [hne, hne2]
  · rw [if_neg hle]
    rw [lookupS_append]
    rw [lookupS_sentinelMap]
    cases hlk : lookupS g n with
    | none =>
      simp only [Option.map_none']
      rw [lookupS, if_neg (by simpa using (Ne.symm hn)), lookupS]
    | some nd => simp

/-- Lookup of the sentinel after childSentinel. -/
theorem lookupS_addSentinel_cs (g : Shape) (hg : containsKeyS g csName = false) :
    lookupS (addSentinelS g) csName =
      if ((g.filter (fun e => e.2.children.isEmpty)).map (fun e => e.1)).isEmpty then none
      else some ⟨(g.filter (fun e => e.2.children.isEmpty)).map (fun e => e.1), []⟩ := by
  unfold addSentinelS
  rw [if_neg (by simp [hg])]
  set leaves := (g.filter (fun e => e.2.children.isEmpty)).map (fun e => e.1) with hl
  by_cases hle : leaves.isEmpty
  · rw [if_pos hle, if_pos hle]
    unfold containsKeyS at hg
    cases hlk : lookupS g csName with
    | none => rfl
    | some nd => rw [hlk] at hg; simp at hg
  · rw [if_neg hle, if_neg hle]
    rw [lookupS_append, lookupS_sentinelMap]
    have hlk : lookupS g csName = none := by
      unfold containsKeyS at hg
      cases hlk : lookupS g csName with
      | none => rfl
      | some nd => rw [hlk] at hg; simp at hg
    rw [hlk]
    simp [lookupS]

theorem length_addSentinel (g : Shape) (hg : containsKeyS g csName = false) :
    (addSentinelS g).length =
      if ((g.filter (fun e => e.2.children.isEmpty)).map (fun e => e.1)).isEmpty
      then g.length else g.length + 1 := by
  unfold addSentinelS
  rw [if_neg (by simp [hg])]
  by_cases hle : ((g.filter (fun e => e.2.children.isEmpty)).map (fun e => e.1)).isEmpty
  · rw [if_pos hle, if_pos hle]
  · rw [if_neg hle, if_neg hle]
    simp

/-! ## Edge symmetry and closedness, and their transfer through
childSentinel -/

theorem closed_sel (g : Shape) (hcl : closedS g = true) :
    SelClosed (fun nd => nd.parents) g ∧ SelClosed (fun nd => nd.children) g := by
  unfold closedS at hcl
  rw [List.all_eq_true] at hcl
  constructor
  · intro n nd hlk x hx
    have h1 := hcl (n, nd) (lookupS_mem g n nd hlk)
    rw [Bool.and_eq_true, List.all_eq_true, List.all_eq_true] at h1
    exact h1.1 x hx
  · intro n nd hlk x hx
    have h1 := hcl (n, nd) (lookupS_mem g n nd hlk)
    rw [Bool.and_eq_true, List.all_eq_true, List.all_eq_true] at h1
    exact h1.2 x hx

theorem parentStep_iff_childStep (g : Shape) (hsym : symS g = true) (a b : String) :
    parentStep g a b ↔ childStep g b a := by
  unfold symS at hsym
  rw [List.all_eq_true] at hsym
  constructor
  · intro ⟨nd, hlk, hb⟩
    have h1 := hsym (a, nd) (lookupS_mem g a nd hlk)
    rw [Bool.and_eq_true, List.all_eq_true, List.all_eq_true] at h1
    have h2 := h1.1 b hb
    cases hlkb : lookupS g b with
    | none => rw [hlkb] at h2; simp at h2
    | some bnd =>
      rw [hlkb] at h2
      exact ⟨bnd, hlkb, by simpa using h2⟩
  · intro ⟨nd, hlk, hb⟩
    have h1 := hsym (b, nd) (lookupS_mem g b nd hlk)
    rw [Bool.and_eq_true, List.all_eq_true, List.all_eq_true] at h1
    have h2 := h1.2 a hb
    cases hlka : lookupS g a with
    | none => rw [hlka] at h2; simp at h2
    | some and2 =>
      rw [hlka] at h2
      exact ⟨and2, hlka, by simpa using h2⟩

theorem upReach_iff_downReach (g : Shape) (hsym : symS g = true) (a b : String) :
    UpReach g a b ↔ DownReach g b a := by
  unfold UpReach DownReach
  constructor
  · intro h
    have h2 := Relation.ReflTransGen.swap h
    apply Relation.ReflTransGen.mono _ h2
    intro x y hxy
    exact (parentStep_iff_childStep g hsym y x).mp hxy
  · intro h
    have h2 := Relation.ReflTransGen.swap h
    apply Relation.ReflTransGen.mono _ h2
    intro x y hxy
    exact (parentStep_iff_childStep g hsym x y).mpr hxy

theorem containsKeyS_addSentinel (g : Shape) (hg : containsKeyS g csName = false)
    (x : String) (hx : containsKeyS g x = true) :
    containsKeyS (addSentinelS g) x = true := by
  have hxn : x ≠ csName := by
    intro heq
    rw [heq] at hx
    rw [hx] at hg
    cases hg
  unfold containsKeyS at *
  rw [lookupS_addSentinel g hg x hxn]
  cases hlk : lookupS g x with
  | none => rw [hlk] at hx; cases hx
  | some nd => rfl

theorem selClosed_addSentinel (g : Shape) (hwf : WFShape g) :
    SelClosed (fun nd => nd.parents) (addSentinelS g) ∧
    SelClosed (fun nd => nd.children) (addSentinelS g) := by
  obtain ⟨hpar, hch⟩ := closed_sel g hwf.closed
  constructor
  · intro n nd hlk x hx
    by_cases hn : n = csName
    · subst hn
      rw [lookupS_addSentinel_cs g hwf.nocs] at hlk
      split at hlk
      · cases hlk
      · cases hlk
        rename_i hle
        have hxc : childlessKey g x := (leaves_mem g hwf.nodup x).mp hx
        obtain ⟨nd2, hlk2, _⟩ := hxc
        apply containsKeyS_addSentinel g hwf.nocs
        unfold containsKeyS
        rw [hlk2]
        rfl
    · rw [lookupS_addSentinel g hwf.nocs n hn] at hlk
      cases hlk0 : lookupS g n with
      | none => rw [hlk0] at hlk; cases hlk
      | some nd0 =>
        rw [hlk0] at hlk
        simp only [Option.map_some'] at hlk
        cases hlk
        have hx0 : x ∈ nd0.parents := by
          by_cases hc : nd0.children.isEmpty
          · simpa [hc] using hx
          · simpa [hc] using hx
        exact containsKeyS_addSentinel g hwf.nocs x (hpar n nd0 hlk0 x hx0)
  · intro n nd hlk x hx
    by_cases hn : n = csName
    · subst hn
      rw [lookupS_addSentinel_cs g hwf.nocs] at hlk
      split at hlk
      · cases hlk
      · cases hlk
        simp at hx
    · rw [lookupS_addSentinel g hwf.nocs n hn] at hlk
      cases hlk0 : lookupS g n with
      | none => rw [hlk0] at hlk; cases hlk
      | some nd0 =>
        rw [hlk0] at hlk
        simp only [Option.map_some'] at hlk
        cases hlk
        by_cases hc : nd0.children.isEmpty
        · have hx2 : x = csName := by simpa [hc] using hx
          subst hx2
          unfold containsKeyS
          rw [lookupS_addSentinel_cs g hwf.nocs]
          have hle : ¬ ((g.filter (fun e => e.2.children.isEmpty)).map
              (fun e => e.1)).isEmpty = true := by
            rw [List.isEmpty_iff]
            intro hnil
            have : n ∈ (g.filter (fun e => e.2.children.isEmpty)).map (fun e => e.1) :=
              (leaves_mem g hwf.nodup n).mpr ⟨nd0, hlk0, List.isEmpty_iff.mp hc⟩
            rw [hnil] at this
            cases this
          rw [if_neg hle]
          rfl
        · have hx0 : x ∈ nd0.children := by simpa [hc] using hx
          exact containsKeyS_addSentinel g hwf.nocs x (hch n nd0 hlk0 x hx0)

/-- Parent edges between real nodes are unchanged by childSentinel. -/
theorem parentStep_addSentinel (g : Shape) (hg : containsKeyS g csName = false)
    (a b : String) (ha : a ≠ csName) :
    parentStep (addSentinelS g) a b ↔ parentStep g a b := by
  unfold parentStep stepSel
  rw [lookupS_addSentinel g hg a ha]
  cases hlk : lookupS g a with
  | none => simp
  | some nd =>
    simp only [Option.map_some']
    constructor
    · intro ⟨nd2, hnd2, hb⟩
      cases hnd2
      refine ⟨nd, rfl, ?_⟩
      split at hb
      · exact hb
      · exact hb
    · intro ⟨nd2, hnd2, hb⟩
      cases hnd2
      refine ⟨_, rfl, ?_⟩
      split
      · exact hb
      · exact hb

/-- The sentinel's parents are exactly the childless nodes. -/
theorem parentStep_addSentinel_cs (g : Shape) (hwf : WFShape g) (b : String) :
    parentStep (addSentinelS g) csName b ↔ childlessKey g b := by
  unfold parentStep stepSel
  rw [lookupS_addSentinel_cs g hwf.nocs]
  by_cases hle : ((g.filter (fun e => e.2.children.isEmpty)).map (fun e => e.1)).isEmpty
  · rw [if_pos hle]
    simp only [false_iff, not_exists]
    constructor
    · intro ⟨nd, hnd, _⟩
      cases hnd
    · intro hcl
      exfalso
      have : b ∈ (g.filter (fun e => e.2.children.isEmpty)).map (fun e => e.1) :=
        (leaves_mem g hwf.nodup b).mpr hcl
      rw [List.isEmpty_iff.mp hle] at this
      cases this
  · rw [if_neg hle]
    constructor
    · intro ⟨nd, hnd, hb⟩
      cases hnd
      exact (leaves_mem g hwf.nodup b).mp hb
    · intro hcl
      exact ⟨_, rfl, (leaves_mem g hwf.nodup b).mpr hcl⟩

/-- Upward reachability between real nodes is unchanged by childSentinel. -/
theorem upReach_addSentinel (g : Shape) (hwf : WFShape g) (a n : String)
    (ha : a ≠ csName) :
    UpReach (addSentinelS g) a n ↔ UpReach g a n := by
  obtain ⟨hpar, _⟩ := closed_sel g hwf.closed
  unfold UpReach
  constructor
  · intro h0
    have haux : ∀ x, Relation.ReflTransGen (parentStep (addSentinelS g)) x n →
        x ≠ csName → Relation.ReflTransGen (parentStep g) x n := by
      intro x h
      induction h using Relation.ReflTransGen.head_induction_on with
      | refl => intro _; exact Relation.ReflTransGen.refl
      | head hstep htail ih =>
        rename_i u c
        intro hu
        have hstep2 := (parentStep_addSentinel g hwf.nocs u c hu).mp hstep
        have hc : c ≠ csName := by
          obtain ⟨nd, hlk, hcp⟩ := hstep2
          have hck := hpar u nd hlk c hcp
          intro heq
          rw [heq] at hck
          exact absurd hck (by simp [hwf.nocs])
        exact Relation.ReflTransGen.head hstep2 (ih hc)
    exact haux a h0 ha
  · intro h0
    have haux : ∀ x, Relation.ReflTransGen (parentStep g) x n →
        Relation.ReflTransGen (parentStep (addSentinelS g)) x n := by
      intro x h
      induction h using Relation.ReflTransGen.head_induction_on with
      | refl => exact Relation.ReflTransGen.refl
      | head hstep htail ih =>
        rename_i u c
        have hu : u ≠ csName := by
          obtain ⟨nd, hlk, _⟩ := hstep
          intro heq
          rw [heq] at hlk
          have h2 : containsKeyS g csName = true := by
            unfold containsKeyS
            rw [hlk]
            rfl
          exact absurd h2 (by simp [hwf.nocs])
        exact Relation.ReflTransGen.head
          ((parentStep_addSentinel g hwf.nocs u c hu).mpr hstep) ih
    exact haux a h0

/-- Upward reachability from the sentinel reaches exactly the ancestors of
the childless nodes. -/
theorem upReach_cs_iff (g : Shape) (hwf : WFShape g) (n : String) (hn : n ≠ csName) :
    UpReach (addSentinelS g) csName n ↔
      ∃ L, childlessKey g L ∧ UpReach g L n := by
  constructor
  · intro h
    rcases Relation.ReflTransGen.cases_head h with heq | ⟨c, hstep, htail⟩
    · exact absurd heq.symm hn
    · have hc : childlessKey g c := (parentStep_addSentinel_cs g hwf c).mp hstep
      have hcn : c ≠ csName := by
        obtain ⟨nd, hlk, _⟩ := hc
        intro heq
        rw [heq] at hlk
        have h2 : containsKeyS g csName = true := by
          unfold containsKeyS
          rw [hlk]
          rfl
        exact absurd h2 (by simp [hwf.nocs])
      exact ⟨c, hc, (upReach_addSentinel g hwf c n hcn).mp htail⟩
  · intro ⟨L, hL, hpath⟩
    have hLn : L ≠ csName := by
      obtain ⟨nd, hlk, _⟩ := hL
      intro heq
      rw [heq] at hlk
      have h2 : containsKeyS g csName = true := by
        unfold containsKeyS
        rw [hlk]
        rfl
      exact absurd h2 (by simp [hwf.nocs])
    refine Relation.ReflTransGen.head ((parentStep_addSentinel_cs g hwf L).mpr hL) ?_
    exact (upReach_addSentinel g hwf L n hLn).mpr hpath

/-! ## Scores and ready names: membership, order and sortedness -/

theorem insDesc_mem (x y : String × Int) (l : List (String × Int)) :
    y ∈ insDesc x l ↔ y = x ∨ y ∈ l := by
  induction l with
  | nil => simp [insDesc]
  | cons a as ih =>
    unfold insDesc
    split_ifs with h
    · simp only [List.mem_cons]
    · simp only [List.mem_cons, ih]
      tauto

theorem insDesc_perm (x : String × Int) (l : List (String × Int)) :
    List.Perm (insDesc x l) (x :: l) := by
  induction l with
  | nil => simp [insDesc]
  | cons a as ih =>
    unfold insDesc
    split_ifs with h
    · exact List.Perm.refl _
    · exact List.Perm.trans (List.Perm.cons a ih) (List.Perm.swap x a as)

theorem sortScores_perm (l : List (String × Int)) : List.Perm (sortScores l) l := by
  unfold sortScores
  suffices h : ∀ (l acc : List (String × Int)),
      List.Perm (List.foldl (fun acc x => insDesc x acc) acc l) (acc ++ l) by
    simpa using h l []
  intro l
  induction l with
  | nil => intro acc; simp
  | cons x xs ih =>
    intro acc
    rw [List.foldl_cons]
    exact List.Perm.trans (ih (insDesc x acc))
      (List.Perm.trans ((insDesc_perm x acc).append_right xs) List.perm_middle.symm)

theorem insDesc_sorted (x : String × Int) (l : List (String × Int))
    (h : l.Sorted (fun a b : String × Int => b.2 ≤ a.2)) :
    (insDesc x l).Sorted (fun a b : String × Int => b.2 ≤ a.2) := by
  induction l with
  | nil => simp [insDesc]
  | cons a as ih =>
    unfold insDesc
    rw [List.sorted_cons] at h
    split_ifs with hlt
    · rw [List.sorted_cons]
      constructor
      · intro b hb
        rcases List.mem_cons.mp hb with rfl | hb2
        · omega
        · have := h.1 b hb2
          omega
      · rw [List.sorted_cons]
        exact h
    · rw [List.sorted_cons]
      constructor
      · intro b hb
        rcases (insDesc_mem x b as).mp hb with rfl | hb2
        · omega
        · exact h.1 b hb2
      · exact ih h.2

theorem sortScores_sorted (l : List (String × Int)) :
    (sortScores l).Sorted (fun a b : String × Int => b.2 ≤ a.2) := by
  unfold sortScores
  suffices h : ∀ (l acc : List (String × Int)),
      acc.Sorted (fun a b : String × Int => b.2 ≤ a.2) →
      (List.foldl (fun acc x => insDesc x acc) acc l).Sorted
        (fun a b : String × Int => b.2 ≤ a.2) by
    exact h l [] (by simp)
  intro l
  induction l with
  | nil => intro acc hacc; simpa using hacc
  | cons x xs ih =>
    intro acc hacc
    rw [List.foldl_cons]
    exact ih (insDesc x acc) (insDesc_sorted x acc hacc)

/-- Membership in the Scores result: a (name, score) pair appears exactly for
the non-sentinel names visited upward from the sentinel, with the bftDown
count as score. -/
theorem scoresAfter_mem (g1 : Shape) (n : String) (sc : Int) :
    (n, sc) ∈ scoresAfter g1 ↔
      n ∈ scoreOrder g1 ∧ n ≠ csName ∧ sc = nodeScore g1 n := by
  unfold scoresAfter
  rw [(sortScores_perm _).mem_iff]
  rw [List.mem_filterMap]
  constructor
  · intro ⟨a, ha, hfa⟩
    by_cases hcs : a = csName
    · rw [if_pos hcs] at hfa
      cases hfa
    · rw [if_neg hcs] at hfa
      cases hfa
      exact ⟨ha, hcs, rfl⟩
  · intro ⟨h1, h2, h3⟩
    refine ⟨n, h1, ?_⟩
    rw [if_neg h2, h3]

theorem readyNamesAfter_mem (g1 : Shape) (n : String) :
    n ∈ readyNamesAfter g1 ↔
      ((∃ sc, (n, sc) ∈ scoresAfter g1) ∧
        ∃ nd, lookupS g1 n = some nd ∧ nd.parents = []) := by
  unfold readyNamesAfter
  rw [List.mem_filterMap]
  constructor
  · intro ⟨a, ha, hfa⟩
    cases hlk : lookupS g1 a.1 with
    | none => rw [hlk] at hfa; cases hfa
    | some nd =>
      rw [hlk] at hfa
      dsimp only at hfa
      by_cases hp : nd.parents.isEmpty
      · rw [if_pos hp] at hfa
        cases hfa
        exact ⟨⟨a.2, ha⟩, nd, hlk, List.isEmpty_iff.mp hp⟩
      · rw [if_neg hp] at hfa
        cases hfa
  · intro ⟨⟨sc, hsc⟩, nd, hlk, hp⟩
    refine ⟨(n, sc), hsc, ?_⟩
    simp only
    rw [hlk]
    dsimp only
    rw [if_pos (List.isEmpty_iff.mpr hp)]

/-! ## Child edges through childSentinel, and the ready-set
characterization -/

theorem containsKeyS_addSentinel_iff (g : Shape) (hg : containsKeyS g csName = false)
    (n : String) (hn : n ≠ csName) :
    containsKeyS (addSentinelS g) n = containsKeyS g n := by
  unfold containsKeyS
  rw [lookupS_addSentinel g hg n hn]
  cases hlk : lookupS g n <;> rfl

theorem childStep_addSentinel (g : Shape) (hg : containsKeyS g csName = false)
    (a b : String) (ha : a ≠ csName) (hb : b ≠ csName) :
    childStep (addSentinelS g) a b ↔ childStep g a b := by
  unfold childStep stepSel
  rw [lookupS_addSentinel g hg a ha]
  cases hlk : lookupS g a with
  | none => simp
  | some nd =>
    simp only [Option.map_some']
    constructor
    · intro ⟨nd2, hnd2, hbm⟩
      cases hnd2
      refine ⟨nd, rfl, ?_⟩
      by_cases hc : nd.children.isEmpty
      · rw [if_pos hc] at hbm
        exact absurd (by simpa using hbm) hb
      · rw [if_neg hc] at hbm
        exact hbm
    · intro ⟨nd2, hnd2, hbm⟩
      injection hnd2 with hnd2
      subst hnd2
      by_cases hc : nd.children.isEmpty
      · rw [List.isEmpty_iff.mp hc] at hbm
        cases hbm
      · refine ⟨nd, by rw [if_neg hc], hbm⟩

theorem childStep_addSentinel_cs (g : Shape) (hg : containsKeyS g csName = false)
    (b : String) : ¬ childStep (addSentinelS g) csName b := by
  intro ⟨nd, hlk, hbm⟩
  rw [lookupS_addSentinel_cs g hg] at hlk
  split at hlk
  · cases hlk
  · cases hlk
    simp at hbm

/-- Downward reachability between real nodes is unchanged by childSentinel. -/
theorem downReach_addSentinel (g : Shape) (hwf : WFShape g) (a m : String)
    (ha : a ≠ csName) (hm : m ≠ csName) :
    DownReach (addSentinelS g) a m ↔ DownReach g a m := by
  obtain ⟨_, hch⟩ := closed_sel g hwf.closed
  unfold DownReach
  constructor
  · intro h0
    have haux : ∀ x, Relation.ReflTransGen (childStep (addSentinelS g)) x m →
        x ≠ csName → Relation.ReflTransGen (childStep g) x m := by
      intro x h
      induction h using Relation.ReflTransGen.head_induction_on with
      | refl => intro _; exact Relation.ReflTransGen.refl
      | head hstep htail ih =>
        rename_i u c
        intro hu
        have hc : c ≠ csName := by
          intro heq
          subst heq
          rcases Relation.ReflTransGen.cases_head htail with heq2 | ⟨d, hstep2, _⟩
          · exact hm heq2.symm
          · exact childStep_addSentinel_cs g hwf.nocs d hstep2
        exact Relation.ReflTransGen.head
          ((childStep_addSentinel g hwf.nocs u c hu hc).mp hstep) (ih hc)
    exact haux a h0 ha
  · intro h0
    have haux : ∀ x, Relation.ReflTransGen (childStep g) x m →
        Relation.ReflTransGen (childStep (addSentinelS g)) x m := by
      intro x h
      induction h using Relation.ReflTransGen.head_induction_on with
      | refl => exact Relation.ReflTransGen.refl
      | head hstep htail ih =>
        rename_i u c
        have hu : u ≠ csName := by
          obtain ⟨nd, hlk, _⟩ := hstep
          intro heq
          rw [heq] at hlk
          have h2 : containsKeyS g csName = true := by
            unfold containsKeyS
            rw [hlk]
            rfl
          exact absurd h2 (by simp [hwf.nocs])
        have hc : c ≠ csName := by
          obtain ⟨nd, hlk, hcm⟩ := hstep
          have hck := hch u nd hlk c hcm
          intro heq
          rw [heq] at hck
          exact absurd hck (by simp [hwf.nocs])
        exact Relation.ReflTransGen.head
          ((childStep_addSentinel g hwf.nocs u c hu hc).mpr hstep) ih
    exact haux a h0

/-- Membership in the upward visit order: the non-sentinel names visited are
exactly the nodes from which some childless node is reachable downward. -/
theorem scoreOrder_mem (g : Shape) (hwf : WFShape g) (n : String) (hn : n ≠ csName) :
    n ∈ scoreOrder (addSentinelS g) ↔
      containsKeyS g n = true ∧ ∃ L, childlessKey g L ∧ DownReach g n L := by
  unfold scoreOrder
  rw [bft_mem_iff _ _ (selClosed_addSentinel g hwf).1]
  rw [containsKeyS_addSentinel_iff g hwf.nocs n hn]
  constructor
  · intro ⟨hk, hp⟩
    have hup : UpReach (addSentinelS g) csName n := hp
    obtain ⟨L, hL, hLn⟩ := (upReach_cs_iff g hwf n hn).mp hup
    exact ⟨hk, L, hL, (upReach_iff_downReach g hwf.symm L n).mp hLn⟩
  · intro ⟨hk, L, hL, hdn⟩
    refine ⟨hk, ?_⟩
    exact (upReach_cs_iff g hwf n hn).mpr
      ⟨L, hL, (upReach_iff_downReach g hwf.symm L n).mpr hdn⟩

/-- The ready names after childSentinel, in terms of the original graph: the
parentless nodes from which some childless node is reachable. -/
theorem readyNames_ready_iff (g : Shape) (hwf : WFShape g) (n : String) :
    n ∈ readyNamesAfter (addSentinelS g) ↔
      ∃ nd, lookupS g n = some nd ∧ nd.parents = [] ∧
        ∃ L, childlessKey g L ∧ DownReach g n L := by
  rw [readyNamesAfter_mem]
  constructor
  · intro ⟨⟨sc, hsc⟩, nd1, hlk1, hp1⟩
    obtain ⟨hord, hn, _⟩ := (scoresAfter_mem _ n sc).mp hsc
    obtain ⟨hk, L, hL, hdn⟩ := (scoreOrder_mem g hwf n hn).mp hord
    rw [lookupS_addSentinel g hwf.nocs n hn] at hlk1
    cases hlk0 : lookupS g n with
    | none => rw [hlk0] at hlk1; cases hlk1
    | some nd0 =>
      rw [hlk0] at hlk1
      simp only [Option.map_some'] at hlk1
      cases hlk1
      refine ⟨nd0, rfl, ?_, L, hL, hdn⟩
      by_cases hc : nd0.children.isEmpty
      · rw [if_pos hc] at hp1
        exact hp1
      · rw [if_neg hc] at hp1
        exact hp1
  · intro ⟨nd, hlk, hpar, L, hL, hdn⟩
    have hn : n ≠ csName := by
      intro heq
      rw [heq] at hlk
      have h2 : containsKeyS g csName = true := by
        unfold containsKeyS
        rw [hlk]
        rfl
      exact absurd h2 (by simp [hwf.nocs])
    have hk : containsKeyS g n = true := by
      unfold containsKeyS
      rw [hlk]
      rfl
    constructor
    · refine ⟨nodeScore (addSentinelS g) n, (scoresAfter_mem _ n _).mpr ⟨?_, hn, rfl⟩⟩
      exact (scoreOrder_mem g hwf n hn).mpr ⟨hk, L, hL, hdn⟩
    · rw [lookupS_addSentinel g hwf.nocs n hn, hlk]
      simp only [Option.map_some']
      by_cases hc : nd.children.isEmpty
      · refine ⟨{ nd with children := [csName] }, by rw [if_pos hc], hpar⟩
      · refine ⟨nd, by rw [if_neg hc], hpar⟩

/-- The mutated graph has more than one entry exactly when the original has
more than one node or any node is childless. -/
theorem addSentinel_big_iff (g : Shape) (hwf : WFShape g) :
    (1 < (addSentinelS g).length) ↔ (1 < g.length ∨ ∃ L, childlessKey g L) := by
  rw [length_addSentinel g hwf.nocs]
  by_cases hle : ((g.filter (fun e => e.2.children.isEmpty)).map (fun e => e.1)).isEmpty
  · rw [if_pos hle]
    have hnoL : ¬ ∃ L, childlessKey g L := by
      intro ⟨L, hL⟩
      have hLm : L ∈ (g.filter (fun e => e.2.children.isEmpty)).map (fun e => e.1) :=
        (leaves_mem g hwf.nodup L).mpr hL
      rw [List.isEmpty_iff.mp hle] at hLm
      cases hLm
    simp [hnoL]
  · rw [if_neg hle]
    have hex : ∃ L, childlessKey g L := by
      have hne : (g.filter (fun e => e.2.children.isEmpty)).map (fun e => e.1) ≠ [] := by
        intro hx
        exact hle (List.isEmpty_iff.mpr hx)
      obtain ⟨L, hLmem⟩ := List.exists_mem_of_ne_nil _ hne
      exact ⟨L, (leaves_mem g hwf.nodup L).mp hLmem⟩
    have hpos : 0 < g.length := by
      obtain ⟨L, nd, hlk, _⟩ := hex
      cases g with
      | nil => simp [lookupS] at hlk
      | cons a rest => simp
    simp only [hex, or_true, iff_true]
    omega

theorem readyItems_eq (g : Shape) :
    ReadyItemsS g =
      if (addSentinelS g).length > 1 && (readyNamesAfter (addSentinelS g)).isEmpty
      then .error cycleErrMsg else .ok (readyNamesAfter (addSentinelS g)) := rfl

theorem readyRemoveStep_eq (g : Shape) :
    readyRemoveStep g =
      if (addSentinelS g).length > 1 && (readyNamesAfter (addSentinelS g)).isEmpty
      then .error cycleErrMsg
      else if (readyNamesAfter (addSentinelS g)).isEmpty then .ok none
      else
        match (readyNamesAfter (addSentinelS g)).foldlM
            (fun h n => removeItemS h n) (addSentinelS g) with
        | .error e => .error e
        | .ok g2 => .ok (some g2) := rfl

theorem iterReady_succ (fuel : Nat) (g : Shape) :
    iterReady (fuel + 1) g =
      match readyRemoveStep g with
      | .error e => .error e
      | .ok none => .ok true
      | .ok (some g2) => iterReady fuel g2 := rfl

/-- C3: for a well-formed graph, ReadyItems fails with the cycle error exactly
when the sentinel-mutated map has more than one entry (the graph has more than
one node, or any node is childless and the sentinel got inserted) and no node
is ready, a node being ready exactly when it has no parents and reaches some
childless node downward; an `ok` answer lists exactly the ready nodes.  The
test is NOT the spec's "after excluding the ready items the remaining graph is
non-empty with an empty ready set": a single self-related node (see
`Maestro.readyItems_selfLoop_cx`) keeps the mutated map at one entry, so its
cycle is never reported. -/
theorem readyItems_characterization (g : Shape) (hwf : WFShape g) :
    (ReadyItemsS g = .error cycleErrMsg ↔
      ((1 < g.length ∨ ∃ L, childlessKey g L) ∧
        ¬ ∃ n nd, lookupS g n = some nd ∧ nd.parents = [] ∧
          ∃ L, childlessKey g L ∧ DownReach g n L)) ∧
    (∀ names, ReadyItemsS g = .ok names →
      ∀ n, n ∈ names ↔
        ∃ nd, lookupS g n = some nd ∧ nd.parents = [] ∧
          ∃ L, childlessKey g L ∧ DownReach g n L) := by
  have hempty : (readyNamesAfter (addSentinelS g)).isEmpty = true ↔
      ¬ ∃ n nd, lookupS g n = some nd ∧ nd.parents = [] ∧
        ∃ L, childlessKey g L ∧ DownReach g n L := by
    rw [List.isEmpty_iff, List.eq_nil_iff_forall_not_mem]
    constructor
    · intro h ⟨n, nd, hlk, hp, hL⟩
      exact h n ((readyNames_ready_iff g hwf n).mpr ⟨nd, hlk, hp, hL⟩)
    · intro h n hn
      obtain ⟨nd, hlk, hp, hL⟩ := (readyNames_ready_iff g hwf n).mp hn
      exact h ⟨n, nd, hlk, hp, hL⟩
  have hcase := readyItems_eq g
  by_cases hcond : (decide ((addSentinelS g).length > 1) &&
      (readyNamesAfter (addSentinelS g)).isEmpty) = true
  · rw [if_pos hcond] at hcase
    rw [Bool.and_eq_true, decide_eq_true_eq] at hcond
    constructor
    · constructor
      · intro _
        exact ⟨(addSentinel_big_iff g hwf).mp hcond.1, hempty.mp hcond.2⟩
      · intro _
        exact hcase
    · intro names hok n
      rw [hcase] at hok
      exact absurd hok (by simp)
  · rw [if_neg hcond] at hcase
    have hcond2 : ¬ ((1 < (addSentinelS g).length) ∧
        (readyNamesAfter (addSentinelS g)).isEmpty = true) := by
      intro ⟨h1, h2⟩
      apply hcond
      rw [Bool.and_eq_true, decide_eq_true_eq]
      exact ⟨h1, h2⟩
    constructor
    · constructor
      · intro herr
        rw [hcase] at herr
        exact absurd herr (by simp)
      · intro ⟨hbig, hno⟩
        exact absurd ⟨(addSentinel_big_iff g hwf).mpr hbig, hempty.mpr hno⟩ hcond2
    · intro names hok n
      rw [hcase] at hok
      have hnames : readyNamesAfter (addSentinelS g) = names := by
        injection hok
      rw [← hnames]
      exact readyNames_ready_iff g hwf n

/-- C3 witness: the characterization applied to the one-node self-loop
Relate(a, a), whose well-formedness is decided. -/
theorem readyItems_characterization_witness :
    WFShape selfLoopShape ∧
      ((ReadyItemsS selfLoopShape = .error cycleErrMsg ↔
        ((1 < selfLoopShape.length ∨ ∃ L, childlessKey selfLoopShape L) ∧
          ¬ ∃ n nd, lookupS selfLoopShape n = some nd ∧ nd.parents = [] ∧
            ∃ L, childlessKey selfLoopShape L ∧ DownReach selfLoopShape n L)) ∧
       (∀ names, ReadyItemsS selfLoopShape = .ok names →
        ∀ n, n ∈ names ↔
          ∃ nd, lookupS selfLoopShape n = some nd ∧ nd.parents = [] ∧
            ∃ L, childlessKey selfLoopShape L ∧ DownReach selfLoopShape n L)) :=
  ⟨⟨by decide, by decide, by decide, by decide⟩,
   readyItems_characterization selfLoopShape ⟨by decide, by decide, by decide, by decide⟩⟩

/-- C3 counterexample: Relate(a, a) produces a single self-related node — a
graph that plainly contains a cycle — yet ReadyItems answers `.ok []` (no
childless node exists, so no sentinel is inserted and the mutated map keeps a
single entry, which the `> 1` test lets pass) and iterating
take-ready-then-remove stops reporting success instead of ever failing with
the cycle error. -/
theorem readyItems_selfLoop_cx :
    ReadyItemsS selfLoopShape = .ok [] ∧ selfLoopShape.length = 1 ∧
      iterReady 5 selfLoopShape = .ok true := by
  have hadd : addSentinelS selfLoopShape = selfLoopShape := rfl
  have hso : scoreOrder selfLoopShape = [] := by
    unfold scoreOrder
    rw [bftLoop_cons_none (fun nd => nd.parents) selfLoopShape csName [] [] (by rfl),
      bftLoop_nil]
  have hra : readyNamesAfter selfLoopShape = [] := by
    unfold readyNamesAfter scoresAfter
    rw [hso]
    rfl
  refine ⟨?_, rfl, ?_⟩
  · rw [readyItems_eq, hadd, hra]
    rfl
  · have hstep : readyRemoveStep selfLoopShape = .ok none := by
      rw [readyRemoveStep_eq, hadd, hra]
      rfl
    show iterReady (4 + 1) selfLoopShape = .ok true
    rw [iterReady_succ, hstep]

/-! ## The value of a node's score -/

/-- For a node from which some childless node is reachable, the bftDown count
minus two is exactly the number of distinct proper descendants within the
original graph (the traversal visits the node itself and the sentinel, which
the initial -2 discounts). -/
theorem nodeScore_eq (g : Shape) (hwf : WFShape g) (n : String)
    (hk : containsKeyS g n = true)
    (hreach : ∃ L, childlessKey g L ∧ DownReach g n L) :
    nodeScore (addSentinelS g) n =
      (({m | m ∈ keysS g ∧ m ≠ n ∧ DownReach g n m} : Set String).ncard : Int) := by
  have hn : n ≠ csName := by
    intro heq
    rw [heq] at hk
    exact absurd hk (by simp [hwf.nocs])
  obtain ⟨L, hL, hdn⟩ := hreach
  have hLn : L ≠ csName := by
    obtain ⟨ndL, hlkL, _⟩ := hL
    intro heq
    rw [heq] at hlkL
    have h2 : containsKeyS g csName = true := by
      unfold containsKeyS
      rw [hlkL]
      rfl
    exact absurd h2 (by simp [hwf.nocs])
  have hclg1 : SelClosed (fun nd => nd.children) (addSentinelS g) :=
    (selClosed_addSentinel g hwf).2
  have hclg : SelClosed (fun nd => nd.children) g := (closed_sel g hwf.closed).2
  have hmem1 : ∀ m, m ∈ bftLoop (fun nd => nd.children) (addSentinelS g) [n] [] ↔
      containsKeyS (addSentinelS g) m = true ∧ DownReach (addSentinelS g) n m :=
    fun m => bft_mem_iff _ (addSentinelS g) hclg1 n m
  have hmemg : ∀ m, m ∈ bftLoop (fun nd => nd.children) g [n] [] ↔
      containsKeyS g m = true ∧ DownReach g n m :=
    fun m => bft_mem_iff _ g hclg n m
  have hnd1 : (bftLoop (fun nd => nd.children) (addSentinelS g) [n] []).Nodup :=
    (bft_nodup _ (addSentinelS g) [n] []).1
  have hndg : (bftLoop (fun nd => nd.children) g [n] []).Nodup :=
    (bft_nodup _ g [n] []).1
  have hLreach1 : DownReach (addSentinelS g) n L :=
    (downReach_addSentinel g hwf n L hn hLn).mpr hdn
  have hstepcs : childStep (addSentinelS g) L csName := by
    obtain ⟨ndL, hlkL, hchL⟩ := hL
    refine ⟨{ ndL with children := [csName] }, ?_, by simp⟩
    rw [lookupS_addSentinel g hwf.nocs L hLn, hlkL]
    simp only [Option.map_some']
    rw [if_pos (List.isEmpty_iff.mpr hchL)]
  have hcs1 : DownReach (addSentinelS g) n csName :=
    Relation.ReflTransGen.tail hLreach1 hstepcs
  have hkcs1 : containsKeyS (addSentinelS g) csName = true := by
    obtain ⟨nd2, hlk2, hcm⟩ := hstepcs
    exact hclg1 L nd2 hlk2 csName hcm
  have hsplit : ∀ m, m ∈ bftLoop (fun nd => nd.children) (addSentinelS g) [n] [] ↔
      (m = csName ∨ m ∈ bftLoop (fun nd => nd.children) g [n] []) := by
    intro m
    rw [hmem1 m, hmemg m]
    constructor
    · intro ⟨hkm, hdm⟩
      by_cases hmc : m = csName
      · exact Or.inl hmc
      · refine Or.inr ⟨?_, (downReach_addSentinel g hwf n m hn hmc).mp hdm⟩
        rw [← containsKeyS_addSentinel_iff g hwf.nocs m hmc]
        exact hkm
    · intro h
      rcases h with rfl | ⟨hkm, hdm⟩
      · exact ⟨hkcs1, hcs1⟩
      · have hmc : m ≠ csName := by
          intro heq
          rw [heq] at hkm
          exact absurd hkm (by simp [hwf.nocs])
        refine ⟨?_, (downReach_addSentinel g hwf n m hn hmc).mpr hdm⟩
        rw [containsKeyS_addSentinel_iff g hwf.nocs m hmc]
        exact hkm
  have hcsnot : csName ∉ bftLoop (fun nd => nd.children) g [n] [] := by
    intro hmem
    obtain ⟨hkm, _⟩ := (hmemg csName).mp hmem
    exact absurd hkm (by simp [hwf.nocs])
  have hlen1 : (bftLoop (fun nd => nd.children) (addSentinelS g) [n] []).length =
      (bftLoop (fun nd => nd.children) g [n] []).length + 1 := by
    have h1 : (bftLoop (fun nd => nd.children) (addSentinelS g) [n] []).toFinset =
        insert csName (bftLoop (fun nd => nd.children) g [n] []).toFinset := by
      ext m
      simp only [List.mem_toFinset, Finset.mem_insert]
      exact hsplit m
    have h2 := List.toFinset_card_of_nodup hnd1
    have h3 := List.toFinset_card_of_nodup hndg
    rw [h1, Finset.card_insert_of_not_mem (by simpa using hcsnot), h3] at h2
    omega
  have hnin : n ∈ bftLoop (fun nd => nd.children) g [n] [] :=
    (hmemg n).mpr ⟨hk, Relation.ReflTransGen.refl⟩
  have hflen : ((bftLoop (fun nd => nd.children) g [n] []).filter
        (fun m => !(m == n))).length + 1 =
      (bftLoop (fun nd => nd.children) g [n] []).length := by
    have hperm := List.filter_append_perm (fun m => !(m == n))
      (bftLoop (fun nd => nd.children) g [n] [])
    have hlen := hperm.length_eq
    rw [List.length_append] at hlen
    have he : ((bftLoop (fun nd => nd.children) g [n] []).filter
          (fun x => !(!(x == n)))) =
        ((bftLoop (fun nd => nd.children) g [n] []).filter (fun x => x == n)) := by
      apply List.filter_congr
      intro x _
      simp
    have hc1 : ((bftLoop (fun nd => nd.children) g [n] []).filter
          (fun x => x == n)).length =
        (bftLoop (fun nd => nd.children) g [n] []).count n := by
      rw [List.count, List.countP_eq_length_filter]
    rw [he, hc1, List.count_eq_one_of_mem hndg hnin] at hlen
    omega
  have hset : {m | m ∈ keysS g ∧ m ≠ n ∧ DownReach g n m} =
      (((bftLoop (fun nd => nd.children) g [n] []).filter
        (fun m => !(m == n))).toFinset : Set String) := by
    ext m
    simp only [Set.mem_setOf_eq, Finset.mem_coe, List.mem_toFinset, List.mem_filter]
    constructor
    · intro ⟨hkm, hmn, hdm⟩
      exact ⟨(hmemg m).mpr ⟨(containsKeyS_iff g m).mpr hkm, hdm⟩, by simpa using hmn⟩
    · intro ⟨hmem, hne⟩
      obtain ⟨hkm, hdm⟩ := (hmemg m).mp hmem
      exact ⟨(containsKeyS_iff g m).mp hkm, by simpa using hne, hdm⟩
  have hncard : ({m | m ∈ keysS g ∧ m ≠ n ∧ DownReach g n m} : Set String).ncard =
      ((bftLoop (fun nd => nd.children) g [n] []).filter (fun m => !(m == n))).length := by
    rw [hset, Set.ncard_coe_Finset]
    exact List.toFinset_card_of_nodup (hndg.filter _)
  unfold nodeScore
  rw [hlen1, hncard]
  omega

/-! ### Stability of the score sort: ties keep the upward visit order -/

theorem filter_score_eq_nil (l : List (String × Int)) (sc : Int)
    (h : ∀ z ∈ l, z.2 < sc) : l.filter (fun p => p.2 == sc) = [] := by
  apply List.filter_eq_nil_iff.mpr
  intro z hz
  have := h z hz
  simp only [beq_iff_eq]
  omega

/-- Inserting into a descending-sorted list puts the new element after every
element of its score class: on each score class the filter grows at the
tail. -/
theorem insDesc_filter_stable (x : String × Int) (l : List (String × Int)) (sc : Int)
    (hs : l.Sorted (fun a b : String × Int => b.2 ≤ a.2)) :
    (insDesc x l).filter (fun p => p.2 == sc) =
      if x.2 = sc then l.filter (fun p => p.2 == sc) ++ [x]
      else l.filter (fun p => p.2 == sc) := by
  induction l with
  | nil =>
    unfold insDesc
    by_cases hx : x.2 = sc
    · rw [if_pos hx]
      simp [List.filter_cons, hx]
    · rw [if_neg hx]
      simp [List.filter_cons, hx]
  | cons y ys ih =>
    rw [List.sorted_cons] at hs
    unfold insDesc
    by_cases hlt : y.2 < x.2
    · rw [if_pos hlt]
      by_cases hx : x.2 = sc
      · have hnil : (y :: ys).filter (fun p => p.2 == sc) = [] := by
          apply filter_score_eq_nil
          intro z hz
          rcases List.mem_cons.mp hz with rfl | hz2
          · omega
          · have h2 := hs.1 z hz2
            omega
        rw [if_pos hx, hnil]
        simp [List.filter_cons, hx, hnil]
      · rw [if_neg hx]
        simp [List.filter_cons, hx]
    · rw [if_neg hlt]
      rw [List.filter_cons, ih hs.2]
      by_cases hx : x.2 = sc
      · rw [if_pos hx, if_pos hx, List.filter_cons]
        split_ifs <;> simp
      · rw [if_neg hx, if_neg hx, List.filter_cons]

/-- sort.SliceStable on the scores: each score class of the output is the
score class of the input, in input order. -/
theorem sortScores_filter_stable (l : List (String × Int)) (sc : Int) :
    (sortScores l).filter (fun p => p.2 == sc) = l.filter (fun p => p.2 == sc) := by
  unfold sortScores
  suffices h : ∀ (l acc : List (String × Int)),
      acc.Sorted (fun a b : String × Int => b.2 ≤ a.2) →
      (List.foldl (fun acc x => insDesc x acc) acc l).filter (fun p => p.2 == sc) =
        acc.filter (fun p => p.2 == sc) ++ l.filter (fun p => p.2 == sc) by
    simpa using h l [] List.sorted_nil
  intro l
  induction l with
  | nil =>
    intro acc hacc
    simp
  | cons x xs ih =>
    intro acc hacc
    rw [List.foldl_cons, ih (insDesc x acc) (insDesc_sorted x acc hacc),
      insDesc_filter_stable x acc sc hacc]
    by_cases hx : x.2 = sc
    · rw [if_pos hx]
      simp [List.filter_cons, hx]
    · rw [if_neg hx]
      simp [List.filter_cons, hx]

/-- Dropping the sentinel and pairing with scores commutes with taking a
score class: the class's names are the visited names of that score, in visit
order. -/
theorem scores_filter_visitOrder (g1 : Shape) (sc : Int) (l : List String) :
    ((l.filterMap (fun n => if n = csName then none
        else some (n, nodeScore g1 n))).filter (fun p => p.2 == sc)).map Prod.fst =
    l.filter (fun n => !(n == csName) && (nodeScore g1 n == sc)) := by
  induction l with
  | nil => rfl
  | cons a as ih =>
    by_cases ha : a = csName
    · simp [List.filterMap_cons, List.filter_cons, ha, ih]
    · by_cases hsc2 : nodeScore g1 a = sc
      · simp [List.filterMap_cons, List.filter_cons, ha, hsc2, ih]
      · simp [List.filterMap_cons, List.filter_cons, ha, hsc2, ih]

/-- C6: for a well-formed graph, Scores lists exactly the nodes from which a
childless node is reachable downward (NOT every node, contrary to the spec: a
node trapped above only cycles is dropped — see `Maestro.scores_tiebreak_cx`);
each listed node's score is the number of its distinct proper descendants, the
list is sorted by score descending with pairwise distinct names, the sentinel
never appears, and within each score class the names appear in the order of
the upward breadth-first visit from the sentinel (sort.SliceStable keeps the
traversal order on ties — not insertion or lexical order, see the same
counterexample). -/
theorem scores_characterization (g : Shape) (hwf : WFShape g) :
    (∀ n sc, (n, sc) ∈ ScoresS g ↔
      (containsKeyS g n = true ∧ (∃ L, childlessKey g L ∧ DownReach g n L) ∧
        sc = (({m | m ∈ keysS g ∧ m ≠ n ∧ DownReach g n m} : Set String).ncard : Int))) ∧
    (ScoresS g).Sorted (fun a b : String × Int => b.2 ≤ a.2) ∧
    ((ScoresS g).map Prod.fst).Nodup ∧
    (∀ sc, (csName, sc) ∉ ScoresS g) ∧
    (∀ sc : Int, ((ScoresS g).filter (fun p => p.2 == sc)).map Prod.fst =
      (scoreOrder (addSentinelS g)).filter
        (fun n => !(n == csName) && (nodeScore (addSentinelS g) n == sc))) := by
  refine ⟨?_, ?_, ?_, ?_, ?_⟩
  · intro n sc
    by_cases hn : n = csName
    · subst hn
      constructor
      · intro hmem
        obtain ⟨_, hne, _⟩ := (scoresAfter_mem _ _ _).mp hmem
        exact absurd rfl hne
      · intro ⟨hk, _⟩
        exact absurd hk (by simp [hwf.nocs])
    · unfold ScoresS
      rw [scoresAfter_mem, scoreOrder_mem g hwf n hn]
      constructor
      · intro ⟨⟨hk, L, hL, hdn⟩, _, hsc⟩
        refine ⟨hk, ⟨L, hL, hdn⟩, ?_⟩
        rw [hsc, nodeScore_eq g hwf n hk ⟨L, hL, hdn⟩]
      · intro ⟨hk, hreach, hsc⟩
        refine ⟨⟨hk, hreach.choose, hreach.choose_spec.1, hreach.choose_spec.2⟩, hn, ?_⟩
        rw [hsc, nodeScore_eq g hwf n hk hreach]
  · exact sortScores_sorted _
  · have hmapfst : ∀ l : List String,
        (l.filterMap (fun n => if n = csName then none
          else some (n, nodeScore (addSentinelS g) n))).map Prod.fst =
        l.filter (fun x => !(x == csName)) := by
      intro l
      induction l with
      | nil => rfl
      | cons a as ih =>
        by_cases ha : a = csName
        · simp [List.filterMap_cons, List.filter_cons, ha, ih]
        · simp [List.filterMap_cons, List.filter_cons, ha, ih]
    have hperm := (sortScores_perm ((scoreOrder (addSentinelS g)).filterMap
      (fun n => if n = csName then none
        else some (n, nodeScore (addSentinelS g) n)))).map Prod.fst
    rw [hmapfst] at hperm
    have hsn : ((scoreOrder (addSentinelS g)).filter (fun x => !(x == csName))).Nodup :=
      ((bft_nodup (fun nd => nd.parents) (addSentinelS g) [csName] []).1).filter _
    exact hperm.nodup_iff.mpr hsn
  · intro sc hmem
    obtain ⟨_, hne, _⟩ := (scoresAfter_mem _ _ _).mp hmem
    exact absurd rfl hne
  · intro sc
    unfold ScoresS scoresAfter
    rw [sortScores_filter_stable]
    exact scores_filter_visitOrder (addSentinelS g) sc (scoreOrder (addSentinelS g))

/-- C6 witness: the characterization applied to the two-node cycle
Relate(a, b); Relate(b, a), whose well-formedness is decided. -/
theorem scores_characterization_witness :
    WFShape twoCycleShape ∧
      ((∀ n sc, (n, sc) ∈ ScoresS twoCycleShape ↔
        (containsKeyS twoCycleShape n = true ∧
          (∃ L, childlessKey twoCycleShape L ∧ DownReach twoCycleShape n L) ∧
          sc = (({m | m ∈ keysS twoCycleShape ∧ m ≠ n ∧
            DownReach twoCycleShape n m} : Set String).ncard : Int))) ∧
      (ScoresS twoCycleShape).Sorted (fun a b : String × Int => b.2 ≤ a.2) ∧
      ((ScoresS twoCycleShape).map Prod.fst).Nodup ∧
      (∀ sc, (csName, sc) ∉ ScoresS twoCycleShape) ∧
      (∀ sc : Int, ((ScoresS twoCycleShape).filter (fun p => p.2 == sc)).map Prod.fst =
        (scoreOrder (addSentinelS twoCycleShape)).filter
          (fun n => !(n == csName) &&
            (nodeScore (addSentinelS twoCycleShape) n == sc)))) :=
  ⟨⟨by decide, by decide, by decide, by decide⟩,
   scores_characterization twoCycleShape ⟨by decide, by decide, by decide, by decide⟩⟩

/-- C6 counterexample: the two-node cycle Relate(a, b); Relate(b, a) has two
nodes and no sentinel entry (no node is childless), and Scores returns the
empty list — not one (name, score) pair per non-sentinel node. Moreover, on
tieShape the nodes `p` and `a` tie at score 2 and Scores lists `p` before
`a`, although `a` precedes `p` both in insertion order (keysS index 1 vs 5)
and lexically ("a" < "p"): the tie-break is the upward visit order, not the
original claim's insertion/lexical order. -/
theorem scores_tiebreak_cx :
    (ScoresS twoCycleShape = [] ∧ (keysS twoCycleShape).length = 2) ∧
    ScoresS tieShape =
      [("p", 2), ("a", 2), ("x", 1), ("b", 0), ("c", 0), ("d", 0), ("y", 0)] ∧
    (keysS tieShape).indexOf "a" < (keysS tieShape).indexOf "p" ∧
    ("a" : String) < "p" := by
  refine ⟨⟨?_, ?_⟩, ?_, ?_, ?_⟩
  · have hadd : addSentinelS twoCycleShape = twoCycleShape := rfl
    have hso : scoreOrder twoCycleShape = [] := by
      unfold scoreOrder
      rw [bftLoop_cons_none (fun nd => nd.parents) twoCycleShape csName [] [] (by rfl),
        bftLoop_nil]
    unfold ScoresS scoresAfter
    rw [hadd, hso]
    rfl
  · rfl
  · have hadd : addSentinelS tieShape =
        [("x", ⟨["a"], ["y"]⟩), ("a", ⟨[], ["x"]⟩), ("b", ⟨[], [""]⟩),
         ("y", ⟨["x"], [""]⟩), ("c", ⟨["p"], [""]⟩), ("p", ⟨[], ["c", "d"]⟩),
         ("d", ⟨["p"], [""]⟩), ("", ⟨["b", "y", "c", "d"], []⟩)] := rfl
    have hso : scoreOrder (addSentinelS tieShape) =
        ["", "b", "c", "d", "y", "p", "x", "a"] := by
      rw [hadd]
      simp +decide [scoreOrder, bftLoop_cons_new, bftLoop_cons_none, bftLoop_cons_seen,
        bftLoop_nil, lookupS, sortStrings, insStr, csName]
    have hb : nodeScore (addSentinelS tieShape) "b" = 0 := by
      rw [hadd]
      simp +decide [nodeScore, bftLoop_cons_new, bftLoop_cons_none, bftLoop_cons_seen,
        bftLoop_nil, lookupS, sortStrings, insStr, csName]
    have hc : nodeScore (addSentinelS tieShape) "c" = 0 := by
      rw [hadd]
      simp +decide [nodeScore, bftLoop_cons_new, bftLoop_cons_none, bftLoop_cons_seen,
        bftLoop_nil, lookupS, sortStrings, insStr, csName]
    have hd : nodeScore (addSentinelS tieShape) "d" = 0 := by
      rw [hadd]
      simp +decide [nodeScore, bftLoop_cons_new, bftLoop_cons_none, bftLoop_cons_seen,
        bftLoop_nil, lookupS, sortStrings, insStr, csName]
    have hy : nodeScore (addSentinelS tieShape) "y" = 0 := by
      rw [hadd]
      simp +decide [nodeScore, bftLoop_cons_new, bftLoop_cons_none, bftLoop_cons_seen,
        bftLoop_nil, lookupS, sortStrings, insStr, csName]
    have hp : nodeScore (addSentinelS tieShape) "p" = 2 := by
      rw [hadd]
      simp +decide [nodeScore, bftLoop_cons_new, bftLoop_cons_none, bftLoop_cons_seen,
        bftLoop_nil, lookupS, sortStrings, insStr, csName]
    have hx : nodeScore (addSentinelS tieShape) "x" = 1 := by
      rw [hadd]
      simp +decide [nodeScore, bftLoop_cons_new, bftLoop_cons_none, bftLoop_cons_seen,
        bftLoop_nil, lookupS, sortStrings, insStr, csName]
    have ha : nodeScore (addSentinelS tieShape) "a" = 2 := by
      rw [hadd]
      simp +decide [nodeScore, bftLoop_cons_new, bftLoop_cons_none, bftLoop_cons_seen,
        bftLoop_nil, lookupS, sortStrings, insStr, csName]
    unfold ScoresS scoresAfter
    rw [hso]
    simp [csName, hb, hc, hd, hy, hp, hx, ha, sortScores, insDesc]
  · decide
  · simp
    decide

/-! ## processCycle layer: behaviour of one ready item -/

theorem startExternalWait_jobs (st : PCState) (t : Table) (job : Option BQJob)
    (st1 : PCState) (h : startExternalWait st t job = .ok st1) :
    st1.jobs = st.jobs := by
  unfold startExternalWait at h
  split_ifs at h
  all_goals cases h
  all_goals rfl


/-- The ready loop submits only the processed job itself, and only when its
error is empty, its warehouse-side id is empty and it is not a load job. -/
theorem processReadyJob_submit (wh : Int → StartRes × StartRes) (st : PCState)
    (job j : BQJob) (h : (processReadyJob wh st job).1 = some j) :
    j = job ∧ job.errorStr = "" ∧ job.bqJobId = "" ∧ job.jobType ≠ "load" := by
  unfold processReadyJob at h
  by_cases h1 : (job.errorStr != "") = true
  · rw [if_pos h1] at h
    simp at h
  · rw [if_neg h1] at h
    by_cases h2 : (job.bqJobId == "") = true
    · rw [if_pos h2] at h
      by_cases h3 : (job.jobType == "load") = true
      · rw [if_pos h3] at h
        cases him : getImportStatus st job.tableId with
        | impError => rw [him] at h; simp at h
        | impQueued => rw [him] at h; simp at h
        | impRunning => rw [him] at h; simp at h
        | impDone => rw [him] at h; simp at h
        | impNone =>
          rw [him] at h
          dsimp only at h
          cases hlt : lookupTable st job.tableId with
          | none => rw [hlt] at h; simp at h
          | some t =>
            rw [hlt] at h
            dsimp only at h
            by_cases hii : t.IsImport = true
            · rw [if_pos hii] at h
              simp at h
            · rw [if_neg hii] at h
              by_cases hie : (t.IsExternal && !(hasExternalWait st t.id)) = true
              · rw [if_pos hie] at h
                cases hse : startExternalWait st t (some job) with
                | ok st1 => rw [hse] at h; simp at h
                | error e => rw [hse] at h; simp at h
              · rw [if_neg hie] at h
                simp at h
      · rw [if_neg h3] at h
        cases hlt : lookupTable st job.tableId with
        | none => rw [hlt] at h; simp at h
        | some t =>
          rw [hlt] at h
          dsimp only at h
          cases hres : (submitJob job (wh job.tableId).1 (wh job.tableId).2 true).res with
          | error e => rw [hres] at h; simp at h
          | ok u =>
            rw [hres] at h
            dsimp only at h
            have hje : j = job := by
              injection h with h
              exact h.symm
            refine ⟨hje, by simpa using h1, by simpa using h2, by simpa using h3⟩
    · rw [if_neg h2] at h
      simp at h

/-- With a well-behaved warehouse, a ready item the loop neither submits nor
fails on is inert for a reason visible in the job row: its warehouse-side id
is already set, or it is a load job. -/
theorem processReadyJob_none_reason (wh : Int → StartRes × StartRes) (st : PCState)
    (job : BQJob) (hW : WhGood wh)
    (hsub : (processReadyJob wh st job).1 = none)
    (herr : (processReadyJob wh st job).2.2 = none) :
    job.errorStr = "" ∧ (job.bqJobId ≠ "" ∨ job.jobType = "load") := by
  unfold processReadyJob at hsub herr
  by_cases h1 : (job.errorStr != "") = true
  · rw [if_pos h1] at herr
    simp at herr
  · refine ⟨by simpa using h1, ?_⟩
    rw [if_neg h1] at hsub herr
    by_cases h2 : (job.bqJobId == "") = true
    · rw [if_pos h2] at hsub herr
      by_cases h3 : (job.jobType == "load") = true
      · exact Or.inr (by simpa using h3)
      · exfalso
        rw [if_neg h3] at hsub herr
        cases hlt : lookupTable st job.tableId with
        | none =>
          rw [hlt] at herr
          simp at herr
        | some t =>
          rw [hlt] at hsub
          dsimp only at hsub
          obtain ⟨b, hb, hbid, s, hs, hst, hserr⟩ := hW job.tableId
          rw [hb] at hsub
          rw [show submitJob job (StartRes.ok b) (wh job.tableId).2 true =
            ⟨.ok (), updateJobWithBQData job b, true⟩ from rfl] at hsub
          dsimp only at hsub
          simp at hsub
    · exact Or.inl (by simpa using h2)

theorem cycleLoop_nil (wh : Int → StartRes × StartRes) (st : PCState) :
    cycleLoop wh [] st = ([], st, none) := rfl

theorem cycleLoop_cons (wh : Int → StartRes × StartRes) (i : BQJob)
    (rest : List BQJob) (st : PCState) :
    cycleLoop wh (i :: rest) st =
      match processReadyJob wh st i with
      | (sub, st1, some e) => (sub.toList, st1, some e)
      | (sub, st1, none) =>
        (sub.toList ++ (cycleLoop wh rest st1).1, (cycleLoop wh rest st1).2.1,
          (cycleLoop wh rest st1).2.2) := rfl

/-- Every job in the submission list is one of the processed ready items, with
an empty error, an empty warehouse-side id and a non-load type. -/
theorem cycleLoop_submits (wh : Int → StartRes × StartRes) (items : List BQJob)
    (st : PCState) :
    ∀ j ∈ (cycleLoop wh items st).1,
      j ∈ items ∧ j.errorStr = "" ∧ j.bqJobId = "" ∧ j.jobType ≠ "load" := by
  induction items generalizing st with
  | nil =>
    intro j hj
    rw [cycleLoop_nil] at hj
    simp at hj
  | cons i rest ih =>
    intro j hj
    rw [cycleLoop_cons] at hj
    rcases hpr : processReadyJob wh st i with ⟨sub, st1, err⟩
    rw [hpr] at hj
    cases err with
    | some e =>
      dsimp only at hj
      have hsub : sub = some j := by
        cases sub with
        | none => simp at hj
        | some x =>
          simp at hj
          rw [hj]
      obtain ⟨hjeq, h1, h2, h3⟩ := processReadyJob_submit wh st i j
        (by rw [hpr]; exact hsub)
      subst hjeq
      exact ⟨List.mem_cons_self _ _, h1, h2, h3⟩
    | none =>
      dsimp only at hj
      rcases List.mem_append.mp hj with hj1 | hj2
      · have hsub : sub = some j := by
          cases sub with
          | none => simp at hj1
          | some x =>
            simp at hj1
            rw [hj1]
        obtain ⟨hjeq, h1, h2, h3⟩ := processReadyJob_submit wh st i j
          (by rw [hpr]; exact hsub)
        subst hjeq
        exact ⟨List.mem_cons_self _ _, h1, h2, h3⟩
      · obtain ⟨hm, h1, h2, h3⟩ := ih st1 j hj2
        exact ⟨List.mem_cons_of_mem _ hm, h1, h2, h3⟩

/-- A batch of inert ready items produces no submissions. -/
theorem cycleLoop_inert_no_submit (wh : Int → StartRes × StartRes)
    (items : List BQJob) (st : PCState) (hin : ∀ i ∈ items, InertJob i) :
    (cycleLoop wh items st).1 = [] := by
  induction items generalizing st with
  | nil => rw [cycleLoop_nil]
  | cons i rest ih =>
    have hsubn : (processReadyJob wh st i).1 = none := by
      cases hs : (processReadyJob wh st i).1 with
      | none => rfl
      | some j =>
        obtain ⟨_, he, hb, hl⟩ := processReadyJob_submit wh st i j hs
        rcases hin i (List.mem_cons_self _ _) with h | h | h
        · exact absurd hb h
        · exact absurd h hl
        · exact absurd he h
    rw [cycleLoop_cons]
    rcases hpr : processReadyJob wh st i with ⟨sub, st1, err⟩
    have hsub : sub = none := by
      rw [hpr] at hsubn
      exact hsubn
    subst hsub
    cases err with
    | some e => dsimp only; rfl
    | none =>
      dsimp only
      rw [Option.toList_none, List.nil_append]
      exact ih st1 (fun x hx => hin x (List.mem_cons_of_mem _ hx))

/-- Finding a name in the byId map (keyed by printed table id). -/
theorem lookupByName_jobsByName (byId : List (Int × BQJob)) (n : String) (j : BQJob)
    (h : lookupByName (jobsByName byId) n = some j) :
    ∃ tid, (tid, j) ∈ byId ∧ intName tid = n := by
  induction byId with
  | nil => cases h
  | cons e rest ih =>
    rw [show jobsByName (e :: rest) = (intName e.1, e.2) :: jobsByName rest from rfl] at h
    rw [lookupByName] at h
    by_cases he : (intName e.1 == n) = true
    · rw [if_pos he] at h
      injection h with h
      exact ⟨e.1, by rw [← h]; exact List.mem_cons_self _ _, by simpa using he⟩
    · rw [if_neg he] at h
      obtain ⟨tid, hm, hn⟩ := ih h
      exact ⟨tid, List.mem_cons_of_mem _ hm, hn⟩

/-- Membership in the unfinished-jobs map for a never-resumed run (maxErrCnt
0): kept exactly when the error does not carry the schema marker and the job
is not DONE-and-clean; the key is the job's table id. -/
theorem buildByIdFrom_zero_mem (jobs : List BQJob) (errCnt : Nat) (tid : Int)
    (j : BQJob) :
    (tid, j) ∈ buildByIdFrom 0 jobs errCnt ↔
      (j ∈ jobs ∧ tid = j.tableId ∧ containsSubstr j.errorStr bqSchemaErr = false ∧
        (j.state ≠ "DONE" ∨ j.errorStr ≠ "")) := by
  induction jobs generalizing errCnt with
  | nil => simp [buildByIdFrom]
  | cons a rest ih =>
    rw [show buildByIdFrom 0 (a :: rest) errCnt =
      (if containsSubstr a.errorStr bqSchemaErr then
        buildByIdFrom 0 rest errCnt
      else
        let errCnt1 := if a.errorStr != "" then errCnt + 1 else errCnt
        if a.state != "DONE" ||
            (a.errorStr != "" && ((0 : Nat) == 0 || ((0 : Nat) > 0 && errCnt1 > 0)))
        then (a.tableId, a) :: buildByIdFrom 0 rest errCnt1
        else buildByIdFrom 0 rest errCnt1) from rfl]
    by_cases h1 : containsSubstr a.errorStr bqSchemaErr = true
    · rw [if_pos h1, ih]
      constructor
      · intro ⟨hm, h⟩
        exact ⟨List.mem_cons_of_mem _ hm, h⟩
      · intro ⟨hm, heq, hsch, hkeep⟩
        rcases List.mem_cons.mp hm with rfl | hm2
        · rw [h1] at hsch
          cases hsch
        · exact ⟨hm2, heq, hsch, hkeep⟩
    · rw [if_neg h1]
      have h1f : containsSubstr a.errorStr bqSchemaErr = false := by
        cases hx : containsSubstr a.errorStr bqSchemaErr with
        | true => exact absurd hx h1
        | false => rfl
      dsimp only
      by_cases hk : (a.state != "DONE" ||
          (a.errorStr != "" && ((0 : Nat) == 0 ||
            ((0 : Nat) > 0 && (if a.errorStr != "" then errCnt + 1 else errCnt) > 0)))) = true
      · rw [if_pos hk]
        have hkeep : a.state ≠ "DONE" ∨ a.errorStr ≠ "" := by
          rw [Bool.or_eq_true] at hk
          rcases hk with hk | hk
          · exact Or.inl (by simpa using hk)
          · rw [Bool.and_eq_true] at hk
            exact Or.inr (by simpa using hk.1)
        rw [List.mem_cons, ih]
        constructor
        · intro h
          rcases h with heq | ⟨hm, h⟩
          · injection heq with he1 he2
            subst he2
            exact ⟨List.mem_cons_self _ _, he1, h1f, hkeep⟩
          · exact ⟨List.mem_cons_of_mem _ hm, h⟩
        · intro ⟨hm, heq, hsch, hkp⟩
          rcases List.mem_cons.mp hm with rfl | hm2
          · exact Or.inl (by rw [heq])
          · exact Or.inr ⟨hm2, heq, hsch, hkp⟩
      · rw [if_neg hk, ih]
        have hdone : a.state = "DONE" ∧ a.errorStr = "" := by
          rw [Bool.or_eq_true, not_or] at hk
          obtain ⟨hk1, hk2⟩ := hk
          constructor
          · by_cases hx : a.state = "DONE"
            · exact hx
            · exact absurd (by simpa using hx) hk1
          · by_cases hx : a.errorStr = ""
            · exact hx
            · exfalso
              apply hk2
              rw [Bool.and_eq_true]
              exact ⟨by simpa using hx, by simp⟩
        constructor
        · intro ⟨hm, h⟩
          exact ⟨List.mem_cons_of_mem _ hm, h⟩
        · intro ⟨hm, heq, hsch, hkp⟩
          rcases List.mem_cons.mp hm with rfl | hm2
          · rcases hkp with h | h
            · exact absurd hdone.1 h
            · exact absurd hdone.2 h
          · exact ⟨hm2, heq, hsch, hkp⟩

/-! ## Edges recorded by Relate survive graph building -/

theorem lookupS_updateS (g : Shape) (n m : String) (f : SNode → SNode) :
    lookupS (updateS g n f) m =
      (lookupS g m).map (fun nd => if m == n then f nd else nd) := by
  induction g with
  | nil => rfl
  | cons e rest ih =>
    rw [show updateS (e :: rest) n f =
      (if e.1 == n then (e.1, f e.2) else e) :: updateS rest n f from rfl]
    by_cases hem : (e.1 == m) = true
    · have hm : e.1 = m := by simpa using hem
      by_cases hen : (e.1 == n) = true
      · have hn : e.1 = n := by simpa using hen
        have hmn : (m == n) = true := by
          rw [← hm, hn]
          simp
        rw [if_pos hen, lookupS, if_pos hem, lookupS, if_pos hem, Option.map_some']
        simp [hmn]
      · have hmn : (m == n) = false := by
          rw [← hm]
          exact beq_eq_false_iff_ne.mpr (by simpa using hen)
        rw [if_neg hen, lookupS, if_pos hem, lookupS, if_pos hem, Option.map_some']
        simp [hmn]
    · by_cases hen : (e.1 == n) = true
      · rw [if_pos hen, lookupS, if_neg hem, lookupS, if_neg hem]
        exact ih
      · rw [if_neg hen, lookupS, if_neg hem, lookupS, if_neg hem]
        exact ih

theorem lookupS_addItemS (g : Shape) (n m : String) :
    lookupS (addItemS g n) m =
      match lookupS g m with
      | some nd => some nd
      | none => if n == m then some ⟨[], []⟩ else none := by
  unfold addItemS
  by_cases hc : containsKeyS g n = true
  · rw [if_pos hc]
    cases hlk : lookupS g m with
    | some nd => rfl
    | none =>
      by_cases hnm : (n == m) = true
      · have heq : n = m := by simpa using hnm
        subst heq
        unfold containsKeyS at hc
        rw [hlk] at hc
        simp at hc
      · rw [if_neg hnm]
  · rw [if_neg hc, lookupS_append]
    cases hlk : lookupS g m with
    | some nd => rfl
    | none => rfl

theorem addParentS_mem (nd : SNode) (q p : String) (h : p ∈ nd.parents) :
    p ∈ (addParentS nd q).parents := by
  unfold addParentS
  split_ifs
  · exact h
  · exact List.mem_append_left _ h

theorem addParentS_self (nd : SNode) (q : String) : q ∈ (addParentS nd q).parents := by
  unfold addParentS
  split_ifs with h
  · simpa using h
  · exact List.mem_append_right _ (by simp)

theorem addChildS_parents (nd : SNode) (c : String) :
    (addChildS nd c).parents = nd.parents := by
  unfold addChildS
  split_ifs <;> rfl

theorem relateS_parents_mono (g : Shape) (pa : Option String) (c x p : String)
    (nd : SNode) (hlk : lookupS g x = some nd) (hp : p ∈ nd.parents) :
    ∃ nd2, lookupS (relateS g pa c) x = some nd2 ∧ p ∈ nd2.parents := by
  cases pa with
  | none =>
    rw [show relateS g none c = addItemS g c from rfl, lookupS_addItemS, hlk]
    exact ⟨nd, rfl, hp⟩
  | some q =>
    rw [show relateS g (some q) c =
      updateS (updateS (addItemS (addItemS g c) q) c (fun nd => addParentS nd q)) q
        (fun nd => addChildS nd c) from rfl]
    rw [lookupS_updateS, lookupS_updateS, lookupS_addItemS, lookupS_addItemS, hlk]
    simp only [Option.map_some']
    refine ⟨_, rfl, ?_⟩
    split_ifs <;>
      first
        | (rw [addChildS_parents]
           first
             | exact addParentS_mem nd q p hp
             | exact hp)
        | exact addParentS_mem nd q p hp
        | exact hp

theorem relateS_parent_added (g : Shape) (q c : String) :
    ∃ nd, lookupS (relateS g (some q) c) c = some nd ∧ q ∈ nd.parents := by
  rw [show relateS g (some q) c =
    updateS (updateS (addItemS (addItemS g c) q) c (fun nd => addParentS nd q)) q
      (fun nd => addChildS nd c) from rfl]
  rw [lookupS_updateS, lookupS_updateS, lookupS_addItemS, lookupS_addItemS]
  have hcc : (c == c) = true := by simp
  simp only [hcc, if_true]
  cases hlk : lookupS g c with
  | some nd =>
    dsimp only
    simp only [Option.map_some']
    refine ⟨_, rfl, ?_⟩
    split_ifs with hcq
    · rw [addChildS_parents]
      exact addParentS_self nd q
    · exact addParentS_self nd q
  | none =>
    dsimp only
    simp only [Option.map_some']
    refine ⟨_, rfl, ?_⟩
    split_ifs with hcq
    · rw [addChildS_parents]
      exact addParentS_self _ q
    · exact addParentS_self _ q

theorem buildShape_parent_mem (rels : List (Option String × String)) (p c : String)
    (h : (some p, c) ∈ rels) :
    ∃ nd, lookupS (buildShape rels) c = some nd ∧ p ∈ nd.parents := by
  unfold buildShape
  suffices haux : ∀ (rs : List (Option String × String)) (g : Shape),
      ((∃ nd, lookupS g c = some nd ∧ p ∈ nd.parents) ∨ (some p, c) ∈ rs) →
      ∃ nd, lookupS (rs.foldl (fun g r => relateS g r.1 r.2) g) c = some nd ∧
        p ∈ nd.parents by
    exact haux rels [] (Or.inr h)
  intro rs
  induction rs with
  | nil =>
    intro g hg
    rcases hg with hg | hg
    · simpa using hg
    · simp at hg
  | cons r rest ih =>
    intro g hg
    rw [List.foldl_cons]
    apply ih
    rcases hg with ⟨nd, hlk, hp⟩ | hg
    · exact Or.inl (relateS_parents_mono g r.1 r.2 c p nd hlk hp)
    · rcases List.mem_cons.mp hg with heq | hg2
      · subst heq
        exact Or.inl (relateS_parent_added g p c)
      · exact Or.inr hg2

/-- Lookup of a real node after childSentinel keeps the parent list (stated
without well-formedness: when the sentinel name is already a key, childSentinel
is the identity). -/
theorem addSentinel_parents (g : Shape) (n : String) (hn : n ≠ csName) (nd1 : SNode)
    (h1 : lookupS (addSentinelS g) n = some nd1) :
    ∃ nd, lookupS g n = some nd ∧ nd.parents = nd1.parents := by
  by_cases hcs : containsKeyS g csName = true
  · unfold addSentinelS at h1
    rw [if_pos hcs] at h1
    exact ⟨nd1, h1, rfl⟩
  · have hg : containsKeyS g csName = false := by
      cases hx : containsKeyS g csName with
      | true => exact absurd hx hcs
      | false => rfl
    rw [lookupS_addSentinel g hg n hn] at h1
    cases hlk : lookupS g n with
    | none =>
      rw [hlk] at h1
      cases h1
    | some nd =>
      rw [hlk] at h1
      simp only [Option.map_some'] at h1
      injection h1 with h1
      refine ⟨nd, rfl, ?_⟩
      rw [← h1]
      split_ifs
      · rfl
      · rfl

theorem processCycle_eq (maxE : Nat) (wh : Int → StartRes × StartRes) (st : PCState) :
    processCycle maxE wh st =
      if (graphFromJobsById (buildById maxE st.jobs)).isEmpty
      then ([], { st with runEnded := true }, none)
      else
        match ReadyItemsS (graphFromJobsById (buildById maxE st.jobs)) with
        | .error e => ([], st, some e)
        | .ok readyNames =>
          cycleLoop wh (readyNames.filterMap
            (fun n => lookupByName (jobsByName (buildById maxE st.jobs)) n)) st := rfl

theorem readyItems_ok_names (g : Shape) (names : List String)
    (h : ReadyItemsS g = .ok names) : names = readyNamesAfter (addSentinelS g) := by
  rw [readyItems_eq] at h
  split_ifs at h
  injection h with h2
  exact h2.symm

theorem readyName_parentless (g1 : Shape) (n : String) (h : n ∈ readyNamesAfter g1) :
    n ≠ csName ∧ ∃ nd1, lookupS g1 n = some nd1 ∧ nd1.parents = [] := by
  obtain ⟨⟨sc, hsc⟩, nd1, hlk, hp⟩ := (readyNamesAfter_mem g1 n).mp h
  obtain ⟨_, hne, _⟩ := (scoresAfter_mem g1 n sc).mp hsc
  exact ⟨hne, nd1, hlk, hp⟩

/-- C1: in a never-resumed run, every job processCycle submits has an empty
warehouse-side id and an empty error, and every parent table id it lists whose
job row is part of the run names a job that either carries the schema-mismatch
error (such parents are silently dropped from the unfinished map — the spec's
"never submitted before all parents are done and clean" fails for them, see
`Maestro.processCycle_schema_parent_cx`) or is DONE with an empty error. -/
theorem processCycle_parent_discipline (wh : Int → StartRes × StartRes) (st : PCState) :
    ∀ j ∈ (processCycle 0 wh st).1,
      j.bqJobId = "" ∧ j.errorStr = "" ∧
      ∀ p ∈ j.parents, ∀ pj ∈ st.jobs, pj.tableId = p →
        containsSubstr pj.errorStr bqSchemaErr = true ∨
          (pj.state = "DONE" ∧ pj.errorStr = "") := by
  intro j hj
  rw [processCycle_eq] at hj
  by_cases hemp : (graphFromJobsById (buildById 0 st.jobs)).isEmpty = true
  · rw [if_pos hemp] at hj
    simp at hj
  · rw [if_neg hemp] at hj
    cases hri : ReadyItemsS (graphFromJobsById (buildById 0 st.jobs)) with
    | error e =>
      rw [hri] at hj
      simp at hj
    | ok names =>
      rw [hri] at hj
      dsimp only at hj
      obtain ⟨hmemitems, herrj, hidj, _⟩ := cycleLoop_submits wh _ st j hj
      obtain ⟨n, hn, hlkn⟩ := List.mem_filterMap.mp hmemitems
      obtain ⟨tid, htid, hname⟩ := lookupByName_jobsByName _ n j hlkn
      obtain ⟨hjobs, htideq, hsch, hkeep⟩ := (buildByIdFrom_zero_mem st.jobs 0 tid j).mp htid
      refine ⟨hidj, herrj, ?_⟩
      intro p hp pj hpj hpjt
      by_contra hcon
      rw [not_or, not_and_or] at hcon
      obtain ⟨hcon1, hcon2⟩ := hcon
      have hschpj : containsSubstr pj.errorStr bqSchemaErr = false := by
        cases hx : containsSubstr pj.errorStr bqSchemaErr with
        | true => exact absurd hx hcon1
        | false => rfl
      have hpj2 : (p, pj) ∈ buildById 0 st.jobs :=
        (buildByIdFrom_zero_mem st.jobs 0 p pj).mpr ⟨hpj, hpjt.symm, hschpj, hcon2⟩
      have hksmem : p ∈ (buildById 0 st.jobs).map (fun x => x.1) :=
        List.mem_map.mpr ⟨(p, pj), hpj2, rfl⟩
      have hks : ((buildById 0 st.jobs).map (fun x => x.1)).contains p = true := by
        simpa using hksmem
      have hedge : (some (intName p), intName j.tableId) ∈
          (buildById 0 st.jobs).bind
            (fun e => relsOfJob ((buildById 0 st.jobs).map (fun x => x.1)) e.2) := by
        apply List.mem_bind.mpr
        refine ⟨(tid, j), htid, ?_⟩
        unfold relsOfJob
        have hpfound : p ∈ j.parents.filter
            (fun pid => ((buildById 0 st.jobs).map (fun x => x.1)).contains pid) :=
          List.mem_filter.mpr ⟨hp, hks⟩
        have hne : ¬ (j.parents.filter
            (fun pid => ((buildById 0 st.jobs).map (fun x => x.1)).contains pid)).isEmpty
              = true := by
          rw [List.isEmpty_iff]
          intro hx
          rw [hx] at hpfound
          cases hpfound
        rw [if_neg hne]
        exact List.mem_map.mpr ⟨p, hpfound, rfl⟩
      obtain ⟨nd', hlk', hpmem⟩ := buildShape_parent_mem _ (intName p) (intName j.tableId)
        hedge
      have hnames := readyItems_ok_names _ names hri
      rw [hnames] at hn
      obtain ⟨hncs, nd1, hlk1, hpar1⟩ := readyName_parentless _ n hn
      obtain ⟨nd0, hlk0, hpar0⟩ := addSentinel_parents _ n hncs nd1 hlk1
      have hnn : n = intName j.tableId := by rw [← hname, htideq]
      rw [hnn] at hlk0
      rw [show graphFromJobsById (buildById 0 st.jobs) =
        buildShape ((buildById 0 st.jobs).bind
          (fun e => relsOfJob ((buildById 0 st.jobs).map (fun x => x.1)) e.2)) from rfl]
        at hlk0
      rw [hlk'] at hlk0
      injection hlk0 with hlk0
      rw [hlk0, hpar0, hpar1] at hpmem
      cases hpmem

/-! ## Concrete runs of processCycle -/

theorem cx_scoreOrder :
    scoreOrder [("2", SNode.mk [] [""]), ("", SNode.mk ["2"] [])] = ["", "2"] := by
  simp [scoreOrder, bftLoop_cons_new, bftLoop_cons_none, bftLoop_cons_seen, bftLoop_nil,
    lookupS, sortStrings, insStr, csName]

theorem cx_nodeScore :
    nodeScore [("2", SNode.mk [] [""]), ("", SNode.mk ["2"] [])] "2" = 0 := by
  simp [nodeScore, bftLoop_cons_new, bftLoop_cons_none, bftLoop_cons_seen, bftLoop_nil,
    lookupS, sortStrings, insStr, csName]

theorem cx_ready :
    readyNamesAfter [("2", SNode.mk [] [""]), ("", SNode.mk ["2"] [])] = ["2"] := by
  unfold readyNamesAfter scoresAfter
  rw [cx_scoreOrder]
  simp [cx_nodeScore, csName, sortScores, insDesc, lookupS]

theorem cx_readyItems : ReadyItemsS [("2", SNode.mk [] [])] = .ok ["2"] := by
  rw [readyItems_eq]
  rw [show addSentinelS [("2", SNode.mk [] [])] =
    [("2", SNode.mk [] [""]), ("", SNode.mk ["2"] [])] from rfl]
  rw [cx_ready]
  rfl

theorem processCycle_cxState_subs :
    (processCycle 0 whAlwaysOk cxState).1 = [cxChildJob] := by
  rw [processCycle_eq]
  rw [show buildById 0 cxState.jobs = [(2, cxChildJob)] from rfl]
  rw [show graphFromJobsById [(2, cxChildJob)] = [("2", SNode.mk [] [])] from rfl]
  rw [cx_readyItems]
  rfl

/-- C1 counterexample: table 2's job lists table 1 as its only parent; table
1's job is DONE but carries the schema-mismatch error (a non-empty error), yet
processCycle submits table 2's job in that very cycle, because the
schema-mismatch parent is dropped from the unfinished map and table 2 becomes
parentless in the dependency graph. -/
theorem processCycle_schema_parent_cx :
    (processCycle 0 whAlwaysOk cxState).1 = [cxChildJob] ∧
    cxChildJob.parents = [1] ∧ cxChildJob.bqJobId = "" ∧
    lookupJob cxState.jobs 1 = some cxParentJob ∧
    cxParentJob.state = "DONE" ∧ cxParentJob.errorStr ≠ "" :=
  ⟨processCycle_cxState_subs, rfl, rfl, rfl, rfl, by decide⟩

/-- C1 witness: the parent-discipline theorem applied to the schema-mismatch
catalog, whose submitted job is computed. -/
theorem processCycle_parent_discipline_witness :
    cxChildJob ∈ (processCycle 0 whAlwaysOk cxState).1 ∧
      (cxChildJob.bqJobId = "" ∧ cxChildJob.errorStr = "" ∧
        ∀ p ∈ cxChildJob.parents, ∀ pj ∈ cxState.jobs, pj.tableId = p →
          containsSubstr pj.errorStr bqSchemaErr = true ∨
            (pj.state = "DONE" ∧ pj.errorStr = "")) :=
  ⟨by rw [processCycle_cxState_subs]; exact List.mem_singleton.mpr rfl,
   processCycle_parent_discipline whAlwaysOk cxState cxChildJob
     (by rw [processCycle_cxState_subs]; exact List.mem_singleton.mpr rfl)⟩

theorem c2_scoreOrder :
    scoreOrder [("1", SNode.mk [] [""]), ("", SNode.mk ["1"] [])] = ["", "1"] := by
  simp [scoreOrder, bftLoop_cons_new, bftLoop_cons_none, bftLoop_cons_seen, bftLoop_nil,
    lookupS, sortStrings, insStr, csName]

theorem c2_nodeScore :
    nodeScore [("1", SNode.mk [] [""]), ("", SNode.mk ["1"] [])] "1" = 0 := by
  simp [nodeScore, bftLoop_cons_new, bftLoop_cons_none, bftLoop_cons_seen, bftLoop_nil,
    lookupS, sortStrings, insStr, csName]

theorem c2_ready :
    readyNamesAfter [("1", SNode.mk [] [""]), ("", SNode.mk ["1"] [])] = ["1"] := by
  unfold readyNamesAfter scoresAfter
  rw [c2_scoreOrder]
  simp [c2_nodeScore, csName, sortScores, insDesc, lookupS]

theorem c2_readyItems : ReadyItemsS [("1", SNode.mk [] [])] = .ok ["1"] := by
  rw [readyItems_eq]
  rw [show addSentinelS [("1", SNode.mk [] [])] =
    [("1", SNode.mk [] [""]), ("", SNode.mk ["1"] [])] from rfl]
  rw [c2_ready]
  rfl

theorem processCycle_retry_first :
    processCycle 0 whRetry c2State =
      ([c2Job], ⟨[c2Job], [(1, ⟨1, 0, 0, "", true⟩)], [], [], false⟩, none) := by
  rw [processCycle_eq]
  rw [show buildById 0 c2State.jobs = [(1, c2Job)] from rfl]
  rw [show graphFromJobsById [(1, c2Job)] = [("1", SNode.mk [] [])] from rfl]
  rw [c2_readyItems]
  rfl

theorem processCycle_retry_second :
    processCycle 0 whRetry (⟨[c2Job], [(1, ⟨1, 0, 0, "", true⟩)], [], [], false⟩ : PCState) =
      ([c2Job], ⟨[c2Job], [(1, ⟨1, 0, 0, "", true⟩)], [], [], false⟩, none) := by
  rw [processCycle_eq]
  rw [show buildById 0
    (⟨[c2Job], [(1, ⟨1, 0, 0, "", true⟩)], [], [], false⟩ : PCState).jobs =
      [(1, c2Job)] from rfl]
  rw [show graphFromJobsById [(1, c2Job)] = [("1", SNode.mk [] [])] from rfl]
  rw [c2_readyItems]
  rfl

/-- C2 counterexample: when the first StartJob answer is a temporary error and
the retry succeeds, the submitted job's row keeps its empty warehouse-side id
(the retry's id is never written, the run even reports no error), so the very
next processCycle on the unchanged catalog submits the same job again: the
second back-to-back call's submission set is NOT empty. -/
theorem processCycle_retry_resubmits_cx :
    (processCycle 0 whRetry c2State).1 = [c2Job] ∧
    lookupJob ((processCycle 0 whRetry c2State).2.1).jobs 1 = some c2Job ∧
    c2Job.bqJobId = "" ∧
    (processCycle 0 whRetry ((processCycle 0 whRetry c2State).2.1)).1 = [c2Job] := by
  refine ⟨by rw [processCycle_retry_first], by rw [processCycle_retry_first]; rfl, rfl, ?_⟩
  rw [processCycle_retry_first]
  dsimp only
  rw [processCycle_retry_second]

/-! ## One ready item rewrites the job rows by a tableId-keyed map -/

/-- With a well-behaved warehouse, a non-failing processReadyJob step maps the
job rows pointwise: the map fixes every row of a different table id, preserves
table id always and parents/type on the catalog's rows, and when the item is
submitted the rows of its table id become errorless, non-DONE and carry a
non-empty warehouse-side id. -/
theorem processReadyJob_step (wh : Int → StartRes × StartRes) (st : PCState)
    (job : BQJob) (hW : WhGood wh) (hjob : job ∈ st.jobs)
    (hjnd : (st.jobs.map (fun j => j.tableId)).Nodup)
    (herr : (processReadyJob wh st job).2.2 = none) :
    ∃ f : BQJob → BQJob,
      (processReadyJob wh st job).2.1.jobs = st.jobs.map f ∧
      (∀ x, (f x).tableId = x.tableId) ∧
      (∀ x ∈ st.jobs, (f x).parents = x.parents ∧ (f x).jobType = x.jobType) ∧
      (∀ x, x.tableId ≠ job.tableId → f x = x) ∧
      (((processReadyJob wh st job).1 = none ∧ ∀ x, f x = x) ∨
        ((processReadyJob wh st job).1 = some job ∧ job.errorStr = "" ∧
          job.bqJobId = "" ∧
          ∀ x, x.tableId = job.tableId →
            (f x).errorStr = "" ∧ (f x).state ≠ "DONE" ∧ (f x).bqJobId ≠ "")) := by
  by_cases h1 : (job.errorStr != "") = true
  · exfalso
    have hpr : processReadyJob wh st job =
        (none, st, some (runJobErrorMsg job.tableId job.errorStr)) := by
      unfold processReadyJob
      rw [if_pos h1]
    rw [hpr] at herr
    simp at herr
  · by_cases h2 : (job.bqJobId == "") = true
    · by_cases h3 : (job.jobType == "load") = true
      · cases him : getImportStatus st job.tableId with
        | impError =>
          exfalso
          have hpr : processReadyJob wh st job =
              (none, st, some (runImportErrorMsg job.tableId)) := by
            unfold processReadyJob
            rw [if_neg h1, if_pos h2, if_pos h3, him]
          rw [hpr] at herr
          simp at herr
        | impQueued =>
          have hpr : processReadyJob wh st job = (none, st, none) := by
            unfold processReadyJob
            rw [if_neg h1, if_pos h2, if_pos h3, him]
          refine ⟨id, ?_, fun x => rfl, fun x _ => ⟨rfl, rfl⟩, fun x _ => rfl,
            Or.inl ⟨?_, fun x => rfl⟩⟩
          · rw [hpr, List.map_id]
          · rw [hpr]
        | impRunning =>
          have hpr : processReadyJob wh st job = (none, st, none) := by
            unfold processReadyJob
            rw [if_neg h1, if_pos h2, if_pos h3, him]
          refine ⟨id, ?_, fun x => rfl, fun x _ => ⟨rfl, rfl⟩, fun x _ => rfl,
            Or.inl ⟨?_, fun x => rfl⟩⟩
          · rw [hpr, List.map_id]
          · rw [hpr]
        | impDone =>
          have hpr : processReadyJob wh st job = (none, st, none) := by
            unfold processReadyJob
            rw [if_neg h1, if_pos h2, if_pos h3, him]
          refine ⟨id, ?_, fun x => rfl, fun x _ => ⟨rfl, rfl⟩, fun x _ => rfl,
            Or.inl ⟨?_, fun x => rfl⟩⟩
          · rw [hpr, List.map_id]
          · rw [hpr]
        | impNone =>
          cases hlt : lookupTable st job.tableId with
          | none =>
            exfalso
            have hpr : processReadyJob wh st job = (none, st, some tableMissingMsg) := by
              unfold processReadyJob
              rw [if_neg h1, if_pos h2, if_pos h3, him]
              dsimp only
              rw [hlt]
            rw [hpr] at herr
            simp at herr
          | some t =>
            by_cases hii : t.IsImport = true
            · have hpr : processReadyJob wh st job =
                  (none, { st with
                    tables := saveTable st.tables ({ t with running := true }),
                    imports := setAssoc st.imports t.id .impQueued }, none) := by
                unfold processReadyJob
                rw [if_neg h1, if_pos h2, if_pos h3, him]
                dsimp only
                rw [hlt]
                dsimp only
                rw [if_pos hii]
              refine ⟨id, ?_, fun x => rfl, fun x _ => ⟨rfl, rfl⟩, fun x _ => rfl,
                Or.inl ⟨?_, fun x => rfl⟩⟩
              · rw [hpr, List.map_id]
              · rw [hpr]
            · by_cases hie : (t.IsExternal && !(hasExternalWait st t.id)) = true
              · cases hse : startExternalWait st t (some job) with
                | ok st1 =>
                  have hpr : processReadyJob wh st job = (none, st1, none) := by
                    unfold processReadyJob
                    rw [if_neg h1, if_pos h2, if_pos h3, him]
                    dsimp only
                    rw [hlt]
                    dsimp only
                    rw [if_neg hii, if_pos hie, hse]
                  refine ⟨id, ?_, fun x => rfl, fun x _ => ⟨rfl, rfl⟩, fun x _ => rfl,
                    Or.inl ⟨?_, fun x => rfl⟩⟩
                  · rw [hpr, List.map_id]
                    exact startExternalWait_jobs st t (some job) st1 hse
                  · rw [hpr]
                | error e =>
                  have hpr : processReadyJob wh st job = (none, st, none) := by
                    unfold processReadyJob
                    rw [if_neg h1, if_pos h2, if_pos h3, him]
                    dsimp only
                    rw [hlt]
                    dsimp only
                    rw [if_neg hii, if_pos hie, hse]
                  refine ⟨id, ?_, fun x => rfl, fun x _ => ⟨rfl, rfl⟩, fun x _ => rfl,
                    Or.inl ⟨?_, fun x => rfl⟩⟩
                  · rw [hpr, List.map_id]
                  · rw [hpr]
              · have hpr : processReadyJob wh st job = (none, st, none) := by
                  unfold processReadyJob
                  rw [if_neg h1, if_pos h2, if_pos h3, him]
                  dsimp only
                  rw [hlt]
                  dsimp only
                  rw [if_neg hii, if_neg hie]
                refine ⟨id, ?_, fun x => rfl, fun x _ => ⟨rfl, rfl⟩, fun x _ => rfl,
                  Or.inl ⟨?_, fun x => rfl⟩⟩
                · rw [hpr, List.map_id]
                · rw [hpr]
      · cases hlt : lookupTable st job.tableId with
        | none =>
          exfalso
          have hpr : processReadyJob wh st job = (none, st, some tableMissingMsg) := by
            unfold processReadyJob
            rw [if_neg h1, if_pos h2, if_neg h3, hlt]
          rw [hpr] at herr
          simp at herr
        | some t =>
          obtain ⟨b, hb, hbid, s, hs, hst, hserr⟩ := hW job.tableId
          have hout : submitJob job (wh job.tableId).1 (wh job.tableId).2 true =
              ⟨.ok (), updateJobWithBQData job b, true⟩ := by
            rw [hb]
            rfl
          have hpr : processReadyJob wh st job =
              (some job,
               { st with
                   jobs := st.jobs.map (fun x =>
                     if x.tableId == job.tableId then updateJobWithBQData job b else x),
                   tables := saveTable st.tables ({ t with error := "", running := true }) },
               none) := by
            unfold processReadyJob
            rw [if_neg h1, if_pos h2, if_neg h3, hlt]
            dsimp only
            rw [hout]
            rfl
          refine ⟨fun x => if x.tableId == job.tableId then updateJobWithBQData job b
            else x, ?_, ?_, ?_, ?_, Or.inr ⟨?_, by simpa using h1, by simpa using h2, ?_⟩⟩
          · rw [hpr]
          · intro x
            dsimp only
            by_cases hxt : (x.tableId == job.tableId) = true
            · rw [if_pos hxt]
              have hxe : x.tableId = job.tableId := by simpa using hxt
              rw [show (updateJobWithBQData job b).tableId = job.tableId from rfl, hxe]
            · rw [if_neg hxt]
          · intro x hx
            dsimp only
            by_cases hxt : (x.tableId == job.tableId) = true
            · have hxeq : x = job := List.inj_on_of_nodup_map hjnd hx hjob
                (by simpa using hxt)
              rw [if_pos hxt, hxeq]
              exact ⟨rfl, rfl⟩
            · rw [if_neg hxt]
              exact ⟨rfl, rfl⟩
          · intro x hxt
            dsimp only
            rw [if_neg (by simpa using hxt)]
          · rw [hpr]
          · intro x hxt
            dsimp only
            rw [if_pos (by simpa using hxt)]
            refine ⟨?_, ?_, hbid⟩
            · show (updateJobWithBQData job b).errorStr = ""
              simp [updateJobWithBQData, BQJob.errorStr, hs, hserr]
            · show (updateJobWithBQData job b).state ≠ "DONE"
              simpa [updateJobWithBQData, BQJob.state, hs] using hst
    · have hpr : processReadyJob wh st job = (none, st, none) := by
        unfold processReadyJob
        rw [if_neg h1, if_neg h2]
      refine ⟨id, ?_, fun x => rfl, fun x _ => ⟨rfl, rfl⟩, fun x _ => rfl,
        Or.inl ⟨?_, fun x => rfl⟩⟩
      · rw [hpr, List.map_id]
      · rw [hpr]

/-- A non-failing ready loop over items with pairwise distinct table ids maps
the job rows pointwise: ids and parents survive, rows only change by gaining a
non-empty warehouse-side id, every processed item ends up inert, and every
submitted job has a non-empty id recorded in the resulting catalog. -/
theorem cycleLoop_good (wh : Int → StartRes × StartRes) (items : List BQJob)
    (st : PCState) (hW : WhGood wh)
    (hjnd : (st.jobs.map (fun j => j.tableId)).Nodup)
    (hind : (items.map (fun i => i.tableId)).Nodup)
    (hmem : ∀ i ∈ items, i ∈ st.jobs)
    (hkeep : ∀ i ∈ items, i.state ≠ "DONE" ∨ i.errorStr ≠ "")
    (herr : (cycleLoop wh items st).2.2 = none) :
    ∃ f : BQJob → BQJob,
      (cycleLoop wh items st).2.1.jobs = st.jobs.map f ∧
      (∀ x, (f x).tableId = x.tableId) ∧
      (∀ x ∈ st.jobs, (f x).parents = x.parents ∧ (f x).jobType = x.jobType) ∧
      (∀ x ∈ st.jobs, f x = x ∨
        (x.errorStr = "" ∧ x.state ≠ "DONE" ∧
          (f x).errorStr = "" ∧ (f x).state ≠ "DONE" ∧ (f x).bqJobId ≠ "")) ∧
      (∀ i ∈ items, InertJob (f i)) ∧
      (∀ j ∈ (cycleLoop wh items st).1,
        ∃ y ∈ (cycleLoop wh items st).2.1.jobs, y.tableId = j.tableId ∧
          y.bqJobId ≠ "") := by
  induction items generalizing st with
  | nil =>
    refine ⟨id, ?_, fun x => rfl, fun x _ => ⟨rfl, rfl⟩, fun x _ => Or.inl rfl,
      by simp, ?_⟩
    · rw [cycleLoop_nil, List.map_id]
    · intro j hj
      rw [cycleLoop_nil] at hj
      simp at hj
  | cons i rest ih =>
    rcases hpr : processReadyJob wh st i with ⟨sub, st1, err1⟩
    cases err1 with
    | some e =>
      exfalso
      rw [cycleLoop_cons, hpr] at herr
      simp at herr
    | none =>
      have hcl : cycleLoop wh (i :: rest) st =
          (sub.toList ++ (cycleLoop wh rest st1).1, (cycleLoop wh rest st1).2.1,
            (cycleLoop wh rest st1).2.2) := by
        rw [cycleLoop_cons, hpr]
      obtain ⟨f1, hjobs1, htid1, hpj1, hid1, hcase1⟩ :=
        processReadyJob_step wh st i hW (hmem i (List.mem_cons_self _ _)) hjnd
          (by rw [hpr])
      rw [hpr] at hjobs1
      dsimp only at hjobs1
      have hindc : (∀ x ∈ rest, ¬ x.tableId = i.tableId) ∧
          (rest.map (fun i => i.tableId)).Nodup := by simpa using hind
      have hjnd1 : (st1.jobs.map (fun j => j.tableId)).Nodup := by
        rw [hjobs1, List.map_map]
        rw [show ((fun j => j.tableId) ∘ f1) = fun x => (f1 x).tableId from rfl]
        rw [List.map_congr_left (fun x _ => htid1 x)]
        exact hjnd
      have hmem1 : ∀ i' ∈ rest, i' ∈ st1.jobs := by
        intro i' hi'
        have hi'0 := hmem i' (List.mem_cons_of_mem _ hi')
        have hneq : i'.tableId ≠ i.tableId := hindc.1 i' hi'
        have hfix : f1 i' = i' := hid1 i' hneq
        rw [hjobs1, ← hfix]
        exact List.mem_map_of_mem f1 hi'0
      have herr1 : (cycleLoop wh rest st1).2.2 = none := by
        rw [hcl] at herr
        exact herr
      obtain ⟨f2, hjobs2, htid2, hpj2, hcase2, hinert2, hrec2⟩ :=
        ih st1 hjnd1 hindc.2 hmem1
          (fun i' h => hkeep i' (List.mem_cons_of_mem _ h)) herr1
      have hmemf1 : ∀ x ∈ st.jobs, f1 x ∈ st1.jobs := by
        intro x hx
        rw [hjobs1]
        exact List.mem_map_of_mem f1 hx
      have huniq : ∀ x ∈ st.jobs, x.tableId = i.tableId → x = i := by
        intro x hx hxt
        exact List.inj_on_of_nodup_map hjnd hx (hmem i (List.mem_cons_self _ _)) hxt
      have hkeephead : i.state ≠ "DONE" ∨ i.errorStr ≠ "" :=
        hkeep i (List.mem_cons_self _ _)
      refine ⟨fun x => f2 (f1 x), ?_, ?_, ?_, ?_, ?_, ?_⟩
      · rw [hcl]
        dsimp only
        rw [hjobs2, hjobs1, List.map_map]
        rfl
      · intro x
        rw [htid2 (f1 x), htid1 x]
      · intro x hx
        obtain ⟨hp2, hj2⟩ := hpj2 (f1 x) (hmemf1 x hx)
        obtain ⟨hp1, hj1⟩ := hpj1 x hx
        exact ⟨by rw [hp2, hp1], by rw [hj2, hj1]⟩
      · intro x hx
        dsimp only
        rcases hcase2 (f1 x) (hmemf1 x hx) with h2 | h2
        · rcases hcase1 with ⟨_, hidall⟩ | ⟨hsub, hie, hib, hprops⟩
          · left
            rw [h2, hidall x]
          · by_cases hxt : x.tableId = i.tableId
            · right
              have hxi : x = i := huniq x hx hxt
              obtain ⟨hfe, hfs, hfb⟩ := hprops x hxt
              refine ⟨by rw [hxi]; exact hie, ?_, by rw [h2]; exact hfe,
                by rw [h2]; exact hfs, by rw [h2]; exact hfb⟩
              rw [hxi]
              rcases hkeephead with h | h
              · exact h
              · exact absurd hie h
            · left
              rw [h2, hid1 x hxt]
        · obtain ⟨hy_e, hy_s, hfx_e, hfx_s, hfx_b⟩ := h2
          rcases hcase1 with ⟨_, hidall⟩ | ⟨hsub, hie, hib, hprops⟩
          · have h1 : f1 x = x := hidall x
            right
            rw [h1] at hy_e hy_s
            exact ⟨hy_e, hy_s, hfx_e, hfx_s, hfx_b⟩
          · by_cases hxt : x.tableId = i.tableId
            · right
              have hxi : x = i := huniq x hx hxt
              refine ⟨by rw [hxi]; exact hie, ?_, hfx_e, hfx_s, hfx_b⟩
              rw [hxi]
              rcases hkeephead with h | h
              · exact h
              · exact absurd hie h
            · have h1 : f1 x = x := hid1 x hxt
              right
              rw [h1] at hy_e hy_s
              exact ⟨hy_e, hy_s, hfx_e, hfx_s, hfx_b⟩
      · intro i0 hi0
        rcases List.mem_cons.mp hi0 with heq | hi0r
        · subst heq
          rcases hcase1 with ⟨hsubn, hidall⟩ | ⟨hsub, hie, hib, hprops⟩
          · obtain ⟨hie, hreason⟩ :=
              processReadyJob_none_reason wh st i0 hW hsubn (by rw [hpr])
            have h1 : f1 i0 = i0 := hidall i0
            have hi1 : i0 ∈ st1.jobs := by
              rw [← h1]
              exact hmemf1 i0 (hmem i0 (List.mem_cons_self _ _))
            rcases hcase2 i0 hi1 with h2 | h2
            · show InertJob (f2 (f1 i0))
              rw [h1, h2]
              rcases hreason with h | h
              · exact Or.inl h
              · exact Or.inr (Or.inl h)
            · show InertJob (f2 (f1 i0))
              rw [h1]
              exact Or.inl h2.2.2.2.2
          · obtain ⟨hfe, hfs, hfb⟩ := hprops i0 rfl
            have hi1 : f1 i0 ∈ st1.jobs :=
              hmemf1 i0 (hmem i0 (List.mem_cons_self _ _))
            rcases hcase2 (f1 i0) hi1 with h2 | h2
            · show InertJob (f2 (f1 i0))
              rw [h2]
              exact Or.inl hfb
            · exact Or.inl h2.2.2.2.2
        · have hneq : i0.tableId ≠ i.tableId := hindc.1 i0 hi0r
          have h1 : f1 i0 = i0 := hid1 i0 hneq
          show InertJob (f2 (f1 i0))
          rw [h1]
          exact hinert2 i0 hi0r
      · intro j hj
        rw [hcl] at hj
        dsimp only at hj
        rcases List.mem_append.mp hj with hj1 | hj2
        · cases sub with
          | none => simp at hj1
          | some x =>
            have hx : j = x := by simpa using hj1
            rcases hcase1 with ⟨hsubn, _⟩ | ⟨hsub, hie, hib, hprops⟩
            · rw [hpr] at hsubn
              simp at hsubn
            · rw [hpr] at hsub
              dsimp only at hsub
              injection hsub with hsub
              obtain ⟨hfe, hfs, hfb⟩ := hprops i rfl
              have hi1 : f1 i ∈ st1.jobs :=
                hmemf1 i (hmem i (List.mem_cons_self _ _))
              refine ⟨f2 (f1 i), ?_, ?_, ?_⟩
              · rw [hcl]
                dsimp only
                rw [hjobs2]
                exact List.mem_map_of_mem f2 hi1
              · rw [htid2 (f1 i), htid1 i, hx, hsub]
              · rcases hcase2 (f1 i) hi1 with h2 | h2
                · rw [h2]
                  exact hfb
                · exact h2.2.2.2.2
        · obtain ⟨y, hy, hyt, hyb⟩ := hrec2 j hj2
          refine ⟨y, ?_, hyt, hyb⟩
          rw [hcl]
          dsimp only
          exact hy

/-! ## The second cycle sees the same graph -/

/-- Mapping the job rows by a tableId-preserving function that flips rows only
between errorless-non-DONE states commutes with building the unfinished map. -/
theorem buildByIdFrom_zero_map (jobs : List BQJob) (f : BQJob → BQJob) (errCnt : Nat)
    (hpres : ∀ x, (f x).tableId = x.tableId)
    (hcond : ∀ x ∈ jobs, f x = x ∨
      (x.errorStr = "" ∧ x.state ≠ "DONE" ∧ (f x).errorStr = "" ∧
        (f x).state ≠ "DONE")) :
    buildByIdFrom 0 (jobs.map f) errCnt =
      (buildByIdFrom 0 jobs errCnt).map (fun e => (e.1, f e.2)) := by
  induction jobs generalizing errCnt with
  | nil => rfl
  | cons a rest ih =>
    have ihr := fun ec => ih ec (fun x hx => hcond x (List.mem_cons_of_mem _ hx))
    rcases hcond a (List.mem_cons_self _ _) with heq | ⟨hae, has, hfe, hfs⟩
    · rw [List.map_cons]
      rw [show buildByIdFrom 0 (f a :: (rest.map f)) errCnt =
        (if containsSubstr (f a).errorStr bqSchemaErr then
          buildByIdFrom 0 (rest.map f) errCnt
        else
          if (f a).state != "DONE" ||
              ((f a).errorStr != "" && ((0 : Nat) == 0 ||
                ((0 : Nat) > 0 &&
                  (if (f a).errorStr != "" then errCnt + 1 else errCnt) > 0)))
          then ((f a).tableId, f a) :: buildByIdFrom 0 (rest.map f)
            (if (f a).errorStr != "" then errCnt + 1 else errCnt)
          else buildByIdFrom 0 (rest.map f)
            (if (f a).errorStr != "" then errCnt + 1 else errCnt)) from rfl]
      rw [show buildByIdFrom 0 (a :: rest) errCnt =
        (if containsSubstr a.errorStr bqSchemaErr then
          buildByIdFrom 0 rest errCnt
        else
          if a.state != "DONE" ||
              (a.errorStr != "" && ((0 : Nat) == 0 ||
                ((0 : Nat) > 0 && (if a.errorStr != "" then errCnt + 1 else errCnt) > 0)))
          then (a.tableId, a) :: buildByIdFrom 0 rest
            (if a.errorStr != "" then errCnt + 1 else errCnt)
          else buildByIdFrom 0 rest
            (if a.errorStr != "" then errCnt + 1 else errCnt)) from rfl]
      rw [heq]
      split_ifs
      all_goals first
        | exact ihr _
        | (rw [List.map_cons]
           dsimp only
           rw [heq, ihr _])
    · have hsa : containsSubstr a.errorStr bqSchemaErr = false := by
        rw [hae]
        decide
      have hsf : containsSubstr (f a).errorStr bqSchemaErr = false := by
        rw [hfe]
        decide
      have hka : (a.state != "DONE") = true := by simpa using has
      have hkf : ((f a).state != "DONE") = true := by simpa using hfs
      have hea : (a.errorStr != "") = false := by simp [hae]
      have hef : ((f a).errorStr != "") = false := by simp [hfe]
      rw [List.map_cons]
      rw [show buildByIdFrom 0 (f a :: (rest.map f)) errCnt =
        (if containsSubstr (f a).errorStr bqSchemaErr then
          buildByIdFrom 0 (rest.map f) errCnt
        else
          if (f a).state != "DONE" ||
              ((f a).errorStr != "" && ((0 : Nat) == 0 ||
                ((0 : Nat) > 0 &&
                  (if (f a).errorStr != "" then errCnt + 1 else errCnt) > 0)))
          then ((f a).tableId, f a) :: buildByIdFrom 0 (rest.map f)
            (if (f a).errorStr != "" then errCnt + 1 else errCnt)
          else buildByIdFrom 0 (rest.map f)
            (if (f a).errorStr != "" then errCnt + 1 else errCnt)) from rfl]
      rw [show buildByIdFrom 0 (a :: rest) errCnt =
        (if containsSubstr a.errorStr bqSchemaErr then
          buildByIdFrom 0 rest errCnt
        else
          if a.state != "DONE" ||
              (a.errorStr != "" && ((0 : Nat) == 0 ||
                ((0 : Nat) > 0 && (if a.errorStr != "" then errCnt + 1 else errCnt) > 0)))
          then (a.tableId, a) :: buildByIdFrom 0 rest
            (if a.errorStr != "" then errCnt + 1 else errCnt)
          else buildByIdFrom 0 rest
            (if a.errorStr != "" then errCnt + 1 else errCnt)) from rfl]
      rw [hsa, hsf, hka, hkf, hea, hef]
      simp only [if_neg (by simp : ¬ (false = true)), Bool.true_or, if_true,
        if_pos rfl, List.map_cons]
      rw [ihr errCnt, hpres a]

/-- Building the dependency graph only reads table ids and parents, so a map
preserving them leaves the graph unchanged. -/
theorem graphFromJobsById_congr (byId : List (Int × BQJob)) (f : BQJob → BQJob)
    (hpres : ∀ e ∈ byId, (f e.2).tableId = e.2.tableId ∧ (f e.2).parents = e.2.parents) :
    graphFromJobsById (byId.map (fun e => (e.1, f e.2))) = graphFromJobsById byId := by
  unfold graphFromJobsById
  have hks : (byId.map (fun e => (e.1, f e.2))).map (fun x => x.1) =
      byId.map (fun x => x.1) := by
    rw [List.map_map]
    rfl
  rw [hks]
  have hbind : ∀ (l : List (Int × BQJob)),
      (∀ e ∈ l, (f e.2).tableId = e.2.tableId ∧ (f e.2).parents = e.2.parents) →
      (l.map (fun e => (e.1, f e.2))).bind
        (fun e => relsOfJob (byId.map (fun x => x.1)) e.2) =
      l.bind (fun e => relsOfJob (byId.map (fun x => x.1)) e.2) := by
    intro l
    induction l with
    | nil => intro _; rfl
    | cons e rest ihl =>
      intro hl
      rw [List.map_cons]
      rw [show (((e.1, f e.2) :: (rest.map (fun e => (e.1, f e.2)))).bind
          (fun e => relsOfJob (byId.map (fun x => x.1)) e.2)) =
        (relsOfJob (byId.map (fun x => x.1)) (f e.2) ++
          (rest.map (fun e => (e.1, f e.2))).bind
            (fun e => relsOfJob (byId.map (fun x => x.1)) e.2)) from rfl]
      rw [show ((e :: rest).bind
          (fun e => relsOfJob (byId.map (fun x => x.1)) e.2)) =
        (relsOfJob (byId.map (fun x => x.1)) e.2 ++
          rest.bind (fun e => relsOfJob (byId.map (fun x => x.1)) e.2)) from rfl]
      rw [ihl (fun e2 he2 => hl e2 (List.mem_cons_of_mem _ he2))]
      have hrels : relsOfJob (byId.map (fun x => x.1)) (f e.2) =
          relsOfJob (byId.map (fun x => x.1)) e.2 := by
        unfold relsOfJob
        rw [(hl e (List.mem_cons_self _ _)).1, (hl e (List.mem_cons_self _ _)).2]
      rw [hrels]
  rw [hbind byId hpres]

theorem jobsByName_map (byId : List (Int × BQJob)) (f : BQJob → BQJob) :
    jobsByName (byId.map (fun e => (e.1, f e.2))) =
      (jobsByName byId).map (fun e => (e.1, f e.2)) := by
  unfold jobsByName
  rw [List.map_map, List.map_map]
  rfl

theorem lookupByName_map (l : List (String × BQJob)) (f : BQJob → BQJob) (n : String) :
    lookupByName (l.map (fun e => (e.1, f e.2))) n = (lookupByName l n).map f := by
  induction l with
  | nil => rfl
  | cons e rest ih =>
    rw [List.map_cons, lookupByName, lookupByName]
    by_cases he : (e.1 == n) = true
    · rw [if_pos he, if_pos he]
      rfl
    · rw [if_neg he, if_neg he]
      exact ih

/-- A filterMap that yields, when anything, the pair's name is a sublist of
the names. -/
theorem filterMap_fst_sublist (l : List (String × Int)) (h : String × Int → Option String)
    (hh : ∀ sn, h sn = none ∨ h sn = some sn.1) :
    List.Sublist (l.filterMap h) (l.map Prod.fst) := by
  induction l with
  | nil => simp
  | cons a rest ih =>
    rw [List.filterMap_cons, List.map_cons]
    rcases hh a with ha | ha
    · rw [ha]
      exact List.Sublist.cons _ ih
    · rw [ha]
      exact List.Sublist.cons₂ _ ih

theorem scoresAfter_names_nodup (g1 : Shape) : ((scoresAfter g1).map Prod.fst).Nodup := by
  have hmapfst : ∀ l : List String,
      (l.filterMap (fun n => if n = csName then none
        else some (n, nodeScore g1 n))).map Prod.fst =
      l.filter (fun x => !(x == csName)) := by
    intro l
    induction l with
    | nil => rfl
    | cons a as ihl =>
      by_cases ha : a = csName
      · simp [List.filterMap_cons, List.filter_cons, ha, ihl]
      · simp [List.filterMap_cons, List.filter_cons, ha, ihl]
  unfold scoresAfter
  have hperm := (sortScores_perm ((scoreOrder g1).filterMap
    (fun n => if n = csName then none else some (n, nodeScore g1 n)))).map Prod.fst
  rw [hmapfst] at hperm
  have hsn : ((scoreOrder g1).filter (fun x => !(x == csName))).Nodup :=
    ((bft_nodup (fun nd => nd.parents) g1 [csName] []).1).filter _
  exact hperm.nodup_iff.mpr hsn

theorem readyNamesAfter_nodup (g1 : Shape) : (readyNamesAfter g1).Nodup := by
  have hsub : List.Sublist (readyNamesAfter g1) ((scoresAfter g1).map Prod.fst) := by
    unfold readyNamesAfter
    apply filterMap_fst_sublist
    intro sn
    cases hlk : lookupS g1 sn.1 with
    | none => exact Or.inl rfl
    | some nd =>
      by_cases hp : nd.parents.isEmpty
      · exact Or.inr (by dsimp only; rw [if_pos hp])
      · exact Or.inl (by dsimp only; rw [if_neg hp])
  exact hsub.nodup (scoresAfter_names_nodup g1)

/-- Looking up pairwise distinct names in the byId map yields jobs with
pairwise distinct table ids (each found job's printed id is its name). -/
theorem items_tids_nodup (byIdW : List (String × BQJob))
    (hWn : ∀ n j, lookupByName byIdW n = some j → intName j.tableId = n)
    (names : List String) (hnd : names.Nodup) :
    ((names.filterMap (fun n => lookupByName byIdW n)).map
      (fun i => i.tableId)).Nodup := by
  induction names with
  | nil => simp
  | cons n rest ih =>
    rw [List.filterMap_cons]
    cases hlk : lookupByName byIdW n with
    | none => exact ih (List.nodup_cons.mp hnd).2
    | some i =>
      rw [List.map_cons]
      apply List.nodup_cons.mpr
      refine ⟨?_, ih (List.nodup_cons.mp hnd).2⟩
      intro hmem
      obtain ⟨i2, hi2, htid⟩ := List.mem_map.mp hmem
      obtain ⟨n2, hn2, hlk2⟩ := List.mem_filterMap.mp hi2
      have h1 := hWn n i hlk
      have h2 := hWn n2 i2 hlk2
      rw [← htid] at h1
      rw [h2] at h1
      rw [h1] at hn2
      exact (List.nodup_cons.mp hnd).1 hn2

/-- C2: with a warehouse whose every StartJob succeeds at once with a usable
id, and one job row per table id, a non-failing processCycle records a
non-empty warehouse-side id for every job it submits (and submits only
empty-id jobs), and a second back-to-back call on the resulting catalog
submits nothing.  Without the well-behaved-warehouse assumption, the spec's
idempotence FAILS on the temporary-error retry path (see
`Maestro.processCycle_retry_resubmits_cx`). -/
theorem processCycle_idempotent (wh : Int → StartRes × StartRes) (st : PCState)
    (hW : WhGood wh) (hnd : (st.jobs.map (fun j => j.tableId)).Nodup)
    (herr : (processCycle 0 wh st).2.2 = none) :
    (∀ j ∈ (processCycle 0 wh st).1,
      j.bqJobId = "" ∧
      ∃ y ∈ ((processCycle 0 wh st).2.1).jobs, y.tableId = j.tableId ∧
        y.bqJobId ≠ "") ∧
    (processCycle 0 wh ((processCycle 0 wh st).2.1)).1 = [] := by
  by_cases hemp : (graphFromJobsById (buildById 0 st.jobs)).isEmpty = true
  · have h1 : processCycle 0 wh st = ([], { st with runEnded := true }, none) := by
      rw [processCycle_eq, if_pos hemp]
    constructor
    · intro j hj
      rw [h1] at hj
      simp at hj
    · rw [h1]
      dsimp only
      rw [processCycle_eq]
      rw [show ({ st with runEnded := true } : PCState).jobs = st.jobs from rfl]
      rw [if_pos hemp]
  · cases hri : ReadyItemsS (graphFromJobsById (buildById 0 st.jobs)) with
    | error e =>
      exfalso
      rw [processCycle_eq, if_neg hemp, hri] at herr
      simp at herr
    | ok ready =>
      have hpc : processCycle 0 wh st =
          cycleLoop wh (ready.filterMap
            (fun n => lookupByName (jobsByName (buildById 0 st.jobs)) n)) st := by
        rw [processCycle_eq, if_neg hemp, hri]
      rw [hpc] at herr
      have hWn : ∀ n j, lookupByName (jobsByName (buildById 0 st.jobs)) n = some j →
          intName j.tableId = n := by
        intro n j h
        obtain ⟨tid, hm, hn⟩ := lookupByName_jobsByName _ n j h
        obtain ⟨_, htid, _, _⟩ := (buildByIdFrom_zero_mem st.jobs 0 tid j).mp hm
        rw [← hn, htid]
      have hready_nodup : ready.Nodup := by
        have hre := readyItems_ok_names _ ready hri
        rw [hre]
        exact readyNamesAfter_nodup _
      have hind : ((ready.filterMap
          (fun n => lookupByName (jobsByName (buildById 0 st.jobs)) n)).map
            (fun i => i.tableId)).Nodup :=
        items_tids_nodup _ hWn ready hready_nodup
      have hmem : ∀ i ∈ ready.filterMap
          (fun n => lookupByName (jobsByName (buildById 0 st.jobs)) n), i ∈ st.jobs := by
        intro i hi
        obtain ⟨n, hn, hlk⟩ := List.mem_filterMap.mp hi
        obtain ⟨tid, hm, _⟩ := lookupByName_jobsByName _ n i hlk
        exact ((buildByIdFrom_zero_mem st.jobs 0 tid i).mp hm).1
      have hkeep : ∀ i ∈ ready.filterMap
          (fun n => lookupByName (jobsByName (buildById 0 st.jobs)) n),
          i.state ≠ "DONE" ∨ i.errorStr ≠ "" := by
        intro i hi
        obtain ⟨n, hn, hlk⟩ := List.mem_filterMap.mp hi
        obtain ⟨tid, hm, _⟩ := lookupByName_jobsByName _ n i hlk
        exact ((buildByIdFrom_zero_mem st.jobs 0 tid i).mp hm).2.2.2
      obtain ⟨f, hjobsf, htidf, hpjf, hcasef, hinertf, hrecf⟩ :=
        cycleLoop_good wh _ st hW hnd hind hmem hkeep herr
      have hbyId2 : buildById 0 ((cycleLoop wh (ready.filterMap
          (fun n => lookupByName (jobsByName (buildById 0 st.jobs)) n)) st).2.1).jobs =
          (buildById 0 st.jobs).map (fun e => (e.1, f e.2)) := by
        rw [hjobsf]
        exact buildByIdFrom_zero_map st.jobs f 0 htidf
          (fun x hx => (hcasef x hx).imp id
            (fun h => ⟨h.1, h.2.1, h.2.2.1, h.2.2.2.1⟩))
      have hgraph2 : graphFromJobsById
          ((buildById 0 st.jobs).map (fun e => (e.1, f e.2))) =
          graphFromJobsById (buildById 0 st.jobs) := by
        apply graphFromJobsById_congr
        intro e he
        have he2 : e.2 ∈ st.jobs :=
          ((buildByIdFrom_zero_mem st.jobs 0 e.1 e.2).mp he).1
        exact ⟨htidf e.2, (hpjf e.2 he2).1⟩
      constructor
      · intro j hj
        rw [hpc] at hj
        refine ⟨(cycleLoop_submits wh _ st j hj).2.2.1, ?_⟩
        obtain ⟨y, hy, hyt, hyb⟩ := hrecf j hj
        rw [hpc]
        exact ⟨y, hy, hyt, hyb⟩
      · rw [hpc]
        rw [processCycle_eq]
        rw [hbyId2, hgraph2]
        rw [if_neg hemp, hri]
        dsimp only
        rw [jobsByName_map]
        simp only [lookupByName_map]
        rw [← List.map_filterMap]
        apply cycleLoop_inert_no_submit
        intro i2 hi2
        obtain ⟨i, hii, heq⟩ := List.mem_map.mp hi2
        rw [← heq]
        exact hinertf i hii

theorem whGood_whAlwaysOk : WhGood whAlwaysOk := by
  intro tid
  refine ⟨⟨"newid", some ⟨"RUNNING", none⟩⟩, rfl, by decide, ⟨"RUNNING", none⟩, rfl,
    by decide, rfl⟩

theorem processCycle_c2_always :
    processCycle 0 whAlwaysOk c2State =
      ([c2Job],
       ⟨[⟨1, [], "newid", "query", some ⟨"RUNNING", none⟩⟩],
        [(1, ⟨1, 0, 0, "", true⟩)], [], [], false⟩, none) := by
  rw [processCycle_eq]
  rw [show buildById 0 c2State.jobs = [(1, c2Job)] from rfl]
  rw [show graphFromJobsById [(1, c2Job)] = [("1", SNode.mk [] [])] from rfl]
  rw [c2_readyItems]
  rfl

/-- C2 witness: the idempotence theorem applied to a catalog holding one
pending query job, against the always-succeeding warehouse; the first cycle is
computed. -/
theorem processCycle_idempotent_witness :
    WhGood whAlwaysOk ∧ (c2State.jobs.map (fun j => j.tableId)).Nodup ∧
      (processCycle 0 whAlwaysOk c2State).2.2 = none ∧
      ((∀ j ∈ (processCycle 0 whAlwaysOk c2State).1,
        j.bqJobId = "" ∧
        ∃ y ∈ ((processCycle 0 whAlwaysOk c2State).2.1).jobs, y.tableId = j.tableId ∧
          y.bqJobId ≠ "") ∧
      (processCycle 0 whAlwaysOk ((processCycle 0 whAlwaysOk c2State).2.1)).1 = []) :=
  ⟨whGood_whAlwaysOk, by decide, by rw [processCycle_c2_always],
   processCycle_idempotent whAlwaysOk c2State whGood_whAlwaysOk (by decide)
     (by rw [processCycle_c2_always])⟩

end Maestro
